import Mathlib

/-!
# Verification of the treetools branch-structure core

A shallow embedding, over the reals, of the segment-tree data model and of the
operations of the `treetools` repository that the specification describes:

* diameter and length pruning (`src/treelib/treepruner.cpp`),
* branch-length and bifurcation analysis (`src/treelib/treeinformation.cpp`),
* the power-law fitter (`src/treelib/treeinformation.cpp`),
* segment decimation (`src/treetools/treedecimate/treedecimate.cpp`),
* the cylinder-overlap estimator (`src/treelib/treeutils.cpp`).

C++ `double` arithmetic is idealised as real arithmetic.  The two numeric
sentinels of the source, `std::numeric_limits<double>::min()` (the smallest
positive double, used as a branch-free division floor) and
`std::numeric_limits<double>::max()` (used as the "unvisited" sentinel of the
minimum-distance pass), are embedded as an explicit parameter `dMin` and a
constant `dblMax`.  Imperative loops are embedded as folds over index ranges;
`while` climbs along parent chains carry explicit fuel (the segment count
bounds every chain of a topologically ordered tree).
-/

noncomputable section

namespace TreeTools

/-! ## Vectors (Eigen::Vector3d) -/

/-- A 3-d vector (`Eigen::Vector3d`). -/
structure V3 where
  x : ℝ
  y : ℝ
  z : ℝ
deriving DecidableEq

namespace V3

def add (a b : V3) : V3 := ⟨a.x + b.x, a.y + b.y, a.z + b.z⟩

def sub (a b : V3) : V3 := ⟨a.x - b.x, a.y - b.y, a.z - b.z⟩

def smul (s : ℝ) (a : V3) : V3 := ⟨s * a.x, s * a.y, s * a.z⟩

/-- `Eigen` dot product. -/
def dot (a b : V3) : ℝ := a.x * b.x + a.y * b.y + a.z * b.z

/-- `Eigen` cross product. -/
def cross (a b : V3) : V3 :=
  ⟨a.y * b.z - a.z * b.y, a.z * b.x - a.x * b.z, a.x * b.y - a.y * b.x⟩

/-- `squaredNorm()`. -/
def normSq (a : V3) : ℝ := dot a a

/-- `norm()`. -/
def norm (a : V3) : ℝ := Real.sqrt (normSq a)

/-- `normalized()` (the degenerate zero vector divides by zero, which the real
embedding sends to the zero vector). -/
def normalized (a : V3) : V3 := smul (1 / norm a) a

def zero : V3 := ⟨0, 0, 0⟩

lemma norm_nonneg (a : V3) : 0 ≤ norm a := Real.sqrt_nonneg _

lemma normSq_nonneg (a : V3) : 0 ≤ normSq a := by
  unfold normSq dot
  nlinarith [sq_nonneg a.x, sq_nonneg a.y, sq_nonneg a.z]

lemma norm_sub_comm (a b : V3) : norm (sub a b) = norm (sub b a) := by
  unfold norm normSq dot sub
  ring_nf

end V3

/-! ## The segment-tree data model (ray::TreeStructure, ray::ForestStructure) -/

/-- One tapered cylindrical branch piece (`ray::TreeStructure::Segment`). -/
structure Segment where
  tip : V3
  radius : ℝ
  parent_id : ℤ
  attributes : List ℝ

/-- The out-of-range read default (C++ indexing out of range is undefined;
every theorem below guards indices, so the default never matters). -/
def dfltSeg : Segment := ⟨V3.zero, 0, -1, []⟩

/-- A tree: an ordered sequence of segments plus per-tree attributes
(`ray::TreeStructure`). -/
structure TreeStructure where
  segments : List Segment
  treeAttributes : List ℝ

/-- A forest: an ordered list of trees plus provenance comments
(`ray::ForestStructure`). -/
structure ForestStructure where
  trees : List TreeStructure
  comments : List String

/-- Indexed segment access, `tree.segments()[i]`. -/
def segAt (segs : List Segment) (i : ℕ) : Segment := segs.getD i dfltSeg

/-- `tree.segments()[i].parent_id`. -/
def parentOf (segs : List Segment) (i : ℕ) : ℤ := (segAt segs i).parent_id

/-- The topological-order validity invariant of the data model: segment 0 is
the root with `parent_id = -1`, and every other segment's parent is a strictly
smaller index (parents stored before children). -/
def ValidSegs (segs : List Segment) : Prop :=
  segs ≠ [] ∧ parentOf segs 0 = -1 ∧
    ∀ i, 1 ≤ i → i < segs.length → 0 ≤ parentOf segs i ∧ parentOf segs i < (i : ℤ)

def ValidTree (t : TreeStructure) : Prop := ValidSegs t.segments

def ValidForest (f : ForestStructure) : Prop := ∀ t ∈ f.trees, ValidTree t

/-- One step of the child relation: `b` is a child of `a`. -/
def ChildStep (segs : List Segment) (a b : ℕ) : Prop :=
  b < segs.length ∧ 1 ≤ b ∧ parentOf segs b = (a : ℤ)

/-- Reachability from the root by following children. -/
def ReachableFromRoot (segs : List Segment) (i : ℕ) : Prop :=
  Relation.ReflTransGen (ChildStep segs) 0 i

/-- In a valid tree every index is reachable from the root. -/
lemma valid_reachable {segs : List Segment} (hv : ValidSegs segs) :
    ∀ i, i < segs.length → ReachableFromRoot segs i := by
  intro i
  induction i using Nat.strong_induction_on with
  | _ i ih =>
    intro hi
    rcases Nat.eq_zero_or_pos i with h0 | h1
    · subst h0; exact Relation.ReflTransGen.refl
    · have hpar := hv.2.2 i h1 hi
      set p := parentOf segs i with hp
      have hpn : p = ((p.toNat : ℕ) : ℤ) := (Int.toNat_of_nonneg hpar.1).symm
      have hlt : p.toNat < i := by omega
      have hre : ReachableFromRoot segs p.toNat :=
        ih p.toNat hlt (lt_trans hlt hi)
      exact Relation.ReflTransGen.tail hre ⟨hi, h1, by rw [← hp]; omega⟩

/-! ## List access helpers -/

lemma getD_set_self {α : Type} {d v : α} {l : List α} {i : ℕ} (h : i < l.length) :
    (l.set i v).getD i d = v := by
  induction l generalizing i with
  | nil => simp at h
  | cons a t ih =>
    cases i with
    | zero => simp [List.set]
    | succ j => simpa using ih (by simpa using h)

lemma getD_set_ne {α : Type} {d v : α} (l : List α) {i j : ℕ} (h : i ≠ j) :
    (l.set i v).getD j d = l.getD j d := by
  induction l generalizing i j with
  | nil => simp [List.set]
  | cons a t ih =>
    cases i with
    | zero => cases j with
      | zero => exact absurd rfl h
      | succ k => simp [List.set]
    | succ i' => cases j with
      | zero => simp [List.set]
      | succ k => simpa using ih (by omega)

lemma getD_replicate {α : Type} {d v : α} {n i : ℕ} (h : i < n) :
    (List.replicate n v).getD i d = v := by
  induction n generalizing i with
  | zero => omega
  | succ m ih =>
    cases i with
    | zero => simp [List.replicate]
    | succ j => simp only [List.replicate]; exact ih (by omega)

lemma getD_append_left {α : Type} {d : α} (l l' : List α) {i : ℕ} (h : i < l.length) :
    (l ++ l').getD i d = l.getD i d := by
  induction l generalizing i with
  | nil => simp at h
  | cons a t ih =>
    cases i with
    | zero => simp
    | succ j => exact ih (by simpa using h)

lemma getD_append_right_self {α : Type} {d v : α} (l : List α) :
    (l ++ [v]).getD l.length d = v := by
  induction l with
  | nil => simp
  | cons a t ih => simp only [List.cons_append, List.length_cons, List.getD_cons_succ]; exact ih

lemma getD_eq_getElem {α : Type} {d : α} (l : List α) {i : ℕ} (h : i < l.length) :
    l.getD i d = l[i] := by
  simp [List.getD_eq_getElem?_getD, List.getElem?_eq_getElem h]

/-! ## Children lists

Every traversal first builds the per-segment children list by one linear pass
(`children[tree.segments()[i].parent_id].push_back(i)` for `i = 1 .. n-1`). -/

/-- The children-list builder pass. -/
def buildChildren (segs : List Segment) : List (List ℕ) :=
  (List.range' 1 (segs.length - 1)).foldl
    (fun ch i =>
      ch.set (parentOf segs i).toNat ((ch.getD (parentOf segs i).toNat []) ++ [i]))
    (List.replicate segs.length [])

/-- `children[i]`. -/
def childrenOf (segs : List Segment) (i : ℕ) : List ℕ :=
  (buildChildren segs).getD i []

lemma buildChildren_aux (segs : List Segment)
    (hv : ∀ j, 1 ≤ j → j < segs.length →
      0 ≤ parentOf segs j ∧ parentOf segs j < (j : ℤ)) :
    ∀ k, k ≤ segs.length - 1 →
      ((List.range' 1 k).foldl
        (fun ch i =>
          ch.set (parentOf segs i).toNat ((ch.getD (parentOf segs i).toNat []) ++ [i]))
        (List.replicate segs.length [])).length = segs.length ∧
      ∀ i, ((List.range' 1 k).foldl
        (fun ch i =>
          ch.set (parentOf segs i).toNat ((ch.getD (parentOf segs i).toNat []) ++ [i]))
        (List.replicate segs.length [])).getD i []
        = (List.range' 1 k).filter (fun j => (parentOf segs j).toNat = i) := by
  intro k
  induction k with
  | zero =>
    intro _
    constructor
    · simp
    · intro i
      rcases Nat.lt_or_ge i segs.length with h | h
      · simp [getD_replicate h]
      · simp [List.getD_eq_getElem?_getD, List.getElem?_eq_none (by simpa using h)]
  | succ m ih =>
    intro hm
    have hm' : m ≤ segs.length - 1 := by omega
    obtain ⟨ihlen, ihget⟩ := ih hm'
    have hconcat : List.range' 1 (m + 1) = List.range' 1 m ++ [1 + m] := by
      simpa using @List.range'_concat 1 1 m
    have hmem : 1 ≤ 1 + m ∧ 1 + m < segs.length := by
      constructor
      · omega
      · have hne : segs ≠ [] := by
          intro h; rw [h] at hm; simp at hm
        have : 0 < segs.length := List.length_pos.mpr hne
        omega
    have hpar := hv (1 + m) hmem.1 hmem.2
    have hparlt : (parentOf segs (1 + m)).toNat < segs.length := by omega
    rw [hconcat, List.foldl_append]
    constructor
    · simp only [List.foldl_cons, List.foldl_nil, List.length_set]
      exact ihlen
    · intro i
      simp only [List.foldl_cons, List.foldl_nil, List.filter_append]
      rcases eq_or_ne (parentOf segs (1 + m)).toNat i with he | hne
      · subst he
        rw [getD_set_self (by rw [ihlen]; exact hparlt), ihget]
        simp
      · rw [getD_set_ne _ hne, ihget]
        have : ((1 + m) :: List.filter (fun j => decide ((parentOf segs j).toNat = i)) []).filter
            (fun j => decide ((parentOf segs j).toNat = i)) =
            List.filter (fun j => decide ((parentOf segs j).toNat = i)) [1 + m] := rfl
        simp [List.filter, hne]

/-- In a valid tree, `children[i]` is exactly the ascending list of the
indices whose parent is `i`. -/
lemma childrenOf_eq (segs : List Segment) (hv : ValidSegs segs) (i : ℕ) :
    childrenOf segs i
      = (List.range' 1 (segs.length - 1)).filter (fun j => (parentOf segs j).toNat = i) := by
  unfold childrenOf buildChildren
  exact ((buildChildren_aux segs hv.2.2 (segs.length - 1) le_rfl).2 i)

/-- Membership in the children list. -/
lemma mem_childrenOf (segs : List Segment) (hv : ValidSegs segs) (i j : ℕ) :
    j ∈ childrenOf segs i ↔ 1 ≤ j ∧ j < segs.length ∧ parentOf segs j = (i : ℤ) := by
  rw [childrenOf_eq segs hv i]
  have hlen : 0 < segs.length := List.length_pos.mpr hv.1
  constructor
  · intro h
    have hmem := List.mem_filter.mp h
    have hr := List.mem_range'.mp hmem.1
    obtain ⟨i', hi', heq⟩ := hr
    have h1 : 1 ≤ j := by omega
    have h2 : j < segs.length := by omega
    refine ⟨h1, h2, ?_⟩
    have := of_decide_eq_true hmem.2
    have hp := (hv.2.2 j h1 h2).1
    omega
  · intro ⟨h1, h2, h3⟩
    refine List.mem_filter.mpr ⟨List.mem_range'.mpr ⟨j - 1, by omega, by omega⟩, ?_⟩
    simp only [decide_eq_true_eq]
    omega

/-- A segment is a leaf iff nothing has it as parent. -/
lemma childrenOf_eq_nil_iff (segs : List Segment) (hv : ValidSegs segs) (i : ℕ) :
    childrenOf segs i = [] ↔
      ∀ j, 1 ≤ j → j < segs.length → parentOf segs j ≠ (i : ℤ) := by
  constructor
  · intro h j h1 h2 hpj
    have : j ∈ childrenOf segs i := (mem_childrenOf segs hv i j).mpr ⟨h1, h2, hpj⟩
    rw [h] at this; simp at this
  · intro h
    by_contra hne
    obtain ⟨j, hj⟩ := List.exists_mem_of_ne_nil _ hne
    have := (mem_childrenOf segs hv i j).mp hj
    exact h j this.1 this.2.1 this.2.2

/-! ## The rebuild pass

Each transforming operation rebuilds the segment list root-to-tip, keeping only
the segments selected by a per-index decision `f` (`none` = dropped, `some s` =
push `s`, whose `parent_id` still holds the original parent) and remapping each
survivor's `parent_id` through the `new_index` table so that it points at the
nearest surviving ancestor's new position. -/

/-- One iteration of the rebuild loop of `pruneDiameter` / `pruneLength` /
stride decimation (state: `new_tree.segments()` and `new_index`). -/
def rebuildStep (segs : List Segment) (f : ℕ → Option Segment)
    (st : List Segment × List ℕ) (i : ℕ) : List Segment × List ℕ :=
  match f i with
  | some s =>
      (st.1 ++ [{ s with parent_id := (st.2.getD (parentOf segs i).toNat 0 : ℤ) }],
       st.2 ++ [st.1.length])
  | none => (st.1, st.2 ++ [st.2.getD (parentOf segs i).toNat 0])

/-- The rebuild loop: `new_tree` starts from the root segment alone and
`new_index[0] = 0`. -/
def rebuild (segs : List Segment) (f : ℕ → Option Segment) :
    List Segment × List ℕ :=
  (List.range' 1 (segs.length - 1)).foldl (rebuildStep segs f) ([segAt segs 0], [0])

/-- Number of kept indices among `1 .. k`. -/
def keptCount (f : ℕ → Option Segment) (k : ℕ) : ℕ :=
  ((List.range' 1 k).filter (fun j => (f j).isSome)).length

/-- Invariant of the rebuild loop after processing indices `1 .. k`. -/
structure RebuildInv (segs : List Segment) (f : ℕ → Option Segment) (k : ℕ)
    (ρ : List Segment × List ℕ) : Prop where
  idx_len : ρ.2.length = k + 1
  seg_len : ρ.1.length = 1 + keptCount f k
  head : ρ.1.getD 0 dfltSeg = segAt segs 0
  idx_lt : ∀ j, j ≤ k → ρ.2.getD j 0 < ρ.1.length
  idx_zero : ρ.2.getD 0 0 = 0
  idx_drop : ∀ j, 1 ≤ j → j ≤ k → f j = none →
      ρ.2.getD j 0 = ρ.2.getD (parentOf segs j).toNat 0
  idx_keep : ∀ j, 1 ≤ j → j ≤ k → (f j).isSome →
      ρ.2.getD j 0 = 1 + keptCount f (j - 1)
  mem_keep : ∀ j s, 1 ≤ j → j ≤ k → f j = some s →
      ρ.1.getD (ρ.2.getD j 0) dfltSeg =
        { s with parent_id := (ρ.2.getD (parentOf segs j).toNat 0 : ℤ) }
  par_valid : ∀ p, 1 ≤ p → p < ρ.1.length →
      0 ≤ (ρ.1.getD p dfltSeg).parent_id ∧ (ρ.1.getD p dfltSeg).parent_id < (p : ℤ)
  pos_surj : ∀ p, 1 ≤ p → p < ρ.1.length →
      ∃ j s, 1 ≤ j ∧ j ≤ k ∧ f j = some s ∧ ρ.2.getD j 0 = p

lemma keptCount_succ (f : ℕ → Option Segment) (k : ℕ) :
    keptCount f (k + 1) = keptCount f k + (if (f (k + 1)).isSome then 1 else 0) := by
  unfold keptCount
  rw [show List.range' 1 (k + 1) = List.range' 1 k ++ [1 + k] by
    simpa using @List.range'_concat 1 1 k]
  rw [List.filter_append, List.length_append]
  congr 1
  by_cases h : (f (1 + k)).isSome
  · simp only [List.filter, h]
    rw [show 1 + k = k + 1 by omega] at h
    simp [h]
  · simp only [List.filter, h]
    rw [show 1 + k = k + 1 by omega] at h
    simp [h]

lemma keptCount_mono (f : ℕ → Option Segment) {a b : ℕ} (h : a ≤ b) :
    keptCount f a ≤ keptCount f b := by
  induction b with
  | zero => simp [Nat.le_zero.mp h]
  | succ m ih =>
    rcases Nat.lt_or_ge a (m + 1) with h' | h'
    · have := ih (by omega)
      rw [keptCount_succ]
      split <;> omega
    · have : a = m + 1 := by omega
      subst this; rfl

lemma rebuildInv_zero (segs : List Segment) (f : ℕ → Option Segment) :
    RebuildInv segs f 0 ([segAt segs 0], [0]) := by
  constructor
  · simp
  · simp [keptCount]
  · simp
  · intro j hj
    interval_cases j
    simp
  · simp
  · intro j hj1 hj0; omega
  · intro j hj1 hj0; omega
  · intro j s hj1 hj0; omega
  · intro p hp1 hp; simp at hp; omega
  · intro p hp1 hp; simp at hp; omega

lemma rebuildInv_step (segs : List Segment)
    (hv : ∀ j, 1 ≤ j → j < segs.length → (parentOf segs j).toNat < j)
    (f : ℕ → Option Segment) (k : ℕ) (hk : k + 1 < segs.length)
    (ρ : List Segment × List ℕ) (h : RebuildInv segs f k ρ) :
    RebuildInv segs f (k + 1) (rebuildStep segs f ρ (k + 1)) := by
  have hpar := hv (k + 1) (by omega) hk
  set pn := (parentOf segs (k + 1)).toNat with hpn
  have hpnk : pn ≤ k := by omega
  have hidxpar : ρ.2.getD pn 0 < ρ.1.length := h.idx_lt pn hpnk
  -- stability of lookups under the appends of a step
  have stable2 : ∀ (x : ℕ) (j : ℕ), j ≤ k → (ρ.2 ++ [x]).getD j 0 = ρ.2.getD j 0 := by
    intro x j hj
    exact getD_append_left _ _ (by rw [h.idx_len]; omega)
  have stable1 : ∀ (s : Segment) (p : ℕ), p < ρ.1.length →
      (ρ.1 ++ [s]).getD p dfltSeg = ρ.1.getD p dfltSeg := by
    intro s p hp
    exact getD_append_left _ _ hp
  have hlast2 : ∀ x : ℕ, (ρ.2 ++ [x]).getD (k + 1) 0 = x := by
    intro x
    rw [← h.idx_len]
    exact getD_append_right_self ρ.2
  have hlast1 : ∀ s : Segment, (ρ.1 ++ [s]).getD ρ.1.length dfltSeg = s := by
    intro s
    exact getD_append_right_self ρ.1
  unfold rebuildStep
  cases hfk : f (k + 1) with
  | none =>
    simp only
    constructor
    · simp [h.idx_len]
    · rw [h.seg_len, keptCount_succ]
      simp [hfk]
    · exact h.head
    · intro j hj
      rcases Nat.lt_or_ge j (k + 1) with hj' | hj'
      · rw [stable2 _ j (by omega)]
        exact h.idx_lt j (by omega)
      · have : j = k + 1 := by omega
        subst this
        rw [hlast2]
        exact hidxpar
    · rw [stable2 _ 0 (by omega)]; exact h.idx_zero
    · intro j hj1 hj hfj
      rcases Nat.lt_or_ge j (k + 1) with hj' | hj'
      · have hparj := hv j hj1 (by omega)
        rw [stable2 _ j (by omega), stable2 _ (parentOf segs j).toNat (by omega)]
        exact h.idx_drop j hj1 (by omega) hfj
      · have : j = k + 1 := by omega
        subst this
        rw [hlast2, stable2 _ pn hpnk]
    · intro j hj1 hj hfj
      rcases Nat.lt_or_ge j (k + 1) with hj' | hj'
      · rw [stable2 _ j (by omega)]
        exact h.idx_keep j hj1 (by omega) hfj
      · have : j = k + 1 := by omega
        subst this
        rw [hfk] at hfj; simp at hfj
    · intro j s hj1 hj hfj
      rcases Nat.lt_or_ge j (k + 1) with hj' | hj'
      · have hparj := hv j hj1 (by omega)
        rw [stable2 _ j (by omega), stable2 _ (parentOf segs j).toNat (by omega)]
        exact h.mem_keep j s hj1 (by omega) hfj
      · have : j = k + 1 := by omega
        subst this
        rw [hfk] at hfj; exact absurd hfj (by simp)
    · exact h.par_valid
    · intro p hp1 hp
      obtain ⟨j, s, hj1, hjk, hfj, hidx⟩ := h.pos_surj p hp1 hp
      exact ⟨j, s, hj1, by omega, hfj, by rw [stable2 _ j (by omega)]; exact hidx⟩
  | some s =>
    simp only
    have hnewlen : (ρ.1 ++ [{ s with parent_id := (ρ.2.getD pn 0 : ℤ) }]).length
        = ρ.1.length + 1 := by simp
    constructor
    · simp [h.idx_len]
    · rw [hnewlen, h.seg_len, keptCount_succ]
      simp only [hfk, Option.isSome_some, if_true]
      omega
    · rw [stable1 _ 0 (by rw [h.seg_len]; omega)]; exact h.head
    · intro j hj
      rw [hnewlen]
      rcases Nat.lt_or_ge j (k + 1) with hj' | hj'
      · rw [stable2 _ j (by omega)]
        exact Nat.lt_succ_of_lt (h.idx_lt j (by omega))
      · have : j = k + 1 := by omega
        subst this
        rw [hlast2]
        omega
    · rw [stable2 _ 0 (by omega)]; exact h.idx_zero
    · intro j hj1 hj hfj
      rcases Nat.lt_or_ge j (k + 1) with hj' | hj'
      · have hparj := hv j hj1 (by omega)
        rw [stable2 _ j (by omega), stable2 _ (parentOf segs j).toNat (by omega)]
        exact h.idx_drop j hj1 (by omega) hfj
      · have : j = k + 1 := by omega
        subst this
        rw [hfk] at hfj; simp at hfj
    · intro j hj1 hj hfj
      rcases Nat.lt_or_ge j (k + 1) with hj' | hj'
      · rw [stable2 _ j (by omega)]
        exact h.idx_keep j hj1 (by omega) hfj
      · have : j = k + 1 := by omega
        subst this
        rw [hlast2, h.seg_len]
        simp
    · intro j s' hj1 hj hfj
      rcases Nat.lt_or_ge j (k + 1) with hj' | hj'
      · have hparj := hv j hj1 (by omega)
        rw [stable2 _ j (by omega), stable2 _ (parentOf segs j).toNat (by omega),
          stable1 _ _ (h.idx_lt j (by omega))]
        exact h.mem_keep j s' hj1 (by omega) hfj
      · have : j = k + 1 := by omega
        subst this
        rw [hfk] at hfj
        cases hfj
        rw [hlast2, stable2 _ pn hpnk]
        exact hlast1 _
    · intro p hp1 hp
      rw [hnewlen] at hp
      rcases Nat.lt_or_ge p ρ.1.length with hp' | hp'
      · rw [stable1 _ p hp']
        exact h.par_valid p hp1 hp'
      · have : p = ρ.1.length := by omega
        subst this
        rw [hlast1]
        constructor
        · exact Int.ofNat_nonneg _
        · show ((ρ.2.getD pn 0 : ℕ) : ℤ) < (ρ.1.length : ℤ)
          exact_mod_cast hidxpar
    · intro p hp1 hp
      rw [hnewlen] at hp
      rcases Nat.lt_or_ge p ρ.1.length with hp' | hp'
      · obtain ⟨j, s', hj1, hjk, hfj, hidx⟩ := h.pos_surj p hp1 hp'
        exact ⟨j, s', hj1, by omega, hfj, by rw [stable2 _ j (by omega)]; exact hidx⟩
      · have : p = ρ.1.length := by omega
        subst this
        exact ⟨k + 1, s, by omega, le_rfl, hfk, hlast2 _⟩

/-- The rebuild invariant holds of the completed loop.  Only the weak form of
the topological-order invariant is needed: every non-root parent *index*
(`.toNat`, so a `-1` marker collapses to 0) is smaller than its child. -/
lemma rebuild_inv (segs : List Segment)
    (hv : ∀ j, 1 ≤ j → j < segs.length → (parentOf segs j).toNat < j)
    (f : ℕ → Option Segment) :
    RebuildInv segs f (segs.length - 1) (rebuild segs f) := by
  unfold rebuild
  suffices H : ∀ k, k ≤ segs.length - 1 →
      RebuildInv segs f k
        ((List.range' 1 k).foldl (rebuildStep segs f) ([segAt segs 0], [0])) by
    exact H _ le_rfl
  intro k
  induction k with
  | zero => intro _; exact rebuildInv_zero segs f
  | succ m ih =>
    intro hm
    rw [show List.range' 1 (m + 1) = List.range' 1 m ++ [1 + m] by
      simpa using @List.range'_concat 1 1 m, List.foldl_append]
    simp only [List.foldl_cons, List.foldl_nil]
    rw [show 1 + m = m + 1 by omega]
    exact rebuildInv_step segs hv f m (by omega) _ (ih (by omega))

lemma valid_toNat_lt {segs : List Segment} (hv : ValidSegs segs) :
    ∀ j, 1 ≤ j → j < segs.length → (parentOf segs j).toNat < j := by
  intro j h1 h2
  have := hv.2.2 j h1 h2
  omega

/-- The rebuilt segment list is a valid rooted tree, requiring only the weak
order invariant of the input (so it also applies after `-1` marking). -/
lemma rebuild_valid' (segs : List Segment) (_hne : segs ≠ [])
    (hroot : parentOf segs 0 = -1)
    (hw : ∀ j, 1 ≤ j → j < segs.length → (parentOf segs j).toNat < j)
    (f : ℕ → Option Segment) : ValidSegs (rebuild segs f).1 := by
  have h := rebuild_inv segs hw f
  have hlen : 1 ≤ (rebuild segs f).1.length := by rw [h.seg_len]; omega
  refine ⟨?_, ?_, ?_⟩
  · intro hnil; rw [hnil] at hlen; simp at hlen
  · show parentOf (rebuild segs f).1 0 = -1
    unfold parentOf segAt
    rw [h.head]
    exact hroot
  · intro i h1 hi
    have := h.par_valid i h1 hi
    unfold parentOf segAt
    exact this

/-- The rebuilt segment list is again a valid rooted tree. -/
lemma rebuild_valid (segs : List Segment) (hv : ValidSegs segs)
    (f : ℕ → Option Segment) : ValidSegs (rebuild segs f).1 :=
  rebuild_valid' segs hv.1 hv.2.1 (valid_toNat_lt hv) f

/-! ## Diameter pruning (`tree::pruneDiameter`) -/

/-- The upward climb of the maximum-diameter pass: from a leaf, push
`max(max_diameter[child], 2·radius[parent])` towards the root, stopping as soon
as the parent's stored value does not improve.  `fuel` bounds the climb (the
segment count suffices on topologically ordered trees). -/
def climbMax (segs : List Segment) : ℕ → ℕ → ℤ → List ℝ → List ℝ
  | 0, _, _, d => d
  | fuel + 1, child, parent, d =>
    if parent = -1 then d
    else
      let p := parent.toNat
      let diameter := max (d.getD child 0) (2 * (segAt segs p).radius)
      if d.getD p 0 < diameter then
        climbMax segs fuel p (segAt segs p).parent_id (d.set p diameter)
      else d

/-- `max_diameter`: for each leaf (in index order), seed `2·radius` and climb. -/
def maxDiameters (segs : List Segment) : List ℝ :=
  (List.range segs.length).foldl
    (fun d i =>
      if childrenOf segs i = [] then
        climbMax segs segs.length i (parentOf segs i)
          (d.set i (2 * (segAt segs i).radius))
      else d)
    (List.replicate segs.length 0)

/-- The per-index keep decision of diameter pruning:
`max_diameter[i] > 0.01 * diameter_value`. -/
def pruneDiameterKeep (diameter_value : ℝ) (segs : List Segment) (i : ℕ) :
    Option Segment :=
  if 0.01 * diameter_value < (maxDiameters segs).getD i 0 then some (segAt segs i)
  else none

/-- Diameter pruning of one tree (the per-tree body of `pruneDiameter`). -/
def pruneDiameterTree (diameter_value : ℝ) (t : TreeStructure) : TreeStructure :=
  { t with segments := (rebuild t.segments (pruneDiameterKeep diameter_value t.segments)).1 }

/-- `forest.trees[t] = forest.trees.back(); forest.trees.pop_back()`:
the swap-with-last removal used when a tree prunes to a single segment. -/
def swapBack (l : List TreeStructure) : List TreeStructure :=
  match l.getLast? with
  | none => []
  | some b => b :: l.dropLast

lemma swapBack_length (l : List TreeStructure) (h : l ≠ []) :
    (swapBack l).length = l.length := by
  unfold swapBack
  rcases List.getLast?_isSome.mpr h |> Option.isSome_iff_exists.mp with ⟨b, hb⟩
  rw [hb]
  have := List.length_dropLast l
  have hl : 0 < l.length := List.length_pos.mpr h
  simp only [List.length_cons]
  omega

lemma swapBack_length_le (l : List TreeStructure) : (swapBack l).length ≤ l.length := by
  rcases eq_or_ne l [] with h | h
  · subst h; simp [swapBack]
  · rw [swapBack_length l h]

lemma swapBack_perm (l : List TreeStructure) : (swapBack l).Perm l := by
  rcases eq_or_ne l [] with h | h
  · subst h; simp [swapBack]
  · unfold swapBack
    rcases Option.isSome_iff_exists.mp (List.getLast?_isSome.mpr h) with ⟨b, hb⟩
    rw [hb]
    have hbe : b = l.getLast h := by
      have hgl : l.getLast? = some (l.getLast h) := List.getLast?_eq_getLast l h
      rw [hgl] at hb
      exact (Option.some_inj.mp hb).symm
    have hsplit : l.dropLast ++ [b] = l := by
      rw [hbe]
      exact List.dropLast_append_getLast h
    have hperm : (b :: l.dropLast).Perm (l.dropLast ++ [b]) :=
      (List.perm_append_singleton b l.dropLast).symm
    rw [hsplit] at hperm
    exact hperm

/-- The per-forest pruning loop: each tree is pruned by `g`; a tree reduced to
a single (root-only) segment is removed from *both* the input and the output
forest by the swap-with-last idiom, and the swapped-in tree is reprocessed.
Returns the final (input, output) tree lists. -/
def pruneLoop (g : TreeStructure → TreeStructure) :
    List TreeStructure → List TreeStructure × List TreeStructure
  | [] => ([], [])
  | T :: rest =>
    if (g T).segments.length = 1 then
      pruneLoop g (swapBack rest)
    else
      ((T :: (pruneLoop g rest).1), (g T) :: (pruneLoop g rest).2)
termination_by l => l.length
decreasing_by
  · simp only [List.length_cons]
    exact Nat.lt_succ_of_le (swapBack_length_le rest)
  · simp

/-- `tree::pruneDiameter`: returns the pair (input forest after the call,
new forest). -/
def pruneDiameter (forest : ForestStructure) (diameter_value : ℝ) :
    ForestStructure × ForestStructure :=
  ({ forest with trees := (pruneLoop (pruneDiameterTree diameter_value) forest.trees).1 },
   { forest with trees := (pruneLoop (pruneDiameterTree diameter_value) forest.trees).2 })

/-! ## Length pruning (`tree::pruneLength`) -/

/-- `std::numeric_limits<double>::max()`, the "unvisited" sentinel of the
minimum-distance-to-leaf pass. -/
def dblMax : ℝ := 1.7976931348623157e308

/-- The upward climb of the minimum-distance-to-leaf pass. -/
def climbMin (segs : List Segment) : ℕ → ℕ → ℤ → List ℝ → List ℝ
  | 0, _, _, d => d
  | fuel + 1, child, parent, d =>
    if parent = -1 then d
    else
      let p := parent.toNat
      let new_dist := d.getD child 0 +
        V3.norm (V3.sub (segAt segs p).tip (segAt segs child).tip)
      if new_dist < d.getD p 0 then
        climbMin segs fuel p (segAt segs p).parent_id (d.set p new_dist)
      else d

/-- `min_length_from_leaf`: 0 at each leaf, climbed towards the root with the
early-stop-on-non-improvement optimisation. -/
def minLengthsFromLeaf (segs : List Segment) : List ℝ :=
  (List.range segs.length).foldl
    (fun d i =>
      if childrenOf segs i = [] then
        climbMin segs segs.length i (parentOf segs i) (d.set i 0)
      else d)
    (List.replicate segs.length dblMax)

/-- The per-index decision of length pruning: keep segments beyond the
threshold unchanged; a dropped segment whose parent's value still exceeds the
threshold is kept with its tip blended toward the parent's tip
(`dMin` embeds `std::numeric_limits<double>::min()`). -/
def pruneLengthKeep (dMin length_value : ℝ) (segs : List Segment)
    (d : List ℝ) (i : ℕ) : Option Segment :=
  if length_value < d.getD i 0 then some (segAt segs i)
  else
    let par := parentOf segs i
    if par ≠ -1 ∧ length_value < d.getD par.toNat 0 then
      let blend0 := (d.getD par.toNat 0 - length_value) /
        max dMin (d.getD par.toNat 0 - d.getD i 0)
      let blend := max dMin (min blend0 1)
      let s := segAt segs i
      let newTip := V3.add (segAt segs par.toNat).tip (V3.smul blend (V3.sub s.tip (segAt segs par.toNat).tip))
      some { s with tip := newTip }
    else none

/-- Length pruning of one tree (the per-tree body of `pruneLength`). -/
def pruneLengthTree (dMin length_value : ℝ) (t : TreeStructure) : TreeStructure :=
  { t with segments :=
      (rebuild t.segments
        (pruneLengthKeep dMin length_value t.segments (minLengthsFromLeaf t.segments))).1 }

/-- `tree::pruneLength`: returns the pair (input forest after the call,
new forest). -/
def pruneLength (forest : ForestStructure) (dMin length_value : ℝ) :
    ForestStructure × ForestStructure :=
  ({ forest with trees := (pruneLoop (pruneLengthTree dMin length_value) forest.trees).1 },
   { forest with trees := (pruneLoop (pruneLengthTree dMin length_value) forest.trees).2 })

/-! ## Branch lengths (`tree::getBranchLengths`) -/

/-- The upward climb of the branch-length pass: alternating state
`(child, I, j)` exactly as in the source. -/
def climbBL (segs : List Segment) : ℕ → ℕ → ℕ → ℤ → List ℝ → List ℝ
  | 0, _, _, _, L => L
  | fuel + 1, child, I, j, L =>
    if j = -1 then L
    else
      let dist := L.getD child 0 +
        V3.norm (V3.sub (segAt segs I).tip (segAt segs j.toNat).tip)
      if L.getD I 0 < dist then
        climbBL segs fuel I j.toNat (parentOf segs j.toNat) (L.set I dist)
      else L

/-- `tree::getBranchLengths`: each leaf (index ≥ 1) starts from the
`prune_length` constant, walks upward accumulating tip-to-tip distance with a
monotonic-update short-circuit; the root's length is the maximum over its
direct children. -/
def getBranchLengths (t : TreeStructure) (prune_length : ℝ) : List ℝ :=
  let segs := t.segments
  let L1 := (List.range' 1 (segs.length - 1)).foldl
    (fun L i =>
      if childrenOf segs i = [] then
        climbBL segs segs.length i i (parentOf segs i) (L.set i prune_length)
      else L)
    (List.replicate segs.length 0)
  (childrenOf segs 0).foldl (fun L c => L.set 0 (max (L.getD 0 0) (L.getD c 0))) L1

/-! ## The forest loop: basic characterisations -/

/-- When no tree of the forest prunes down to a single segment, the loop
leaves the input untouched and outputs the per-tree pruning in order. -/
lemma pruneLoop_no_drop (g : TreeStructure → TreeStructure) (l : List TreeStructure)
    (h : ∀ T ∈ l, (g T).segments.length ≠ 1) :
    pruneLoop g l = (l, l.map g) := by
  induction l with
  | nil => simp [pruneLoop]
  | cons T rest ih =>
    rw [pruneLoop]
    rw [if_neg (h T (by simp))]
    have := ih (fun T' hT' => h T' (by simp [hT']))
    simp [this]

/-- In general the loop processes each input tree exactly once: the final input
list is a permutation of the trees not reduced to a single segment, and the
output list is a permutation of their prunings. -/
lemma pruneLoop_perm (g : TreeStructure → TreeStructure) :
    ∀ n (l : List TreeStructure), l.length ≤ n →
      (pruneLoop g l).1.Perm (l.filter (fun T => (g T).segments.length ≠ 1)) ∧
      (pruneLoop g l).2.Perm ((l.filter (fun T => (g T).segments.length ≠ 1)).map g) := by
  intro n
  induction n with
  | zero =>
    intro l hl
    have : l = [] := List.length_eq_zero.mp (Nat.le_zero.mp hl)
    subst this
    simp [pruneLoop]
  | succ m ih =>
    intro l hl
    cases l with
    | nil => simp [pruneLoop]
    | cons T rest =>
      rw [pruneLoop]
      by_cases hT : (g T).segments.length = 1
      · rw [if_pos hT]
        have hswap : (swapBack rest).length ≤ m := by
          have := swapBack_length_le rest
          simp at hl
          omega
        obtain ⟨h1, h2⟩ := ih (swapBack rest) hswap
        have hfperm : ((swapBack rest).filter (fun T => (g T).segments.length ≠ 1)).Perm
            (rest.filter (fun T => (g T).segments.length ≠ 1)) :=
          (swapBack_perm rest).filter _
        constructor
        · have : (T :: rest).filter (fun T => decide ((g T).segments.length ≠ 1))
              = rest.filter (fun T => decide ((g T).segments.length ≠ 1)) := by
            simp [List.filter, hT]
          rw [this]
          exact h1.trans hfperm
        · have : (T :: rest).filter (fun T => decide ((g T).segments.length ≠ 1))
              = rest.filter (fun T => decide ((g T).segments.length ≠ 1)) := by
            simp [List.filter, hT]
          rw [this]
          exact h2.trans (hfperm.map g)
      · rw [if_neg hT]
        have hrest : rest.length ≤ m := by simp at hl; omega
        obtain ⟨h1, h2⟩ := ih rest hrest
        have hfil : (T :: rest).filter (fun T => decide ((g T).segments.length ≠ 1))
            = T :: rest.filter (fun T => decide ((g T).segments.length ≠ 1)) := by
          simp [List.filter, hT]
        constructor
        · rw [hfil]
          exact List.Perm.cons T h1
        · rw [hfil]
          simp only [List.map_cons]
          exact List.Perm.cons (g T) h2

/-! ## Concrete fixtures -/

/-- The trunk-only tree of the spec's concrete scenario: one segment,
radius 0.2, tip at the origin, no children. -/
def trunkSeg : Segment := ⟨V3.zero, 0.2, -1, []⟩

def trunkTree : TreeStructure := ⟨[trunkSeg], []⟩

def trunkForest : ForestStructure := ⟨[trunkTree], []⟩

/-- A two-segment tree (root plus one branch segment of radius 1). -/
def twoTree : TreeStructure :=
  ⟨[⟨V3.zero, 1, -1, []⟩, ⟨⟨0, 0, 1⟩, 1, 0, []⟩], []⟩

def twoForest : ForestStructure := ⟨[twoTree], []⟩

/-- Pruning never alters a single-segment tree's segment list (the rebuild
loop body never runs), so the single-segment check fires. -/
lemma pruneDiameterTree_trunk (dv : ℝ) :
    (pruneDiameterTree dv trunkTree).segments = [trunkSeg] := by
  simp [pruneDiameterTree, rebuild, trunkTree, segAt, trunkSeg]

/-- Diameter pruning drops the trunk-only tree from both forests. -/
lemma pruneDiameter_trunk (dv : ℝ) :
    pruneDiameter trunkForest dv = (⟨[], []⟩, ⟨[], []⟩) := by
  unfold pruneDiameter
  have h1 : pruneLoop (pruneDiameterTree dv) trunkForest.trees = ([], []) := by
    show pruneLoop (pruneDiameterTree dv) [trunkTree] = ([], [])
    rw [pruneLoop]
    rw [if_pos (by rw [pruneDiameterTree_trunk]; rfl)]
    show pruneLoop (pruneDiameterTree dv) (swapBack []) = ([], [])
    rw [show swapBack [] = [] from rfl, pruneLoop]
  rw [h1]
  rfl

/-- `getBranchLengths` on the trunk-only tree: the leaf loop ranges over
indices `1 .. n-1` only, so the single segment keeps length 0. -/
lemma getBranchLengths_trunk (pl : ℝ) : getBranchLengths trunkTree pl = [0] := by
  unfold getBranchLengths
  have hch : childrenOf [trunkSeg] 0 = [] := by
    simp [childrenOf, buildChildren]
  simp [trunkTree, hch]

lemma childrenOf_two_zero : childrenOf twoTree.segments 0 = [1] := by
  simp [childrenOf, buildChildren, twoTree, parentOf, segAt, List.range']

lemma childrenOf_two_one : childrenOf twoTree.segments 1 = [] := by
  simp [childrenOf, buildChildren, twoTree, parentOf, segAt, List.range']

lemma maxDiameters_two : maxDiameters twoTree.segments = [2, 2] := by
  unfold maxDiameters
  rw [show twoTree.segments.length = 2 from rfl]
  rw [show List.range 2 = [0, 1] from rfl]
  simp only [List.foldl_cons, List.foldl_nil, childrenOf_two_zero, childrenOf_two_one,
    if_neg (by simp : ¬([1] : List ℕ) = []), if_pos rfl]
  unfold climbMax
  norm_num [twoTree, segAt, parentOf, climbMax]
  rfl

lemma pruneDiameterTree_two : (pruneDiameterTree 1 twoTree).segments.length = 2 := by
  unfold pruneDiameterTree rebuild
  rw [show twoTree.segments.length = 2 from rfl]
  rw [show List.range' 1 (2 - 1) = [1] from rfl]
  simp only [List.foldl_cons, List.foldl_nil]
  unfold rebuildStep pruneDiameterKeep
  rw [maxDiameters_two]
  norm_num

lemma minLengths_two : minLengthsFromLeaf twoTree.segments = [1, 0] := by
  unfold minLengthsFromLeaf
  rw [show twoTree.segments.length = 2 from rfl]
  rw [show List.range 2 = [0, 1] from rfl]
  simp only [List.foldl_cons, List.foldl_nil, childrenOf_two_zero, childrenOf_two_one,
    if_neg (by simp : ¬([1] : List ℕ) = []), if_pos rfl]
  unfold climbMin
  have hnorm : (V3.sub V3.zero ⟨0, 0, 1⟩).norm = 1 := by
    simp only [V3.norm, V3.normSq, V3.sub, V3.dot, V3.zero]
    norm_num
  norm_num [twoTree, segAt, parentOf, climbMin, hnorm, dblMax]
  rfl

lemma pruneLengthTree_two : (pruneLengthTree 0 0.5 twoTree).segments.length = 2 := by
  unfold pruneLengthTree rebuild
  rw [show twoTree.segments.length = 2 from rfl]
  rw [show List.range' 1 (2 - 1) = [1] from rfl]
  simp only [List.foldl_cons, List.foldl_nil]
  unfold rebuildStep pruneLengthKeep
  rw [minLengths_two]
  norm_num [parentOf, segAt, twoTree]

/-! ## Parent chains

The bottom-up passes walk parent chains.  We reason about them through the
total parent function `pN` (which fixes the root, since
`(-1 : ℤ).toNat = 0`) and explicit iteration counts. -/

/-- The parent function on indices (`0` is a fixed point on valid trees). -/
def pN (segs : List Segment) (x : ℕ) : ℕ := (parentOf segs x).toNat

/-- `2 * radius`, the diameter used by the pruning pass. -/
def diam (segs : List Segment) (x : ℕ) : ℝ := 2 * (segAt segs x).radius

/-- A chain of `k` parent steps from `m` that does not pass the root. -/
def ProperChain (segs : List Segment) (m k : ℕ) : Prop :=
  ∀ j, j < k → 1 ≤ (pN segs)^[j] m

/-- A leaf: no children. -/
def IsLeaf (segs : List Segment) (x : ℕ) : Prop := childrenOf segs x = []

lemma pN_lt (segs : List Segment) (hv : ValidSegs segs) {x : ℕ}
    (h1 : 1 ≤ x) (h2 : x < segs.length) : pN segs x < x := by
  have := hv.2.2 x h1 h2
  unfold pN
  omega

lemma pN_zero (segs : List Segment) (hv : ValidSegs segs) : pN segs 0 = 0 := by
  unfold pN
  rw [hv.2.1]
  rfl

lemma pN_lt_len (segs : List Segment) (hv : ValidSegs segs) {x : ℕ}
    (h2 : x < segs.length) : pN segs x < segs.length := by
  rcases Nat.eq_zero_or_pos x with h0 | h1
  · subst h0; rw [pN_zero segs hv]; omega
  · have := pN_lt segs hv h1 h2; omega

lemma iter_lt_len (segs : List Segment) (hv : ValidSegs segs) {m : ℕ}
    (hm : m < segs.length) (k : ℕ) : (pN segs)^[k] m < segs.length := by
  induction k with
  | zero => simpa
  | succ j ih =>
    rw [Function.iterate_succ_apply']
    exact pN_lt_len segs hv ih

lemma chain_step_lt (segs : List Segment) (hv : ValidSegs segs) {m k : ℕ}
    (hm : m < segs.length) (hpc : ProperChain segs m k) {j : ℕ} (hj : j < k) :
    (pN segs)^[j + 1] m < (pN segs)^[j] m := by
  rw [Function.iterate_succ_apply']
  exact pN_lt segs hv (hpc j hj) (iter_lt_len segs hv hm j)

lemma chain_lt (segs : List Segment) (hv : ValidSegs segs) {m k : ℕ}
    (hm : m < segs.length) (hpc : ProperChain segs m k) :
    ∀ {j j' : ℕ}, j < j' → j' ≤ k → (pN segs)^[j'] m < (pN segs)^[j] m := by
  intro j j' hjj hk
  induction j' with
  | zero => omega
  | succ i ih =>
    have hstep : (pN segs)^[i + 1] m < (pN segs)^[i] m :=
      chain_step_lt segs hv hm hpc (by omega)
    rcases Nat.lt_or_ge j i with h | h
    · exact lt_trans hstep (ih h (by omega))
    · have : j = i := by omega
      subst this
      exact hstep

/-- Every index has a leaf somewhere below it (possibly itself). -/
lemma exists_leaf_below (segs : List Segment) (hv : ValidSegs segs) :
    ∀ v, v < segs.length →
      ∃ l k, l < segs.length ∧ IsLeaf segs l ∧ ProperChain segs l k ∧
        (pN segs)^[k] l = v := by
  have H : ∀ fuel v, v < segs.length → segs.length - v ≤ fuel →
      ∃ l k, l < segs.length ∧ IsLeaf segs l ∧ ProperChain segs l k ∧
        (pN segs)^[k] l = v := by
    intro fuel
    induction fuel with
    | zero => intro v hv' hf; omega
    | succ f ih =>
      intro v hv' hf
      by_cases hl : IsLeaf segs v
      · exact ⟨v, 0, hv', hl, by intro j hj; omega, rfl⟩
      · have hne : childrenOf segs v ≠ [] := hl
        obtain ⟨c, hc⟩ := List.exists_mem_of_ne_nil _ hne
        have hcm := (mem_childrenOf segs hv v c).mp hc
        have hcv : v < c := by
          have := hv.2.2 c hcm.1 hcm.2.1
          omega
        obtain ⟨l, k, hl', hleaf, hpc, hiter⟩ :=
          ih c hcm.2.1 (by omega)
        refine ⟨l, k + 1, hl', hleaf, ?_, ?_⟩
        · intro j hj
          rcases Nat.lt_or_ge j k with h | h
          · exact hpc j h
          · have : j = k := by omega
            subst this
            rw [hiter]
            exact hcm.1
        · rw [Function.iterate_succ_apply', hiter]
          show (parentOf segs c).toNat = v
          rw [hcm.2.2]
          simp
  intro v hv'
  exact H segs.length v hv' (by omega)

/-! ## Correctness of the maximum-diameter pass -/

lemma segAt_mem (segs : List Segment) {x : ℕ} (h : x < segs.length) :
    segAt segs x ∈ segs := by
  unfold segAt
  rw [getD_eq_getElem segs h]
  exact List.getElem_mem h

lemma segAt_oob (segs : List Segment) {x : ℕ} (h : segs.length ≤ x) :
    segAt segs x = dfltSeg := by
  unfold segAt
  simp [List.getD_eq_getElem?_getD, List.getElem?_eq_none h]

lemma diam_nonneg (segs : List Segment) (hr : ∀ s ∈ segs, 0 ≤ s.radius) (x : ℕ) :
    0 ≤ diam segs x := by
  unfold diam
  rcases Nat.lt_or_ge x segs.length with h | h
  · have := hr _ (segAt_mem segs h)
    linarith
  · rw [segAt_oob segs h]
    norm_num [dfltSeg]

/-- The invariant carried by the maximum-diameter array through the pass:
entries are nonnegative, leaf entries are either unseeded or their own
diameter, and every nonzero entry is the diameter of some index `m` below it
whose whole chain up to here is at least that diameter. -/
structure MaxInv (segs : List Segment) (d : List ℝ) : Prop where
  len : d.length = segs.length
  nonneg : ∀ v, 0 ≤ d.getD v 0
  leafv : ∀ v, v < segs.length → IsLeaf segs v →
      d.getD v 0 = 0 ∨ d.getD v 0 = diam segs v
  prov : ∀ v, v < segs.length → d.getD v 0 = 0 ∨
      ∃ m k, m < segs.length ∧ ProperChain segs m k ∧ (pN segs)^[k] m = v ∧
        d.getD v 0 = diam segs m ∧
        ∀ j, j ≤ k → diam segs m ≤ d.getD ((pN segs)^[j] m) 0

/-- "Monotone closure": every visited entry has pushed itself into its parent.
The early `break` of the walk is sound exactly because of this property. -/
def Closed (segs : List Segment) (d : List ℝ) : Prop :=
  ∀ x, 1 ≤ x → x < segs.length → 0 < d.getD x 0 →
    d.getD x 0 ≤ d.getD (pN segs x) 0 ∧ diam segs (pN segs x) ≤ d.getD (pN segs x) 0

/-- Closure with one exempted frontier index (the walk's current child). -/
def ClosedExc (segs : List Segment) (d : List ℝ) (e : ℕ) : Prop :=
  ∀ x, 1 ≤ x → x < segs.length → 0 < d.getD x 0 → x ≠ e →
    d.getD x 0 ≤ d.getD (pN segs x) 0 ∧ diam segs (pN segs x) ≤ d.getD (pN segs x) 0

lemma closed_of_closedExc_zero (segs : List Segment) (d : List ℝ)
    (h : ClosedExc segs d 0) : Closed segs d := by
  intro x h1 h2 h3
  exact h x h1 h2 h3 (by omega)

/-- A non-root, in-range child index never carries parent pointer `-1`. -/
lemma child_pos (segs : List Segment) (hv : ValidSegs segs) {c : ℕ}
    (hc : c < segs.length) (hpar : parentOf segs c ≠ -1) : 1 ≤ c := by
  by_contra h
  have : c = 0 := by omega
  subst this
  exact hpar hv.2.1

/-- A parent is never a leaf. -/
lemma parent_not_leaf (segs : List Segment) (hv : ValidSegs segs) {c : ℕ}
    (hc : c < segs.length) (h1 : 1 ≤ c) : ¬ IsLeaf segs (pN segs c) := by
  intro hleaf
  have hp := (hv.2.2 c h1 hc).1
  have : c ∈ childrenOf segs (pN segs c) :=
    (mem_childrenOf segs hv (pN segs c) c).mpr ⟨h1, hc, by unfold pN; omega⟩
  rw [hleaf] at this
  simp at this

lemma climbMax_len (segs : List Segment) :
    ∀ fuel c par d, (climbMax segs fuel c par d).length = d.length := by
  intro fuel
  induction fuel with
  | zero => intro c par d; rfl
  | succ f ih =>
    intro c par d
    unfold climbMax
    dsimp only
    split
    · rfl
    · split
      · rw [ih]
        simp
      · rfl

/-- The climb writes only to parents, so it never changes a leaf's entry. -/
lemma climbMax_leaf_cells (segs : List Segment) (hv : ValidSegs segs) :
    ∀ fuel c par d, c < segs.length → par = parentOf segs c →
      ∀ x, IsLeaf segs x →
        (climbMax segs fuel c par d).getD x 0 = d.getD x 0 := by
  intro fuel
  induction fuel with
  | zero => intro c par d _ _ x _; rfl
  | succ f ih =>
    intro c par d hc hpar x hx
    unfold climbMax
    dsimp only
    split
    · rfl
    · rename_i hne
      rw [hpar] at hne
      have h1 : 1 ≤ c := child_pos segs hv hc hne
      have hplt : pN segs c < segs.length :=
        pN_lt_len segs hv hc
      have hnl : ¬ IsLeaf segs (pN segs c) := parent_not_leaf segs hv hc h1
      have hxp : x ≠ par.toNat := by
        rw [hpar]
        intro h
        refine hnl ?_
        unfold pN
        rw [← h]
        exact hx
      split
      · rw [ih par.toNat (segAt segs par.toNat).parent_id _ (by rw [hpar]; exact hplt) rfl x hx]
        exact getD_set_ne _ (fun h => hxp h.symm)
      · rfl

/-- The climb preserves the invariant. -/
lemma climbMax_inv (segs : List Segment) (hv : ValidSegs segs)
    (hr : ∀ s ∈ segs, 0 ≤ s.radius) :
    ∀ fuel c par d, c < segs.length → par = parentOf segs c → MaxInv segs d →
      MaxInv segs (climbMax segs fuel c par d) := by
  intro fuel
  induction fuel with
  | zero => intro c par d _ _ h; exact h
  | succ f ih =>
    intro c par d hc hpar h
    unfold climbMax
    dsimp only
    split
    · exact h
    · rename_i hne
      rw [hpar] at hne
      have h1 : 1 ≤ c := child_pos segs hv hc hne
      have hp : par.toNat = pN segs c := by rw [hpar]; rfl
      have hplt : pN segs c < segs.length := pN_lt_len segs hv hc
      have hpc : par.toNat < segs.length := by rw [hp]; exact hplt
      split
      · rename_i hcond
        refine ih par.toNat _ _ hpc (by rw [hp]; rfl) ?_
        set cand := max (d.getD c 0) (2 * (segAt segs par.toNat).radius) with hcand
        have hcd : 2 * (segAt segs par.toNat).radius = diam segs par.toNat := rfl
        have hdlen : par.toNat < d.length := by rw [h.len]; exact hpc
        have hset_self : (d.set par.toNat cand).getD par.toNat 0 = cand :=
          getD_set_self hdlen
        have hset_ne : ∀ y, y ≠ par.toNat → (d.set par.toNat cand).getD y 0 = d.getD y 0 :=
          fun y hy => getD_set_ne _ (fun h' => hy h'.symm)
        have hincr : ∀ y, d.getD y 0 ≤ (d.set par.toNat cand).getD y 0 := by
          intro y
          rcases eq_or_ne y par.toNat with rfl | hy
          · rw [hset_self]; exact le_of_lt hcond
          · rw [hset_ne y hy]
        constructor
        · rw [List.length_set]; exact h.len
        · intro v
          rcases eq_or_ne v par.toNat with rfl | hvne
          · rw [hset_self]
            calc (0:ℝ) ≤ diam segs par.toNat := diam_nonneg segs hr _
              _ ≤ cand := by rw [hcand, ← hcd]; exact le_max_right _ _
          · rw [hset_ne v hvne]; exact h.nonneg v
        · intro v hvlt hvleaf
          rcases eq_or_ne v par.toNat with rfl | hvne
          · exact absurd hvleaf (by rw [hp]; exact parent_not_leaf segs hv hc h1)
          · rw [hset_ne v hvne]; exact h.leafv v hvlt hvleaf
        · intro v hvlt
          rcases eq_or_ne v par.toNat with rfl | hvne
          · right
            rcases le_or_lt (d.getD c 0) (diam segs par.toNat) with hcase | hcase
            · -- the parent's own diameter dominates
              refine ⟨par.toNat, 0, hpc, by intro j hj; omega, rfl, ?_, ?_⟩
              · rw [hset_self, hcand, ← hcd]
                rw [max_eq_right (by rw [hcd]; exact hcase)]
              · intro j hj
                have : j = 0 := by omega
                subst this
                simp only [Function.iterate_zero, id_eq]
                rw [hset_self, hcand, ← hcd]
                exact le_max_right _ _
            · -- the value flows up from the child
              have hcpos : 0 < d.getD c 0 := by
                have := diam_nonneg segs hr par.toNat
                linarith
              have hprovc := h.prov c hc
              rcases hprovc with h0 | ⟨m, k, hm, hkpc, hkit, hval, hcond2⟩
              · rw [h0] at hcpos; linarith
              · have hcmax : cand = d.getD c 0 := by
                  rw [hcand]
                  rw [max_eq_left (by rw [hcd]; exact le_of_lt hcase)]
                have hchain : ProperChain segs m (k + 1) := by
                  intro j hj
                  rcases Nat.lt_or_ge j k with h' | h'
                  · exact hkpc j h'
                  · have : j = k := by omega
                    subst this
                    rw [hkit]; exact h1
                have hit : (pN segs)^[k + 1] m = par.toNat := by
                  rw [Function.iterate_succ_apply', hkit, hp]
                refine ⟨m, k + 1, hm, hchain, hit, ?_, ?_⟩
                · rw [hset_self, hcmax, hval]
                · intro j hj
                  rcases Nat.lt_or_ge j (k + 1) with h' | h'
                  · have hwne : (pN segs)^[j] m ≠ par.toNat := by
                      have := chain_lt segs hv hm hchain h' (le_refl (k + 1))
                      rw [hit] at this
                      omega
                    rw [hset_ne _ hwne]
                    exact hcond2 j (by omega)
                  · have : j = k + 1 := by omega
                    subst this
                    rw [hit, hset_self, hcmax, ← hval]
          · rw [hset_ne v hvne]
            rcases h.prov v hvlt with h0 | ⟨m, k, hm, hkpc, hkit, hval, hcond2⟩
            · left; exact h0
            · right
              exact ⟨m, k, hm, hkpc, hkit, hval,
                fun j hj => le_trans (hcond2 j hj) (hincr _)⟩
      · exact h

/-- The climb restores full closure from closure-with-frontier. -/
lemma climbMax_closed (segs : List Segment) (hv : ValidSegs segs) :
    ∀ fuel c par d, c < segs.length → par = parentOf segs c → c < fuel →
      d.length = segs.length →
      ClosedExc segs d c → Closed segs (climbMax segs fuel c par d) := by
  intro fuel
  induction fuel with
  | zero => intro c par d _ _ hf _ _; omega
  | succ f ih =>
    intro c par d hc hpar hf hd hexc
    unfold climbMax
    dsimp only
    split
    · rename_i hm1
      rw [hpar] at hm1
      have hc0 : c = 0 := by
        by_contra h
        have := (hv.2.2 c (by omega) hc).1
        omega
      subst hc0
      exact closed_of_closedExc_zero segs d hexc
    · rename_i hne
      rw [hpar] at hne
      have h1 : 1 ≤ c := child_pos segs hv hc hne
      have hp : par.toNat = pN segs c := by rw [hpar]; rfl
      have hplt : par.toNat < segs.length := by rw [hp]; exact pN_lt_len segs hv hc
      have hpltc : par.toNat < c := by rw [hp]; exact pN_lt segs hv h1 hc
      split
      · rename_i hcond
        set cand := max (d.getD c 0) (2 * (segAt segs par.toNat).radius) with hcand
        have hDp : (d.set par.toNat cand).getD par.toNat 0 = cand :=
          getD_set_self (by rw [hd]; exact hplt)
        have hset_ne : ∀ y, y ≠ par.toNat → (d.set par.toNat cand).getD y 0 = d.getD y 0 :=
          fun y hy => getD_set_ne _ (fun h' => hy h'.symm)
        refine ih par.toNat (segAt segs par.toNat).parent_id _ hplt rfl (by omega)
          (by rw [List.length_set]; exact hd) ?_
        intro x hx1 hx2 hx3 hxe
        rcases eq_or_ne x c with rfl | hxc
        · rw [← hp, hDp]
          constructor
          · rw [hset_ne x (by omega)]
            exact le_max_left _ _
          · exact le_max_right _ _
        · have hxv : (d.set par.toNat cand).getD x 0 = d.getD x 0 := hset_ne x hxe
          rw [hxv] at hx3 ⊢
          have hold := hexc x hx1 hx2 hx3 hxc
          rcases eq_or_ne (pN segs x) par.toNat with hpe | hpe
          · rw [hpe, hDp]
            rw [hpe] at hold
            exact ⟨le_trans hold.1 (le_of_lt hcond), le_trans hold.2 (le_of_lt hcond)⟩
          · rw [hset_ne _ hpe]
            exact hold
      · rename_i hcond
        intro x hx1 hx2 hx3
        rcases eq_or_ne x c with rfl | hxc
        · constructor
          · rw [← hp]
            push_neg at hcond
            calc d.getD x 0 ≤ max (d.getD x 0) (2 * (segAt segs par.toNat).radius) :=
                le_max_left _ _
              _ ≤ d.getD par.toNat 0 := hcond
          · rw [← hp]
            push_neg at hcond
            calc diam segs par.toNat = 2 * (segAt segs par.toNat).radius := rfl
              _ ≤ max (d.getD x 0) (2 * (segAt segs par.toNat).radius) := le_max_right _ _
              _ ≤ d.getD par.toNat 0 := hcond
        · exact hexc x hx1 hx2 hx3 hxc

/-- Seeding a leaf with its own diameter preserves the invariant. -/
lemma seedMax_inv (segs : List Segment) (_hv : ValidSegs segs)
    (hr : ∀ s ∈ segs, 0 ≤ s.radius) {K : ℕ} (hK : K < segs.length)
    (hleaf : IsLeaf segs K) {d : List ℝ} (h : MaxInv segs d) :
    MaxInv segs (d.set K (2 * (segAt segs K).radius)) := by
  have hdia : (2 : ℝ) * (segAt segs K).radius = diam segs K := rfl
  have hKd : K < d.length := by rw [h.len]; exact hK
  have hself : (d.set K (2 * (segAt segs K).radius)).getD K 0 = diam segs K :=
    getD_set_self hKd
  have hne : ∀ y, y ≠ K → (d.set K (2 * (segAt segs K).radius)).getD y 0 = d.getD y 0 :=
    fun y hy => getD_set_ne _ (fun h' => hy h'.symm)
  have hKold : diam segs K = d.getD K 0 ∨ d.getD K 0 = 0 := by
    rcases h.leafv K hK hleaf with h0 | hd'
    · right; exact h0
    · left; exact hd'.symm
  constructor
  · rw [List.length_set]; exact h.len
  · intro v
    rcases eq_or_ne v K with rfl | hv'
    · rw [hself]; exact diam_nonneg segs hr _
    · rw [hne v hv']; exact h.nonneg v
  · intro v hvlt hvleaf
    rcases eq_or_ne v K with rfl | hv'
    · right; exact hself
    · rw [hne v hv']; exact h.leafv v hvlt hvleaf
  · intro v hvlt
    rcases eq_or_ne v K with rfl | hv'
    · right
      exact ⟨v, 0, hK, by intro j hj; omega, rfl, hself, by
        intro j hj
        have : j = 0 := by omega
        subst this
        simp only [Function.iterate_zero, id_eq]
        rw [hself]⟩
    · rw [hne v hv']
      rcases h.prov v hvlt with h0 | ⟨m, k, hm, hkpc, hkit, hval, hcond⟩
      · left; exact h0
      · right
        refine ⟨m, k, hm, hkpc, hkit, hval, ?_⟩
        intro j hj
        rcases eq_or_ne ((pN segs)^[j] m) K with he | he
        · rw [he, hself]
          have hold := hcond j hj
          rw [he] at hold
          rcases hKold with h1 | h1
          · rw [← h1] at hold; exact hold
          · rw [h1] at hold
            exact le_trans hold (diam_nonneg segs hr _)
        · rw [hne _ he]
          exact hcond j hj

/-- Seeding a leaf leaves closure intact away from the seeded frontier. -/
lemma seedMax_closedExc (segs : List Segment) (hv : ValidSegs segs) {K : ℕ}
    (_hK : K < segs.length) (hleaf : IsLeaf segs K) {d : List ℝ}
    (h : Closed segs d) :
    ClosedExc segs (d.set K (2 * (segAt segs K).radius)) K := by
  intro x hx1 hx2 hx3 hxe
  have hne : ∀ y, y ≠ K → (d.set K (2 * (segAt segs K).radius)).getD y 0 = d.getD y 0 :=
    fun y hy => getD_set_ne _ (fun h' => hy h'.symm)
  have hpx : pN segs x ≠ K := by
    intro hpe
    have : x ∈ childrenOf segs K := by
      refine (mem_childrenOf segs hv K x).mpr ⟨hx1, hx2, ?_⟩
      have := (hv.2.2 x hx1 hx2).1
      unfold pN at hpe
      omega
    rw [hleaf] at this
    simp at this
  rw [hne x hxe] at hx3
  rw [hne x hxe, hne _ hpx]
  exact h x hx1 hx2 hx3

/-- The completed maximum-diameter pass: invariant, closure, and the fact that
every leaf entry is seeded with its own diameter. -/
lemma maxDiameters_spec (segs : List Segment) (hv : ValidSegs segs)
    (hr : ∀ s ∈ segs, 0 ≤ s.radius) :
    MaxInv segs (maxDiameters segs) ∧ Closed segs (maxDiameters segs) ∧
      ∀ i, i < segs.length → IsLeaf segs i →
        (maxDiameters segs).getD i 0 = diam segs i := by
  set n := segs.length with hn
  set step := fun (d : List ℝ) (i : ℕ) =>
    if childrenOf segs i = [] then
      climbMax segs segs.length i (parentOf segs i)
        (d.set i (2 * (segAt segs i).radius))
    else d with hstep
  have H : ∀ K, K ≤ n →
      MaxInv segs ((List.range K).foldl step (List.replicate n 0)) ∧
      Closed segs ((List.range K).foldl step (List.replicate n 0)) ∧
      ∀ i, i < K → IsLeaf segs i →
        ((List.range K).foldl step (List.replicate n 0)).getD i 0 = diam segs i := by
    intro K
    induction K with
    | zero =>
      intro _
      simp only [List.range_zero, List.foldl_nil]
      refine ⟨⟨by simp [hn], ?_, ?_, ?_⟩, ?_, ?_⟩
      · intro v
        rcases Nat.lt_or_ge v n with h' | h'
        · rw [getD_replicate h']
        · simp [List.getD_eq_getElem?_getD, List.getElem?_eq_none (by simpa using h')]
      · intro v hvlt _
        left
        exact getD_replicate (by omega)
      · intro v hvlt
        left
        exact getD_replicate (by omega)
      · intro x hx1 hx2 hx3
        rw [getD_replicate (by omega)] at hx3
        linarith
      · intro i hi _
        omega
    | succ m ih =>
      intro hm
      obtain ⟨hinv, hclosed, hleafval⟩ := ih (by omega)
      rw [List.range_succ, List.foldl_append, List.foldl_cons, List.foldl_nil]
      set dcur := (List.range m).foldl step (List.replicate n 0) with hdcur
      by_cases hlf : childrenOf segs m = []
      · have hstepm : step dcur m =
            climbMax segs segs.length m (parentOf segs m)
              (dcur.set m (2 * (segAt segs m).radius)) := by
          rw [hstep]
          simp only
          rw [if_pos hlf]
        rw [hstepm]
        have hmn : m < n := by omega
        have hseedinv := seedMax_inv segs hv hr hmn hlf hinv
        have hseedexc := seedMax_closedExc segs hv hmn hlf hclosed
        have hclimbinv := climbMax_inv segs hv hr segs.length m (parentOf segs m)
          _ hmn rfl hseedinv
        have hclimbclosed := climbMax_closed segs hv segs.length m (parentOf segs m)
          _ hmn rfl (by omega) (by rw [List.length_set]; exact hinv.len) hseedexc
        refine ⟨hclimbinv, hclimbclosed, ?_⟩
        intro i hi hileaf
        rw [climbMax_leaf_cells segs hv segs.length m (parentOf segs m) _ hmn rfl i hileaf]
        rcases eq_or_ne i m with rfl | hne
        · exact getD_set_self (by rw [hinv.len]; omega)
        · rw [getD_set_ne _ (fun h' => hne h'.symm)]
          exact hleafval i (by omega) hileaf
      · have hstepm : step dcur m = dcur := by
          rw [hstep]
          simp only
          rw [if_neg hlf]
        rw [hstepm]
        refine ⟨hinv, hclosed, ?_⟩
        intro i hi hileaf
        rcases eq_or_ne i m with rfl | hne
        · exact absurd hileaf hlf
        · exact hleafval i (by omega) hileaf
  have := H n le_rfl
  unfold maxDiameters
  exact this

/-- On a tree all of whose leaves have positive radius, the early-stopping
walk still pushes, to every ancestor `v` of a leaf `l`, at least the diameter
of every index on the chain from `l` to `v`. -/
lemma maxDiameters_lower (segs : List Segment) (hv : ValidSegs segs)
    (hr : ∀ s ∈ segs, 0 ≤ s.radius)
    (hpos : ∀ l, l < segs.length → IsLeaf segs l → 0 < (segAt segs l).radius) :
    ∀ l, l < segs.length → IsLeaf segs l → ∀ k, ProperChain segs l k →
      ∀ j, j ≤ k →
        diam segs ((pN segs)^[j] l) ≤ (maxDiameters segs).getD ((pN segs)^[k] l) 0 := by
  obtain ⟨hinv, hclosed, hleafval⟩ := maxDiameters_spec segs hv hr
  intro l hl hleaf k
  induction k with
  | zero =>
    intro _ j hj
    have : j = 0 := by omega
    subst this
    simp only [Function.iterate_zero, id_eq]
    rw [hleafval l hl hleaf]
  | succ k ih =>
    intro hpc j hj
    have hpck : ProperChain segs l k := fun j' hj' => hpc j' (by omega)
    have hIH := ih hpck
    have hv1 : 1 ≤ (pN segs)^[k] l := hpc k (by omega)
    have hvlt : (pN segs)^[k] l < segs.length := iter_lt_len segs hv hl k
    have hD0 : 0 < (maxDiameters segs).getD ((pN segs)^[k] l) 0 := by
      have h0 := hIH 0 (by omega)
      simp only [Function.iterate_zero, id_eq] at h0
      have : 0 < diam segs l := by
        unfold diam
        have := hpos l hl hleaf
        linarith
      linarith
    have hcl := hclosed ((pN segs)^[k] l) hv1 hvlt hD0
    rw [Function.iterate_succ_apply']
    rcases Nat.lt_or_ge j (k + 1) with hjk | hjk
    · exact le_trans (hIH j (by omega)) hcl.1
    · have : j = k + 1 := by omega
      subst this
      rw [Function.iterate_succ_apply']
      exact hcl.2

/-! ## The rebuild pass at a total keep decision is the identity -/

lemma keptCount_all (segs : List Segment) (f : ℕ → Option Segment)
    (hall : ∀ i, 1 ≤ i → i < segs.length → (f i).isSome) :
    ∀ k, k ≤ segs.length - 1 → keptCount f k = k := by
  intro k
  induction k with
  | zero => intro _; simp [keptCount]
  | succ m ih =>
    intro hm
    rw [keptCount_succ, ih (by omega)]
    rw [if_pos (hall (m + 1) (by omega) (by omega))]

lemma rebuild_id (segs : List Segment) (hv : ValidSegs segs) (f : ℕ → Option Segment)
    (hall : ∀ i, 1 ≤ i → i < segs.length → f i = some (segAt segs i)) :
    (rebuild segs f).1 = segs := by
  have inv := rebuild_inv segs (valid_toNat_lt hv) f
  have hn1 : 1 ≤ segs.length := List.length_pos.mpr hv.1
  have hallS : ∀ i, 1 ≤ i → i < segs.length → (f i).isSome :=
    fun i h1 h2 => by rw [hall i h1 h2]; rfl
  have hlen : (rebuild segs f).1.length = segs.length := by
    rw [inv.seg_len, keptCount_all segs f hallS _ le_rfl]
    omega
  have hidx : ∀ j, j < segs.length → (rebuild segs f).2.getD j 0 = j := by
    intro j hj
    rcases Nat.eq_zero_or_pos j with rfl | h1
    · exact inv.idx_zero
    · rw [inv.idx_keep j h1 (by omega) (hallS j h1 hj),
        keptCount_all segs f hallS _ (by omega)]
      omega
  apply List.ext_getElem hlen
  intro p hp1 hp2
  rcases Nat.eq_zero_or_pos p with rfl | hpp
  · rw [← getD_eq_getElem _ hp1, ← getD_eq_getElem _ hp2]
    exact inv.head
  · have hjp : p ≤ segs.length - 1 := by omega
    have hmem := inv.mem_keep p (segAt segs p) hpp hjp (hall p hpp (by omega))
    rw [hidx p (by omega)] at hmem
    rw [← getD_eq_getElem _ hp1, ← getD_eq_getElem _ hp2]
    rw [hmem]
    have hpar := hv.2.2 p hpp (by omega)
    have hppn : pN segs p < segs.length := pN_lt_len segs hv (by omega)
    rw [show (parentOf segs p).toNat = pN segs p from rfl, hidx _ hppn]
    have : ((pN segs p : ℕ) : ℤ) = parentOf segs p := by
      unfold pN
      omega
    rw [this]
    rfl

/-! ## Idempotence of diameter pruning -/

lemma pruneDiameterKeep_isSome (dv : ℝ) (segs : List Segment) (j : ℕ) :
    (pruneDiameterKeep dv segs j).isSome ↔
      0.01 * dv < (maxDiameters segs).getD j 0 := by
  unfold pruneDiameterKeep
  split
  · rename_i h; simpa using h
  · rename_i h; simpa using h

lemma pruneDiameterKeep_eq_some (dv : ℝ) (segs : List Segment) (j : ℕ)
    (h : 0.01 * dv < (maxDiameters segs).getD j 0) :
    pruneDiameterKeep dv segs j = some (segAt segs j) := by
  unfold pruneDiameterKeep
  rw [if_pos h]

lemma pruneDiameterKeep_some_eq (dv : ℝ) (segs : List Segment) {j : ℕ} {s : Segment}
    (h : pruneDiameterKeep dv segs j = some s) : s = segAt segs j := by
  unfold pruneDiameterKeep at h
  split at h
  · exact (Option.some_inj.mp h).symm
  · exact absurd h (by simp)

lemma pruneDiameterTree_radii (T : TreeStructure) (hv : ValidTree T)
    (hr : ∀ s ∈ T.segments, 0 ≤ s.radius) (dv : ℝ) :
    ∀ s ∈ (pruneDiameterTree dv T).segments, 0 ≤ s.radius := by
  intro s hs
  have inv := rebuild_inv T.segments (valid_toNat_lt hv) (pruneDiameterKeep dv T.segments)
  obtain ⟨p, hp, hps⟩ := List.getElem_of_mem hs
  rcases Nat.eq_zero_or_pos p with rfl | hp1
  · have : s = segAt T.segments 0 := by
      rw [← hps, ← getD_eq_getElem _ hp]
      exact inv.head
    rw [this]
    exact hr _ (segAt_mem _ (List.length_pos.mpr hv.1))
  · obtain ⟨j, s', hj1, hjk, hfj, hidx⟩ := inv.pos_surj p hp1 hp
    have hseq := pruneDiameterKeep_some_eq dv T.segments hfj
    have hmem := inv.mem_keep j s' hj1 hjk hfj
    rw [hidx] at hmem
    have : s = { s' with parent_id :=
        (((rebuild T.segments (pruneDiameterKeep dv T.segments)).2.getD
          (parentOf T.segments j).toNat 0 : ℕ) : ℤ) } := by
      rw [← hps, ← getD_eq_getElem _ hp]
      exact hmem
    rw [this, hseq]
    show 0 ≤ (segAt T.segments j).radius
    have hn1 : 1 ≤ T.segments.length := List.length_pos.mpr hv.1
    exact hr _ (segAt_mem _ (by omega))

/-- For each surviving index `j`, the pruned tree contains a chain from a
vertex of diameter `max_diameter[j]` up to `j`'s new position; if the chain is
non-trivial its last-but-one element is a child of that position. -/
lemma kept_chain (T : TreeStructure) (hv : ValidTree T)
    (hr : ∀ s ∈ T.segments, 0 ≤ s.radius) (dv : ℝ) (hdv : 0 ≤ 0.01 * dv)
    {j : ℕ} (hj1 : 1 ≤ j) (hjn : j ≤ T.segments.length - 1)
    (hkept : (pruneDiameterKeep dv T.segments j).isSome) :
    ∃ q k,
      q < (rebuild T.segments (pruneDiameterKeep dv T.segments)).1.length ∧
      ProperChain (rebuild T.segments (pruneDiameterKeep dv T.segments)).1 q k ∧
      (pN (rebuild T.segments (pruneDiameterKeep dv T.segments)).1)^[k] q
        = (rebuild T.segments (pruneDiameterKeep dv T.segments)).2.getD j 0 ∧
      diam (rebuild T.segments (pruneDiameterKeep dv T.segments)).1 q
        = (maxDiameters T.segments).getD j 0 ∧
      (1 ≤ k → (pN (rebuild T.segments (pruneDiameterKeep dv T.segments)).1)^[k-1] q ∈
        childrenOf (rebuild T.segments (pruneDiameterKeep dv T.segments)).1
          ((rebuild T.segments (pruneDiameterKeep dv T.segments)).2.getD j 0)) ∧
      (k = 0 → q = (rebuild T.segments (pruneDiameterKeep dv T.segments)).2.getD j 0) := by
  set segs := T.segments with hsegs
  set f := pruneDiameterKeep dv segs with hf
  set D := maxDiameters segs with hD
  set idx := (rebuild segs f).2 with hidx
  set segs₁ := (rebuild segs f).1 with hsegs₁
  have inv := rebuild_inv segs (valid_toNat_lt hv) f
  have hv₁ : ValidSegs segs₁ := rebuild_valid segs hv f
  have hn1 : 1 ≤ segs.length := List.length_pos.mpr hv.1
  have hjn' : j < segs.length := by omega
  have hspec := maxDiameters_spec segs hv hr
  have hDj : 0.01 * dv < D.getD j 0 := (pruneDiameterKeep_isSome dv segs j).mp hkept
  have hDj0 : D.getD j 0 ≠ 0 := by
    intro h
    rw [h] at hDj
    linarith
  rcases hspec.1.prov j hjn' with h0 | ⟨m, k, hm, hpc, hit, hval, hcond⟩
  · exact absurd h0 hDj0
  -- every element of the chain survives
  have hm1 : 1 ≤ m := by
    rcases Nat.eq_zero_or_pos k with rfl | hk1
    · simp only [Function.iterate_zero, id_eq] at hit
      omega
    · exact hpc 0 (by omega)
  have helem_lt : ∀ i, (pN segs)^[i] m < segs.length := fun i => iter_lt_len segs hv hm i
  have helem_ge1 : ∀ i, i ≤ k → 1 ≤ (pN segs)^[i] m := by
    intro i hi
    rcases Nat.lt_or_ge i k with h' | h'
    · exact hpc i h'
    · have : i = k := by omega
      subst this
      rw [hit]; exact hj1
  have helem_kept : ∀ i, i ≤ k → (f ((pN segs)^[i] m)).isSome := by
    intro i hi
    rw [hf, pruneDiameterKeep_isSome]
    calc 0.01 * dv < D.getD j 0 := hDj
      _ = diam segs m := hval
      _ ≤ (maxDiameters segs).getD ((pN segs)^[i] m) 0 := hcond i hi
  have hidx_pos : ∀ i, i ≤ k → 1 ≤ idx.getD ((pN segs)^[i] m) 0 := by
    intro i hi
    rw [hidx, inv.idx_keep _ (helem_ge1 i hi) (by have := helem_lt i; omega) (helem_kept i hi)]
    omega
  have hidx_lt : ∀ i, i ≤ k → idx.getD ((pN segs)^[i] m) 0 < segs₁.length := by
    intro i hi
    exact inv.idx_lt _ (by have := helem_lt i; omega)
  -- transfer the chain into the pruned tree
  have htrans : ∀ i, i ≤ k →
      (pN segs₁)^[i] (idx.getD m 0) = idx.getD ((pN segs)^[i] m) 0 := by
    intro i
    induction i with
    | zero => intro _; simp
    | succ i ih =>
      intro hi
      have hih := ih (by omega)
      set u := (pN segs)^[i] m with hu
      have hu1 : 1 ≤ u := helem_ge1 i (by omega)
      have hult : u < segs.length := helem_lt i
      obtain ⟨s', hfs'⟩ := Option.isSome_iff_exists.mp (helem_kept i (by omega))
      have hmem := inv.mem_keep u s' hu1 (by omega) hfs'
      have hseq := pruneDiameterKeep_some_eq dv segs hfs'
      rw [Function.iterate_succ_apply', hih]
      show (parentOf segs₁ (idx.getD u 0)).toNat = idx.getD ((pN segs)^[i+1] m) 0
      unfold parentOf segAt
      rw [hmem]
      show (((idx.getD (parentOf segs u).toNat 0 : ℕ) : ℤ)).toNat = _
      rw [Int.toNat_ofNat]
      rw [Function.iterate_succ_apply']
      rfl
  refine ⟨idx.getD m 0, k, by simpa using hidx_lt 0 (by omega), ?_, ?_, ?_, ?_, ?_⟩
  · intro i hi
    rw [htrans i (by omega)]
    exact hidx_pos i (by omega)
  · rw [htrans k le_rfl, hit]
  · obtain ⟨s', hfs'⟩ := Option.isSome_iff_exists.mp (helem_kept 0 (by omega))
    simp only [Function.iterate_zero, id_eq] at hfs'
    have hmem := inv.mem_keep m s' hm1 (by have := helem_lt 0; simp at this; omega) hfs'
    have hseq := pruneDiameterKeep_some_eq dv segs hfs'
    show 2 * (segAt segs₁ (idx.getD m 0)).radius = D.getD j 0
    unfold segAt
    rw [hmem, hseq]
    show 2 * (segAt segs m).radius = D.getD j 0
    rw [hval]
    rfl
  · intro hk1
    obtain ⟨k', rfl⟩ : ∃ k', k = k' + 1 := ⟨k - 1, by omega⟩
    have hred : k' + 1 - 1 = k' := by omega
    rw [hred]
    have hq' := htrans k' (by omega)
    have hstep : (parentOf segs₁ ((pN segs₁)^[k'] (idx.getD m 0))).toNat
        = idx.getD j 0 := by
      have h2 := htrans (k' + 1) le_rfl
      rw [Function.iterate_succ_apply'] at h2
      rw [hit] at h2
      exact h2
    refine (mem_childrenOf segs₁ hv₁ _ _).mpr ⟨?_, ?_, ?_⟩
    · rw [hq']; exact hidx_pos k' (by omega)
    · rw [hq']; exact hidx_lt k' (by omega)
    · have hx1 : 1 ≤ (pN segs₁)^[k'] (idx.getD m 0) := by
        rw [hq']; exact hidx_pos k' (by omega)
      have hx2 : (pN segs₁)^[k'] (idx.getD m 0) < segs₁.length := by
        rw [hq']; exact hidx_lt k' (by omega)
      have hnn := (hv₁.2.2 _ hx1 hx2).1
      omega
  · intro hk0
    subst hk0
    simp only [Function.iterate_zero, id_eq] at hit
    rw [hit]

/-- Every leaf of the pruned tree passed the diameter test with its *own*
diameter: its propagated maximum was attained at itself (otherwise the
attaining vertex would have survived below it). -/
lemma pruned_leaf_diam (T : TreeStructure) (hv : ValidTree T)
    (hr : ∀ s ∈ T.segments, 0 ≤ s.radius) (dv : ℝ) (hdv : 0 ≤ 0.01 * dv)
    {p : ℕ} (hp1 : 1 ≤ p)
    (hplt : p < (rebuild T.segments (pruneDiameterKeep dv T.segments)).1.length)
    (hleaf : IsLeaf (rebuild T.segments (pruneDiameterKeep dv T.segments)).1 p) :
    0.01 * dv < diam (rebuild T.segments (pruneDiameterKeep dv T.segments)).1 p := by
  set segs := T.segments with hsegs
  set f := pruneDiameterKeep dv segs with hf
  have inv := rebuild_inv segs (valid_toNat_lt hv) f
  obtain ⟨j, s', hj1, hjk, hfj, hidxj⟩ := inv.pos_surj p hp1 hplt
  have hkept : (f j).isSome := by rw [hfj]; rfl
  obtain ⟨q, k, hqlt, hqpc, hqit, hqdiam, hchild, hk0⟩ :=
    kept_chain T hv hr dv hdv hj1 hjk hkept
  rw [hidxj] at hqit hchild hk0
  rcases Nat.eq_zero_or_pos k with rfl | hk1
  · rw [hk0 rfl] at hqdiam
    rw [hqdiam]
    exact (pruneDiameterKeep_isSome dv segs j).mp hkept
  · exfalso
    have := hchild hk1
    rw [hleaf] at this
    simp at this

/-- **Idempotence of diameter pruning, per tree**: pruning an already-pruned
tree at any smaller-or-equal threshold keeps every segment, so the rebuild is
the identity. -/
lemma pruneDiameterTree_idem (T : TreeStructure) (hv : ValidTree T)
    (hr : ∀ s ∈ T.segments, 0 ≤ s.radius) {dv dv' : ℝ} (hle : dv' ≤ dv) :
    pruneDiameterTree dv' (pruneDiameterTree dv T) = pruneDiameterTree dv T := by
  set segs := T.segments with hsegs
  set f := pruneDiameterKeep dv segs with hf
  set segs₁ := (rebuild segs f).1 with hsegs₁
  have inv := rebuild_inv segs (valid_toNat_lt hv) f
  have hv₁ : ValidSegs segs₁ := rebuild_valid segs hv f
  have hr₁ : ∀ s ∈ segs₁, 0 ≤ s.radius := pruneDiameterTree_radii T hv hr dv
  have hall : ∀ p, 1 ≤ p → p < segs₁.length →
      pruneDiameterKeep dv' segs₁ p = some (segAt segs₁ p) := by
    intro p hp1 hplt
    apply pruneDiameterKeep_eq_some
    rcases lt_or_le (0.01 * dv') 0 with hneg | hpos'
    · have hnn := (maxDiameters_spec segs₁ hv₁ hr₁).1.nonneg p
      linarith
    · have hdvpos : 0 ≤ 0.01 * dv := by linarith
      obtain ⟨j, s', hj1, hjk, hfj, hidxj⟩ := inv.pos_surj p hp1 hplt
      have hkept : (f j).isSome := by rw [hfj]; rfl
      obtain ⟨q, k, hqlt, hqpc, hqit, hqdiam, _, _⟩ :=
        kept_chain T hv hr dv hdvpos hj1 hjk hkept
      rw [hidxj] at hqit
      obtain ⟨l₂, k₂, hl₂lt, hl₂leaf, hpc₂, hit₂⟩ := exists_leaf_below segs₁ hv₁ q hqlt
      have hlen2 : 2 ≤ segs₁.length := by omega
      have hpos₁ : ∀ l, l < segs₁.length → IsLeaf segs₁ l → 0 < (segAt segs₁ l).radius := by
        intro l hllt hlleaf
        rcases Nat.eq_zero_or_pos l with rfl | hl1
        · exfalso
          have h1c : (1 : ℕ) ∈ childrenOf segs₁ 0 := by
            refine (mem_childrenOf segs₁ hv₁ 0 1).mpr ⟨le_rfl, by omega, ?_⟩
            have := hv₁.2.2 1 le_rfl (by omega)
            omega
          rw [hlleaf] at h1c
          simp at h1c
        · have := pruned_leaf_diam T hv hr dv hdvpos hl1 hllt hlleaf
          unfold diam at this
          linarith
      have hcomb : (pN segs₁)^[k + k₂] l₂ = p := by
        rw [Function.iterate_add_apply, hit₂, hqit]
      have hcombpc : ProperChain segs₁ l₂ (k + k₂) := by
        intro i hi
        rcases Nat.lt_or_ge i k₂ with h' | h'
        · exact hpc₂ i h'
        · obtain ⟨i', rfl⟩ : ∃ i', i = i' + k₂ := ⟨i - k₂, by omega⟩
          rw [Function.iterate_add_apply, hit₂]
          exact hqpc i' (by omega)
      have hlow := maxDiameters_lower segs₁ hv₁ hr₁ hpos₁ l₂ hl₂lt hl₂leaf
        (k + k₂) hcombpc k₂ (by omega)
      rw [hcomb] at hlow
      have hmid : (pN segs₁)^[k₂] l₂ = q := hit₂
      rw [hmid, hqdiam] at hlow
      have hDj := (pruneDiameterKeep_isSome dv segs j).mp hkept
      have h001 : 0.01 * dv' ≤ 0.01 * dv := by linarith
      calc 0.01 * dv' ≤ 0.01 * dv := h001
        _ < (maxDiameters segs).getD j 0 := hDj
        _ ≤ (maxDiameters segs₁).getD p 0 := hlow
  have hfinal : (rebuild (pruneDiameterTree dv T).segments
      (pruneDiameterKeep dv' (pruneDiameterTree dv T).segments)).1
      = (pruneDiameterTree dv T).segments :=
    rebuild_id segs₁ hv₁ _ hall
  show { pruneDiameterTree dv T with
      segments := (rebuild (pruneDiameterTree dv T).segments
        (pruneDiameterKeep dv' (pruneDiameterTree dv T).segments)).1 }
    = pruneDiameterTree dv T
  rw [hfinal]

/-! ## Forest-level idempotence and monotonicity (claim C5) -/

/-- Total number of segments of a forest. -/
def totalSegments (f : ForestStructure) : ℕ :=
  (f.trees.map (fun T => T.segments.length)).sum

lemma map_self {α : Type} {f : α → α} {l : List α} (h : ∀ x ∈ l, f x = x) :
    l.map f = l := by
  induction l with
  | nil => rfl
  | cons a t ih =>
    rw [List.map_cons, h a (by simp), ih (fun x hx => h x (by simp [hx]))]

lemma pruneLoop_out_mem (g : TreeStructure → TreeStructure) (l : List TreeStructure) :
    ∀ S ∈ (pruneLoop g l).2, ∃ T ∈ l, S = g T ∧ (g T).segments.length ≠ 1 := by
  intro S hS
  have hperm := (pruneLoop_perm g l.length l le_rfl).2
  have := hperm.mem_iff.mp hS
  obtain ⟨T, hT, hgT⟩ := List.mem_map.mp this
  have hTf := List.mem_filter.mp hT
  exact ⟨T, hTf.1, hgT.symm, by simpa using hTf.2⟩

lemma pruneDiameterTree_len (T : TreeStructure) (hv : ValidTree T) (dv : ℝ) :
    (pruneDiameterTree dv T).segments.length
      = 1 + keptCount (pruneDiameterKeep dv T.segments) (T.segments.length - 1) :=
  (rebuild_inv T.segments (valid_toNat_lt hv) (pruneDiameterKeep dv T.segments)).seg_len

lemma keptCount_anti (segs : List Segment) {dv dv' : ℝ} (hle : dv' ≤ dv) (k : ℕ) :
    keptCount (pruneDiameterKeep dv segs) k ≤ keptCount (pruneDiameterKeep dv' segs) k := by
  induction k with
  | zero => simp [keptCount]
  | succ m ih =>
    rw [keptCount_succ, keptCount_succ]
    by_cases h : (pruneDiameterKeep dv segs (m + 1)).isSome
    · have h' : (pruneDiameterKeep dv' segs (m + 1)).isSome := by
        rw [pruneDiameterKeep_isSome] at h ⊢
        have : 0.01 * dv' ≤ 0.01 * dv := by linarith
        linarith
      rw [if_pos h, if_pos h']
      omega
    · rw [if_neg h]
      split <;> omega

lemma sum_filter_ite (g : TreeStructure → TreeStructure) (l : List TreeStructure) :
    ((l.filter (fun T => (g T).segments.length ≠ 1)).map
        (fun T => (g T).segments.length)).sum
      = (l.map (fun T =>
          if (g T).segments.length = 1 then 0 else (g T).segments.length)).sum := by
  induction l with
  | nil => rfl
  | cons a t ih =>
    by_cases h : (g a).segments.length = 1
    · rw [List.map_cons, if_pos h]
      have : (a :: t).filter (fun T => decide ((g T).segments.length ≠ 1))
          = t.filter (fun T => decide ((g T).segments.length ≠ 1)) := by
        simp [List.filter, h]
      rw [this, ih]
      simp
    · have : (a :: t).filter (fun T => decide ((g T).segments.length ≠ 1))
          = a :: t.filter (fun T => decide ((g T).segments.length ≠ 1)) := by
        simp [List.filter, h]
      rw [this, List.map_cons, List.map_cons, if_neg h, List.sum_cons, List.sum_cons, ih]

/-- **C5.**  Diameter pruning is idempotent along decreasing thresholds
(`t' ≤ t`): pruning the pruned forest again changes nothing; and the surviving
segment count is antitone in the threshold. -/
theorem pruneDiameter_idempotent_and_monotone (F : ForestStructure) (dv dv' : ℝ)
    (hle : dv' ≤ dv) (hv : ValidForest F)
    (hr : ∀ T ∈ F.trees, ∀ s ∈ T.segments, 0 ≤ s.radius) :
    (pruneDiameter (pruneDiameter F dv).2 dv').2 = (pruneDiameter F dv).2 ∧
    totalSegments (pruneDiameter F dv).2 ≤ totalSegments (pruneDiameter F dv').2 := by
  constructor
  · set G := (pruneDiameter F dv).2 with hG
    have hGtrees : G.trees = (pruneLoop (pruneDiameterTree dv) F.trees).2 := rfl
    have hid : ∀ S ∈ G.trees, pruneDiameterTree dv' S = S := by
      intro S hS
      rw [hGtrees] at hS
      obtain ⟨T, hT, rfl, _⟩ := pruneLoop_out_mem _ _ S hS
      exact pruneDiameterTree_idem T (hv T hT) (hr T hT) hle
    have hnd : ∀ S ∈ G.trees, (pruneDiameterTree dv' S).segments.length ≠ 1 := by
      intro S hS
      rw [hid S hS]
      rw [hGtrees] at hS
      obtain ⟨T, hT, hST, hlen⟩ := pruneLoop_out_mem _ _ S hS
      rw [hST]
      exact hlen
    show { G with trees := (pruneLoop (pruneDiameterTree dv') G.trees).2 } = G
    rw [pruneLoop_no_drop _ _ hnd]
    rw [map_self hid]
  · unfold totalSegments
    have hperm1 := ((pruneLoop_perm (pruneDiameterTree dv) F.trees.length F.trees le_rfl).2.map
      (fun T => T.segments.length)).sum_eq
    have hperm2 := ((pruneLoop_perm (pruneDiameterTree dv') F.trees.length F.trees le_rfl).2.map
      (fun T => T.segments.length)).sum_eq
    show ((pruneLoop (pruneDiameterTree dv) F.trees).2.map (fun T => T.segments.length)).sum
      ≤ ((pruneLoop (pruneDiameterTree dv') F.trees).2.map (fun T => T.segments.length)).sum
    rw [hperm1, hperm2, List.map_map, List.map_map]
    rw [show ((fun T : TreeStructure => T.segments.length) ∘ pruneDiameterTree dv)
        = fun T => (pruneDiameterTree dv T).segments.length from rfl]
    rw [show ((fun T : TreeStructure => T.segments.length) ∘ pruneDiameterTree dv')
        = fun T => (pruneDiameterTree dv' T).segments.length from rfl]
    rw [sum_filter_ite, sum_filter_ite]
    apply List.sum_le_sum
    intro T hT
    have hlenD := pruneDiameterTree_len T (hv T hT) dv
    have hlenD' := pruneDiameterTree_len T (hv T hT) dv'
    have hcnt := keptCount_anti T.segments hle (T.segments.length - 1)
    by_cases h1 : (pruneDiameterTree dv T).segments.length = 1
    · rw [if_pos h1]
      omega
    · rw [if_neg h1]
      have h1' : (pruneDiameterTree dv' T).segments.length ≠ 1 := by omega
      rw [if_neg h1']
      omega

lemma twoTree_valid : ValidTree twoTree := by
  refine ⟨by simp [twoTree], rfl, ?_⟩
  intro i h1 h2
  have h2' : i < 2 := by simpa [twoTree] using h2
  have : i = 1 := by omega
  subst this
  constructor
  · show (0 : ℤ) ≤ parentOf twoTree.segments 1
    norm_num [parentOf, segAt, twoTree]
  · show parentOf twoTree.segments 1 < 1
    norm_num [parentOf, segAt, twoTree]

lemma twoForest_valid : ValidForest twoForest := by
  intro T hT
  rw [show T = twoTree by simpa [twoForest] using hT]
  exact twoTree_valid

lemma twoForest_radii : ∀ T ∈ twoForest.trees, ∀ s ∈ T.segments, 0 ≤ s.radius := by
  intro T hT s hs
  rw [show T = twoTree by simpa [twoForest] using hT] at hs
  have hs' : s = (⟨V3.zero, 1, -1, []⟩ : Segment) ∨ s = ⟨⟨0, 0, 1⟩, 1, 0, []⟩ := by
    simpa [twoTree] using hs
  rcases hs' with rfl | rfl <;> norm_num

/-! ## Decimation (`treedecimate.cpp`) -/

/-- The stride-decimation counting pass: `counts[i] = counts[parent]+1`, reset
to 0 whenever the segment is kept; a segment is kept when its count reaches the
stride, or it is a branch point, or a leaf.  (In the source this pass is
interleaved with the rebuild; the two are independent, so they are embedded as
two passes.) -/
def strideState (segs : List Segment) (N : ℤ) : List (ℤ × Bool) :=
  (List.range' 1 (segs.length - 1)).foldl
    (fun acc i =>
      let c := (acc.getD (parentOf segs i).toNat (0, false)).1 + 1
      if c = N ∨ 1 < (childrenOf segs i).length ∨ (childrenOf segs i).length = 0
      then acc ++ [(0, true)] else acc ++ [(c, false)])
    [(0, false)]

/-- Fixed-stride decimation of one tree (the `segments` branch of
`treedecimate`'s main loop). -/
def decimateSegments (N : ℤ) (t : TreeStructure) : TreeStructure :=
  { t with segments := (rebuild t.segments (fun i =>
      if ((strideState t.segments N).getD i (0, false)).2
      then some (segAt t.segments i) else none)).1 }

/-- One iteration of the ratio-decimation marking pass: a single-child
segment shorter than `ratio × width` is spliced out (its child re-parented to
its parent) and marked with the `parent_id = -1` sentinel.  `segs` is the
original list (children are computed on it), `cur` the mutated copy. -/
def ratioStep (ratio : ℝ) (segs : List Segment) (cur : List Segment) (i : ℕ) :
    List Segment :=
  let s := segAt cur i
  let length := V3.norm (V3.sub s.tip (segAt cur s.parent_id.toNat).tip)
  let width := 2 * s.radius
  if (childrenOf segs i).length = 1 ∧ length < ratio * width then
    ((cur.set ((childrenOf segs i).getD 0 0)
        { segAt cur ((childrenOf segs i).getD 0 0) with parent_id := s.parent_id }).set
      i { s with parent_id := -1 })
  else cur

/-- The ratio-decimation marking pass over all segment indices. -/
def ratioMark (ratio : ℝ) (segs : List Segment) : List Segment :=
  (List.range' 1 (segs.length - 1)).foldl (ratioStep ratio segs) segs

/-- Modelled from the spec: `ray::TreeStructure::reindex` (defined in the
external raylib collaborator, not under this repository's sources) compacts
the segment array, dropping the segments marked with the `parent_id = -1`
sentinel, and remaps every surviving segment's parent to the surviving
ancestor's new index. -/
def reindex (segs : List Segment) : List Segment :=
  (rebuild segs (fun i =>
    if (segAt segs i).parent_id = -1 then none else some (segAt segs i))).1

/-- Length/radius-ratio decimation of one tree (the `ratio` branch of
`treedecimate`'s main loop). -/
def decimateRatio (ratio : ℝ) (t : TreeStructure) : TreeStructure :=
  { t with segments := reindex (ratioMark ratio t.segments) }

/-- One marking step keeps the list length, the root's `-1` parent, and the
weak topological order (marked parents collapse to index 0). -/
lemma ratioStep_weak (segs : List Segment) (hv : ValidSegs segs) (ratio : ℝ)
    {cur : List Segment} {i : ℕ} (hi1 : 1 ≤ i) (hilt : i < segs.length)
    (hlen : cur.length = segs.length) (hroot : parentOf cur 0 = -1)
    (hw : ∀ j, 1 ≤ j → j < segs.length → (parentOf cur j).toNat < j) :
    (ratioStep ratio segs cur i).length = segs.length ∧
    parentOf (ratioStep ratio segs cur i) 0 = -1 ∧
    ∀ j, 1 ≤ j → j < segs.length → (parentOf (ratioStep ratio segs cur i) j).toNat < j := by
  unfold ratioStep
  dsimp only
  split
  · rename_i hcond
    set c := (childrenOf segs i).getD 0 0 with hc
    have hcmem : c ∈ childrenOf segs i := by
      rcases hlist : childrenOf segs i with _ | ⟨x, xs⟩
      · rw [hlist] at hcond; simp at hcond
      · rw [hc, hlist]
        simp
    have hcprops := (mem_childrenOf segs hv i c).mp hcmem
    have hic : i < c := by
      have := hv.2.2 c hcprops.1 hcprops.2.1
      omega
    have hclen : c < cur.length := by rw [hlen]; exact hcprops.2.1
    have hilen : i < cur.length := by rw [hlen]; exact hilt
    have hne_set : ∀ (l : List Segment) (a : ℕ) (v : Segment) (y : ℕ), y ≠ a →
        parentOf (l.set a v) y = parentOf l y := by
      intro l a v y hy
      unfold parentOf segAt
      rw [getD_set_ne _ (fun h => hy h.symm)]
    have hself_set : ∀ (l : List Segment) (a : ℕ) (v : Segment), a < l.length →
        parentOf (l.set a v) a = v.parent_id := by
      intro l a v ha
      unfold parentOf segAt
      rw [getD_set_self ha]
    refine ⟨by simp [hlen], ?_, ?_⟩
    · rw [hne_set _ _ _ 0 (by omega), hne_set _ _ _ 0 (by omega)]
      exact hroot
    · intro j hj1 hjlt
      rcases eq_or_ne j i with rfl | hji
      · rw [hself_set _ _ _ (by simpa using hilen)]
        simpa using hj1
      · rw [hne_set _ _ _ j hji]
        rcases eq_or_ne j c with rfl | hjc
        · rw [hself_set _ _ _ hclen]
          show ((segAt cur i).parent_id).toNat < c
          have hwi := hw i hi1 hilt
          unfold parentOf at hwi
          omega
        · rw [hne_set _ _ _ j hjc]
          exact hw j hj1 hjlt
  · exact ⟨hlen, hroot, hw⟩

/-- The marking pass keeps the list length, the root's `-1` parent, and the
weak topological order. -/
lemma ratioMark_weak (segs : List Segment) (hv : ValidSegs segs) (ratio : ℝ) :
    (ratioMark ratio segs).length = segs.length ∧
    parentOf (ratioMark ratio segs) 0 = -1 ∧
    ∀ j, 1 ≤ j → j < segs.length → (parentOf (ratioMark ratio segs) j).toNat < j := by
  have H : ∀ k, k ≤ segs.length - 1 →
      ((List.range' 1 k).foldl (ratioStep ratio segs) segs).length = segs.length ∧
      parentOf ((List.range' 1 k).foldl (ratioStep ratio segs) segs) 0 = -1 ∧
      ∀ j, 1 ≤ j → j < segs.length →
        (parentOf ((List.range' 1 k).foldl (ratioStep ratio segs) segs) j).toNat < j := by
    intro k
    induction k with
    | zero =>
      intro _
      exact ⟨rfl, hv.2.1, valid_toNat_lt hv⟩
    | succ m ih =>
      intro hm
      obtain ⟨hlen, hroot, hw⟩ := ih (by omega)
      rw [show List.range' 1 (m + 1) = List.range' 1 m ++ [1 + m] by
        simpa using @List.range'_concat 1 1 m, List.foldl_append,
        List.foldl_cons, List.foldl_nil]
      have hn1 : 1 ≤ segs.length := List.length_pos.mpr hv.1
      exact ratioStep_weak segs hv ratio (by omega) (by omega) hlen hroot hw
  unfold ratioMark
  exact H _ le_rfl

/-! ## Correctness of the minimum-distance-to-leaf pass -/

/-- The tip-to-tip length of the edge from `x` up to its parent. -/
def edgeUp (segs : List Segment) (x : ℕ) : ℝ :=
  V3.norm (V3.sub (segAt segs (pN segs x)).tip (segAt segs x).tip)

/-- The length of the `k`-step parent path starting at `l`. -/
def pathLen (segs : List Segment) (l : ℕ) : ℕ → ℝ
  | 0 => 0
  | k + 1 => pathLen segs l k + edgeUp segs ((pN segs)^[k] l)

/-- Provenance invariant of the minimum-distance array: every entry is either
the unvisited sentinel or the length of an actual path from some leaf. -/
def MinProv (segs : List Segment) (d : List ℝ) : Prop :=
  ∀ v, v < segs.length → d.getD v 0 = dblMax ∨
    ∃ l k, l < segs.length ∧ IsLeaf segs l ∧ ProperChain segs l k ∧
      (pN segs)^[k] l = v ∧ d.getD v 0 = pathLen segs l k

lemma climbMin_prov (segs : List Segment) (hv : ValidSegs segs) :
    ∀ fuel c par d, c < segs.length → par = parentOf segs c →
      d.length = segs.length → MinProv segs d →
      (∃ l k, l < segs.length ∧ IsLeaf segs l ∧ ProperChain segs l k ∧
        (pN segs)^[k] l = c ∧ d.getD c 0 = pathLen segs l k) →
      MinProv segs (climbMin segs fuel c par d) ∧
        (climbMin segs fuel c par d).length = segs.length := by
  intro fuel
  induction fuel with
  | zero => intro c par d _ _ hd h _; exact ⟨h, hd⟩
  | succ f ih =>
    intro c par d hc hpar hd h hcprov
    unfold climbMin
    dsimp only
    split
    · exact ⟨h, hd⟩
    · rename_i hne
      rw [hpar] at hne
      have h1 : 1 ≤ c := child_pos segs hv hc hne
      have hp : par.toNat = pN segs c := by rw [hpar]; rfl
      have hplt : par.toNat < segs.length := by rw [hp]; exact pN_lt_len segs hv hc
      split
      · rename_i hcond
        obtain ⟨l, k, hl, hleaf, hpc, hit, hval⟩ := hcprov
        set nd := d.getD c 0 +
          V3.norm (V3.sub (segAt segs par.toNat).tip (segAt segs c).tip) with hnd
        have hndpath : nd = pathLen segs l (k + 1) := by
          have hk : pathLen segs l (k + 1)
              = pathLen segs l k + edgeUp segs ((pN segs)^[k] l) := rfl
          rw [hnd, hval, hk, hit]
          unfold edgeUp
          rw [← hp]
        have hchain : ProperChain segs l (k + 1) := by
          intro j hj
          rcases Nat.lt_or_ge j k with h' | h'
          · exact hpc j h'
          · have : j = k := by omega
            subst this
            rw [hit]; exact h1
        have hit' : (pN segs)^[k + 1] l = par.toNat := by
          rw [Function.iterate_succ_apply', hit, hp]
        have hself : (d.set par.toNat nd).getD par.toNat 0 = nd :=
          getD_set_self (by rw [hd]; exact hplt)
        have hsetne : ∀ y, y ≠ par.toNat → (d.set par.toNat nd).getD y 0 = d.getD y 0 :=
          fun y hy => getD_set_ne _ (fun h' => hy h'.symm)
        refine ih par.toNat (segAt segs par.toNat).parent_id _ hplt rfl
          (by rw [List.length_set]; exact hd) ?_ ?_
        · intro v hvlt
          rcases eq_or_ne v par.toNat with rfl | hvne
          · right
            exact ⟨l, k + 1, hl, hleaf, hchain, hit', by rw [hself, hndpath]⟩
          · rw [hsetne v hvne]
            exact h v hvlt
        · exact ⟨l, k + 1, hl, hleaf, hchain, hit', by rw [hself, hndpath]⟩
      · exact ⟨h, hd⟩

/-- The completed minimum-distance pass satisfies the provenance invariant. -/
lemma minLengths_prov (segs : List Segment) (hv : ValidSegs segs) :
    MinProv segs (minLengthsFromLeaf segs) ∧
      (minLengthsFromLeaf segs).length = segs.length := by
  set n := segs.length with hn
  set step := fun (d : List ℝ) (i : ℕ) =>
    if childrenOf segs i = [] then
      climbMin segs segs.length i (parentOf segs i) (d.set i 0)
    else d with hstep
  have H : ∀ K, K ≤ n →
      MinProv segs ((List.range K).foldl step (List.replicate n dblMax)) ∧
      ((List.range K).foldl step (List.replicate n dblMax)).length = n := by
    intro K
    induction K with
    | zero =>
      intro _
      simp only [List.range_zero, List.foldl_nil]
      constructor
      · intro v hvlt
        left
        exact getD_replicate (by omega)
      · simp
    | succ m ih =>
      intro hm
      obtain ⟨hprov, hlen⟩ := ih (by omega)
      rw [List.range_succ, List.foldl_append, List.foldl_cons, List.foldl_nil]
      set dcur := (List.range m).foldl step (List.replicate n dblMax) with hdcur
      by_cases hlf : childrenOf segs m = []
      · have hstepm : step dcur m =
            climbMin segs segs.length m (parentOf segs m) (dcur.set m 0) := by
          rw [hstep]; simp only; rw [if_pos hlf]
        rw [hstepm]
        have hmn : m < n := by omega
        have hseedprov : MinProv segs (dcur.set m 0) := by
          intro v hvlt
          rcases eq_or_ne v m with rfl | hvne
          · right
            refine ⟨v, 0, hmn, hlf, by intro j hj; omega, rfl, ?_⟩
            rw [getD_set_self (by rw [hlen]; exact hmn)]
            rfl
          · rw [getD_set_ne _ (fun h' => hvne h'.symm)]
            exact hprov v hvlt
        have := climbMin_prov segs hv segs.length m (parentOf segs m) (dcur.set m 0)
          hmn rfl (by rw [List.length_set]; exact hlen) hseedprov
          ⟨m, 0, hmn, hlf, by intro j hj; omega, rfl, by
            rw [getD_set_self (by rw [hlen]; exact hmn)]; rfl⟩
        exact this
      · have hstepm : step dcur m = dcur := by
          rw [hstep]; simp only; rw [if_neg hlf]
        rw [hstepm]
        exact ⟨hprov, hlen⟩
  have := H n le_rfl
  unfold minLengthsFromLeaf
  exact this

/-! ## Claim C7 -/

/-- The (segments, new-index) pair built by length pruning. -/
def pruneLengthRB (dMin L : ℝ) (T : TreeStructure) : List Segment × List ℕ :=
  rebuild T.segments
    (pruneLengthKeep dMin L T.segments (minLengthsFromLeaf T.segments))

/-- **C7.**  In length pruning: (1) every segment whose distance to *every*
leaf below it exceeds the threshold survives with tip, radius and attributes
unchanged (its `parent_id` is remapped to the nearest surviving ancestor's new
index); (2) every segment that fails the threshold while its parent's
propagated value passes it is kept with its tip blended toward the parent's
tip by `(parent_value − threshold)/(parent_value − own_value)`, clamped to
`[dMin, 1]` (the code's branch-free `max`/`min` clamp; the hypothesis
`dMin ≤ parent_value − own_value` makes the denominator floor inert). -/
theorem pruneLength_survive_and_blend (T : TreeStructure) (hv : ValidTree T)
    (dMin L : ℝ) (hLmax : L < dblMax) :
    (∀ i, 1 ≤ i → i < T.segments.length →
      (∀ l k, l < T.segments.length → IsLeaf T.segments l →
        ProperChain T.segments l k → (pN T.segments)^[k] l = i →
        L < pathLen T.segments l k) →
      (pruneLengthRB dMin L T).1.getD ((pruneLengthRB dMin L T).2.getD i 0) dfltSeg
        = { segAt T.segments i with parent_id :=
            (((pruneLengthRB dMin L T).2.getD (pN T.segments i) 0 : ℕ) : ℤ) }) ∧
    (∀ i, 1 ≤ i → i < T.segments.length →
      ¬(L < (minLengthsFromLeaf T.segments).getD i 0) →
      L < (minLengthsFromLeaf T.segments).getD (pN T.segments i) 0 →
      dMin ≤ (minLengthsFromLeaf T.segments).getD (pN T.segments i) 0
        - (minLengthsFromLeaf T.segments).getD i 0 →
      (pruneLengthRB dMin L T).1.getD ((pruneLengthRB dMin L T).2.getD i 0) dfltSeg
        = { segAt T.segments i with
            tip := V3.add (segAt T.segments (pN T.segments i)).tip
              (V3.smul
                (max dMin (min
                  (((minLengthsFromLeaf T.segments).getD (pN T.segments i) 0 - L) /
                   ((minLengthsFromLeaf T.segments).getD (pN T.segments i) 0 -
                    (minLengthsFromLeaf T.segments).getD i 0)) 1))
                (V3.sub (segAt T.segments i).tip
                  (segAt T.segments (pN T.segments i)).tip)),
            parent_id :=
              (((pruneLengthRB dMin L T).2.getD (pN T.segments i) 0 : ℕ) : ℤ) }) := by
  set segs := T.segments with hsegs
  set d := minLengthsFromLeaf segs with hd
  set f := pruneLengthKeep dMin L segs d with hf
  have inv := rebuild_inv segs (valid_toNat_lt hv) f
  have hprov := (minLengths_prov segs hv).1
  constructor
  · intro i h1 hi hmin
    have hkeep : L < d.getD i 0 := by
      rcases hprov i hi with h0 | ⟨l, k, hl, hleaf, hpc, hit, hval⟩
      · rw [hd, h0]; exact hLmax
      · rw [hd, hval]; exact hmin l k hl hleaf hpc hit
    have hsome : f i = some (segAt segs i) := by
      rw [hf]
      unfold pruneLengthKeep
      rw [if_pos hkeep]
    exact inv.mem_keep i (segAt segs i) h1 (by omega) hsome
  · intro i h1 hi hnk hpark hdiff
    have hpar := hv.2.2 i h1 hi
    have hsome : f i = some { segAt segs i with
        tip := V3.add (segAt segs (pN segs i)).tip
          (V3.smul (max dMin (min
              ((d.getD (pN segs i) 0 - L) / (d.getD (pN segs i) 0 - d.getD i 0)) 1))
            (V3.sub (segAt segs i).tip (segAt segs (pN segs i)).tip)) } := by
      rw [hf]
      unfold pruneLengthKeep
      rw [if_neg hnk]
      dsimp only
      rw [if_pos (by
        constructor
        · intro h'
          rw [h'] at hpar
          omega
        · exact hpark)]
      have hpn : (parentOf segs i).toNat = pN segs i := rfl
      rw [hpn, max_eq_right hdiff]
    exact inv.mem_keep i _ h1 (by omega) hsome

/-- A three-segment chain: root at the origin, segments at heights 1 and 2,
all radii 1. -/
def threeTree : TreeStructure :=
  ⟨[⟨V3.zero, 1, -1, []⟩, ⟨⟨0, 0, 1⟩, 1, 0, []⟩, ⟨⟨0, 0, 2⟩, 1, 1, []⟩], []⟩

lemma threeTree_valid : ValidTree threeTree := by
  refine ⟨by simp [threeTree], rfl, ?_⟩
  intro i h1 h2
  have h2' : i < 3 := by simpa [threeTree] using h2
  interval_cases i
  · constructor
    · show (0 : ℤ) ≤ parentOf threeTree.segments 1
      norm_num [parentOf, segAt, threeTree]
    · show parentOf threeTree.segments 1 < 1
      norm_num [parentOf, segAt, threeTree]
  · constructor
    · show (0 : ℤ) ≤ parentOf threeTree.segments 2
      norm_num [parentOf, segAt, threeTree]
    · show parentOf threeTree.segments 2 < 2
      norm_num [parentOf, segAt, threeTree]

lemma childrenOf_three_zero : childrenOf threeTree.segments 0 = [1] := by
  simp [childrenOf, buildChildren, threeTree, parentOf, segAt, List.range']

lemma childrenOf_three_one : childrenOf threeTree.segments 1 = [2] := by
  simp [childrenOf, buildChildren, threeTree, parentOf, segAt, List.range']

lemma childrenOf_three_two : childrenOf threeTree.segments 2 = [] := by
  simp [childrenOf, buildChildren, threeTree, parentOf, segAt, List.range']

lemma pN_three_two : pN threeTree.segments 2 = 1 := rfl

lemma pN_three_one : pN threeTree.segments 1 = 0 := rfl

lemma pN_three_zero : pN threeTree.segments 0 = 0 := rfl

lemma unitNorm_z : (V3.sub (⟨0, 0, 1⟩ : V3) ⟨0, 0, 2⟩).norm = 1 := by
  simp only [V3.norm, V3.normSq, V3.sub, V3.dot]
  norm_num

lemma unitNorm_z' : (V3.sub V3.zero (⟨0, 0, 1⟩ : V3)).norm = 1 := by
  simp only [V3.norm, V3.normSq, V3.sub, V3.dot, V3.zero]
  norm_num

lemma minLengths_three : minLengthsFromLeaf threeTree.segments = [2, 1, 0] := by
  unfold minLengthsFromLeaf
  rw [show threeTree.segments.length = 3 from rfl]
  rw [show List.range 3 = [0, 1, 2] from rfl]
  simp only [List.foldl_cons, List.foldl_nil, childrenOf_three_zero, childrenOf_three_one,
    childrenOf_three_two, if_neg (by simp : ¬([1] : List ℕ) = []),
    if_neg (by simp : ¬([2] : List ℕ) = []), if_pos rfl]
  unfold climbMin
  norm_num [threeTree, segAt, parentOf, climbMin, unitNorm_z, unitNorm_z', dblMax]
  rfl

/-- **C7, witness**: the three-segment chain at threshold 0.5 and floor
`10⁻¹⁰`; segment 1 (distance 1 to the only leaf) survives unchanged, segment 2
(the leaf itself) is blended halfway toward its parent's tip. -/
theorem pruneLength_witness :
    (pruneLengthRB (1/10^10) 0.5 threeTree).1.getD
        ((pruneLengthRB (1/10^10) 0.5 threeTree).2.getD 1 0) dfltSeg
      = { segAt threeTree.segments 1 with parent_id :=
          (((pruneLengthRB (1/10^10) 0.5 threeTree).2.getD (pN threeTree.segments 1) 0 : ℕ) : ℤ) } ∧
    (pruneLengthRB (1/10^10) 0.5 threeTree).1.getD
        ((pruneLengthRB (1/10^10) 0.5 threeTree).2.getD 2 0) dfltSeg
      = { segAt threeTree.segments 2 with
          tip := V3.add (segAt threeTree.segments (pN threeTree.segments 2)).tip
            (V3.smul
              (max (1/10^10) (min
                (((minLengthsFromLeaf threeTree.segments).getD (pN threeTree.segments 2) 0 - 0.5) /
                 ((minLengthsFromLeaf threeTree.segments).getD (pN threeTree.segments 2) 0 -
                  (minLengthsFromLeaf threeTree.segments).getD 2 0)) 1))
              (V3.sub (segAt threeTree.segments 2).tip
                (segAt threeTree.segments (pN threeTree.segments 2)).tip)),
          parent_id :=
            (((pruneLengthRB (1/10^10) 0.5 threeTree).2.getD (pN threeTree.segments 2) 0 : ℕ) : ℤ) } := by
  have H := pruneLength_survive_and_blend threeTree threeTree_valid (1/10^10) 0.5
    (by norm_num [dblMax])
  constructor
  · refine H.1 1 le_rfl (by norm_num [threeTree]) ?_
    intro l k hl hleaf hpc heq
    have hl3 : l < 3 := by simpa [threeTree] using hl
    have hl2 : l = 2 := by
      interval_cases l
      · exact absurd hleaf (by rw [IsLeaf, childrenOf_three_zero]; simp)
      · exact absurd hleaf (by rw [IsLeaf, childrenOf_three_one]; simp)
      · rfl
    subst hl2
    match k with
    | 0 => simp at heq
    | 1 =>
      show (0.5 : ℝ) < pathLen threeTree.segments 2 1
      show (0.5 : ℝ) < pathLen threeTree.segments 2 0 + edgeUp threeTree.segments ((pN threeTree.segments)^[0] 2)
      rw [show pathLen threeTree.segments 2 0 = 0 from rfl]
      simp only [Function.iterate_zero, id_eq]
      unfold edgeUp
      rw [pN_three_two]
      rw [show (segAt threeTree.segments 1).tip = ⟨0, 0, 1⟩ from rfl,
        show (segAt threeTree.segments 2).tip = ⟨0, 0, 2⟩ from rfl]
      rw [unitNorm_z]
      norm_num
    | (k' + 2) =>
      exfalso
      have : (pN threeTree.segments)^[k' + 2] 2 = 0 := by
        rw [Function.iterate_add_apply]
        rw [show (pN threeTree.segments)^[2] 2 = 0 from rfl]
        exact Function.iterate_fixed pN_three_zero k'
      rw [this] at heq
      exact absurd heq (by omega)
  · refine H.2 2 (by omega) (by norm_num [threeTree]) ?_ ?_ ?_
    · rw [minLengths_three]
      norm_num
    · rw [minLengths_three, pN_three_two]
      norm_num
    · rw [minLengths_three, pN_three_two]
      norm_num

/-! ## Claim C2 -/

/-- **C2.**  After any Transformer operation — diameter pruning, length
pruning, stride decimation or ratio decimation — of a valid tree, every
output tree is again a valid rooted tree (`parent_id = -1` only at index 0,
otherwise a strictly smaller nonnegative index) and every segment index is
reachable from index 0 by following children. -/
theorem transformer_topology_invariant :
    (∀ F dv, ValidForest F →
      ∀ T' ∈ (pruneDiameter F dv).2.trees, ValidTree T' ∧
        ∀ i, i < T'.segments.length → ReachableFromRoot T'.segments i) ∧
    (∀ F dMin lv, ValidForest F →
      ∀ T' ∈ (pruneLength F dMin lv).2.trees, ValidTree T' ∧
        ∀ i, i < T'.segments.length → ReachableFromRoot T'.segments i) ∧
    (∀ N T, ValidTree T → ValidTree (decimateSegments N T) ∧
        ∀ i, i < (decimateSegments N T).segments.length →
          ReachableFromRoot (decimateSegments N T).segments i) ∧
    (∀ ratio T, ValidTree T → ValidTree (decimateRatio ratio T) ∧
        ∀ i, i < (decimateRatio ratio T).segments.length →
          ReachableFromRoot (decimateRatio ratio T).segments i) := by
  refine ⟨?_, ?_, ?_, ?_⟩
  · intro F dv hv T' hT'
    obtain ⟨T, hT, rfl, _⟩ := pruneLoop_out_mem _ _ T' hT'
    have hvt : ValidSegs (pruneDiameterTree dv T).segments :=
      rebuild_valid T.segments (hv T hT) _
    exact ⟨hvt, fun i hi => valid_reachable hvt i hi⟩
  · intro F dMin lv hv T' hT'
    obtain ⟨T, hT, rfl, _⟩ := pruneLoop_out_mem _ _ T' hT'
    have hvt : ValidSegs (pruneLengthTree dMin lv T).segments :=
      rebuild_valid T.segments (hv T hT) _
    exact ⟨hvt, fun i hi => valid_reachable hvt i hi⟩
  · intro N T hv
    have hvt : ValidSegs (decimateSegments N T).segments :=
      rebuild_valid T.segments hv _
    exact ⟨hvt, fun i hi => valid_reachable hvt i hi⟩
  · intro ratio T hv
    obtain ⟨hlen, hroot, hw⟩ := ratioMark_weak T.segments hv ratio
    have hne : ratioMark ratio T.segments ≠ [] := by
      intro h
      rw [h] at hlen
      have := List.length_pos.mpr hv.1
      simp at hlen
      omega
    have hw' : ∀ j, 1 ≤ j → j < (ratioMark ratio T.segments).length →
        (parentOf (ratioMark ratio T.segments) j).toNat < j := by
      intro j h1 h2
      rw [hlen] at h2
      exact hw j h1 h2
    have hvt : ValidSegs (decimateRatio ratio T).segments :=
      rebuild_valid' (ratioMark ratio T.segments) hne hroot hw' _
    exact ⟨hvt, fun i hi => valid_reachable hvt i hi⟩

/-- **C2, witness**: concrete instances for each of the four operations. -/
theorem transformer_topology_invariant_witness :
    (∀ T' ∈ (pruneDiameter twoForest 1).2.trees, ValidTree T' ∧
        ∀ i, i < T'.segments.length → ReachableFromRoot T'.segments i) ∧
    (∀ T' ∈ (pruneLength twoForest 0 0.5).2.trees, ValidTree T' ∧
        ∀ i, i < T'.segments.length → ReachableFromRoot T'.segments i) ∧
    (ValidTree (decimateSegments 2 twoTree) ∧
        ∀ i, i < (decimateSegments 2 twoTree).segments.length →
          ReachableFromRoot (decimateSegments 2 twoTree).segments i) ∧
    (ValidTree (decimateRatio 3 twoTree) ∧
        ∀ i, i < (decimateRatio 3 twoTree).segments.length →
          ReachableFromRoot (decimateRatio 3 twoTree).segments i) :=
  ⟨transformer_topology_invariant.1 twoForest 1 twoForest_valid,
   transformer_topology_invariant.2.1 twoForest 0 0.5 twoForest_valid,
   transformer_topology_invariant.2.2.1 2 twoTree twoTree_valid,
   transformer_topology_invariant.2.2.2 3 twoTree twoTree_valid⟩

/-- **C5, witness**: the two-segment forest at thresholds `1` and `0.5`. -/
theorem pruneDiameter_idem_witness :
    (pruneDiameter (pruneDiameter twoForest 1).2 0.5).2 = (pruneDiameter twoForest 1).2 ∧
    totalSegments (pruneDiameter twoForest 1).2
      ≤ totalSegments (pruneDiameter twoForest 0.5).2 :=
  pruneDiameter_idempotent_and_monotone twoForest 1 0.5 (by norm_num)
    twoForest_valid twoForest_radii

end TreeTools

namespace TreeTools

/-! ## Claim C1 -/

/-- **C1, counterexample.**  The claim says the pruning operations never
mutate the input forest and drop root-only trees "from the output forest
only".  On a forest holding one trunk-only tree, `pruneDiameter` removes the
tree from the *input* forest as well (`forest.trees[t] = forest.trees.back();
forest.trees.pop_back()`), leaving the caller's forest empty. -/
theorem pruneDiameter_mutates_input_on_dropped_tree :
    (pruneDiameter trunkForest 0.01).1.trees = [] ∧ trunkForest.trees.length = 1 := by
  constructor
  · rw [pruneDiameter_trunk]
  · rfl

/-- **C1 (amended).**  Pruning does not mutate the input forest *provided no
tree of the forest is reduced to a single root-only segment*: in that case the
input component is returned unchanged and the output forest is the in-order
per-tree pruning.  (A tree reduced to a root-only segment is removed from both
the input and the output forest, as the counterexample shows.) -/
theorem prune_preserves_input_when_no_tree_drops
    (F : ForestStructure) (dv dMin lv : ℝ)
    (hD : ∀ T ∈ F.trees, (pruneDiameterTree dv T).segments.length ≠ 1)
    (hL : ∀ T ∈ F.trees, (pruneLengthTree dMin lv T).segments.length ≠ 1) :
    pruneDiameter F dv
        = (F, { F with trees := F.trees.map (pruneDiameterTree dv) }) ∧
    pruneLength F dMin lv
        = (F, { F with trees := F.trees.map (pruneLengthTree dMin lv) }) := by
  constructor
  · unfold pruneDiameter
    rw [pruneLoop_no_drop _ _ hD]
  · unfold pruneLength
    rw [pruneLoop_no_drop _ _ hL]

/-- **C1, witness** for the amended theorem: a forest of one two-segment tree,
diameter threshold 1, length threshold 0.5. -/
theorem prune_preserves_input_witness :
    pruneDiameter twoForest 1
        = (twoForest, { twoForest with trees := twoForest.trees.map (pruneDiameterTree 1) }) ∧
    pruneLength twoForest 0 0.5
        = (twoForest, { twoForest with trees := twoForest.trees.map (pruneLengthTree 0 0.5) }) :=
  prune_preserves_input_when_no_tree_drops twoForest 1 0 0.5
    (by intro T hT
        rw [show T = twoTree by simpa [twoForest] using hT]
        rw [pruneDiameterTree_two]
        omega)
    (by intro T hT
        rw [show T = twoTree by simpa [twoForest] using hT]
        rw [pruneLengthTree_two]
        omega)

/-! ## Claim C3 -/

/-- **C3, counterexample.**  The claim says diameter pruning at threshold 0.01
retains the trunk-only tree with its single segment.  In fact the rebuilt tree
has exactly one segment, so the `new_tree.segments().size() == 1` check removes
it: the output forest is empty. -/
theorem trunk_tree_not_retained :
    (pruneDiameter trunkForest 0.01).2.trees = [] := by
  rw [pruneDiameter_trunk]

/-- **C3 (amended).**  The trunk-only tree (one segment, radius 0.2, tip at
the origin) is dropped entirely from the diameter-pruned output forest
(single-segment trees are always removed), and `getBranchLengths` assigns it
length 0 for every prune-length constant: the prune-length seeding applies
only to leaves of index ≥ 1, and the root's length is the maximum over its
(here absent) children. -/
theorem trunk_tree_dropped_and_zero_length :
    (pruneDiameter trunkForest 0.01).2.trees = [] ∧
    ∀ prune_length : ℝ, getBranchLengths trunkTree prune_length = [0] := by
  constructor
  · rw [pruneDiameter_trunk]
  · exact getBranchLengths_trunk

end TreeTools

namespace TreeTools

/-! ## Power-law fit: `calculatePowerLaw` (treelib/treeinformation.cpp). -/

/-- List-index helpers. -/
lemma getD_map_range {α : Type} (f : ℕ → α) (d : α) {n i : ℕ} (h : i < n) :
    ((List.range n).map f).getD i d = f i := by
  simp [List.getD_eq_getElem?_getD, List.getElem?_range h]

lemma sum_map_range (f : ℕ → ℝ) (n : ℕ) :
    ((List.range n).map f).sum = ∑ i ∈ Finset.range n, f i := by
  induction n with
  | zero => simp
  | succ m ih =>
      rw [List.range_succ, List.map_append, List.sum_append, Finset.sum_range_succ, ih]
      simp

lemma foldl_add_eq (l : List ℝ) (a : ℝ) : l.foldl (· + ·) a = a + l.sum := by
  induction l generalizing a with
  | nil => simp
  | cons x t ih => simp [ih]; ring

/-- `std::sort(xs.begin(), xs.end())`: the input vector sorted ascending. -/
def plSorted (xs : List ℝ) : List ℝ := xs.mergeSort (fun a b => decide (a ≤ b))

/-- The `loglog` vector: for each `i < xs.size()`, the point
`(log(xs[i]), log(double(xs.size() - i)))` over the sorted vector. -/
def plLogLog (xs : List ℝ) : List (ℝ × ℝ) :=
  (List.range xs.length).map fun i =>
    (Real.log ((plSorted xs).getD i 0), Real.log ((xs.length - i : ℕ) : ℝ))

/-- The `weights` vector: `loglog[min(i+1,n-1)][0] - loglog[max(0,i-1)][0]`,
doubled when `i` is the first or last index. -/
def plWeights (xs : List ℝ) : List ℝ :=
  (List.range xs.length).map fun i =>
    let w := ((plLogLog xs).getD (min (i + 1) (xs.length - 1)) (0, 0)).1
               - ((plLogLog xs).getD (i - 1) (0, 0)).1
    if i = 0 ∨ i = xs.length - 1 then w * 2 else w

/-- `total_weight`: seeded with `std::numeric_limits<double>::min()` (the
parameter `dMin`), then accumulates all weights. -/
def plTotalWeight (dMin : ℝ) (xs : List ℝ) : ℝ :=
  (plWeights xs).foldl (· + ·) dMin

/-- `mean`: the weighted component-wise sum of the log-log points divided by
`total_weight`. -/
def plMean (dMin : ℝ) (xs : List ℝ) : ℝ × ℝ :=
  (((List.range xs.length).map fun i =>
      (plWeights xs).getD i 0 * ((plLogLog xs).getD i (0, 0)).1).sum
     / plTotalWeight dMin xs,
   ((List.range xs.length).map fun i =>
      (plWeights xs).getD i 0 * ((plLogLog xs).getD i (0, 0)).2).sum
     / plTotalWeight dMin xs)

/-- `xx`: seeded with `dMin`, accumulates `weights[i] * p[0] * p[0]` where
`p = loglog[i] - mean`. -/
def plXX (dMin : ℝ) (xs : List ℝ) : ℝ :=
  dMin + ((List.range xs.length).map fun i =>
    (plWeights xs).getD i 0
      * (((plLogLog xs).getD i (0, 0)).1 - (plMean dMin xs).1)
      * (((plLogLog xs).getD i (0, 0)).1 - (plMean dMin xs).1)).sum

/-- `xy`: seeded with `0`, accumulates `weights[i] * p[0] * p[1]`. -/
def plXY (dMin : ℝ) (xs : List ℝ) : ℝ :=
  ((List.range xs.length).map fun i =>
    (plWeights xs).getD i 0
      * (((plLogLog xs).getD i (0, 0)).1 - (plMean dMin xs).1)
      * (((plLogLog xs).getD i (0, 0)).2 - (plMean dMin xs).2)).sum

/-- `yy`: seeded with `0` (no floor!), accumulates `weights[i] * p[1] * p[1]`. -/
def plYY (dMin : ℝ) (xs : List ℝ) : ℝ :=
  ((List.range xs.length).map fun i =>
    (plWeights xs).getD i 0
      * (((plLogLog xs).getD i (0, 0)).2 - (plMean dMin xs).2)
      * (((plLogLog xs).getD i (0, 0)).2 - (plMean dMin xs).2)).sum

/-- `b = xy / xx`. -/
def plB (dMin : ℝ) (xs : List ℝ) : ℝ := plXY dMin xs / plXX dMin xs

/-- `a = mean[1] - b * mean[0]`. -/
def plA (dMin : ℝ) (xs : List ℝ) : ℝ :=
  (plMean dMin xs).2 - plB dMin xs * (plMean dMin xs).1

/-- `r2 = xy * xy / (xx * yy)`. -/
def plR2 (dMin : ℝ) (xs : List ℝ) : ℝ :=
  plXY dMin xs * plXY dMin xs / (plXX dMin xs * plYY dMin xs)

/-- Result of `calculatePowerLaw`: the sorted (mutated-in-place) vector `xs`
and the output parameters `c`, `d`, `r2`. -/
structure PowerLawResult where
  xs : List ℝ
  c : ℝ
  d : ℝ
  r2 : ℝ

/-- `calculatePowerLaw` (graph output ignored): sorts `xs` in place and sets
`c = exp(a)`, `d = b`, `r2 = xy²/(xx·yy)`. -/
def calculatePowerLaw (dMin : ℝ) (xs : List ℝ) : PowerLawResult :=
  { xs := plSorted xs
    c := Real.exp (plA dMin xs)
    d := plB dMin xs
    r2 := plR2 dMin xs }

/-! ### Spec-side formulation (from the claim's words). -/

/-- Spec side: `x`-coordinate of the `i`-th log-log point, `ln(size_i)` over
the ascending-sorted sizes. -/
def specLX (xs : List ℝ) (i : ℕ) : ℝ := Real.log ((plSorted xs).getD i 0)

/-- Spec side: `y`-coordinate of the `i`-th log-log point, `ln(n - i)`. -/
def specLY (xs : List ℝ) (i : ℕ) : ℝ := Real.log ((xs.length - i : ℕ) : ℝ)

/-- Spec side: weight of point `i` = log-size spacing between its two
neighbours (indices clamped at the ends), doubled at the first and last
point. -/
def specW (xs : List ℝ) (i : ℕ) : ℝ :=
  (if i = 0 ∨ i = xs.length - 1 then 2 else 1) *
    (specLX xs (min (i + 1) (xs.length - 1)) - specLX xs (i - 1))

/-- Spec side: total weight `Σw`. -/
def specTotW (xs : List ℝ) : ℝ := ∑ i ∈ Finset.range xs.length, specW xs i

/-- Spec side: weighted mean of the `x`-coordinates. -/
def specMeanX (xs : List ℝ) : ℝ :=
  (∑ i ∈ Finset.range xs.length, specW xs i * specLX xs i) / specTotW xs

/-- Spec side: weighted mean of the `y`-coordinates. -/
def specMeanY (xs : List ℝ) : ℝ :=
  (∑ i ∈ Finset.range xs.length, specW xs i * specLY xs i) / specTotW xs

/-- Spec side: `Σw·Δx²`. -/
def specSxx (xs : List ℝ) : ℝ :=
  ∑ i ∈ Finset.range xs.length, specW xs i * (specLX xs i - specMeanX xs) ^ 2

/-- Spec side: `Σw·Δx·Δy`. -/
def specSxy (xs : List ℝ) : ℝ :=
  ∑ i ∈ Finset.range xs.length,
    specW xs i * (specLX xs i - specMeanX xs) * (specLY xs i - specMeanY xs)

/-- Spec side: `Σw·Δy²`. -/
def specSyy (xs : List ℝ) : ℝ :=
  ∑ i ∈ Finset.range xs.length, specW xs i * (specLY xs i - specMeanY xs) ^ 2

/-- Spec side: slope `b = Σw·Δx·Δy / Σw·Δx²`. -/
def specB (xs : List ℝ) : ℝ := specSxy xs / specSxx xs

/-- Spec side: intercept `a = mean_y - b·mean_x`. -/
def specA (xs : List ℝ) : ℝ := specMeanY xs - specB xs * specMeanX xs

/-- Spec side: `r² = (Σw·Δx·Δy)² / (Σw·Δx²·Σw·Δy²)`. -/
def specR2 (xs : List ℝ) : ℝ := specSxy xs ^ 2 / (specSxx xs * specSyy xs)

/-! ### Bridging lemmas. -/

lemma plLogLog_fst (xs : List ℝ) {i : ℕ} (h : i < xs.length) :
    ((plLogLog xs).getD i (0, 0)).1 = specLX xs i := by
  unfold plLogLog specLX
  rw [getD_map_range _ _ h]

lemma plLogLog_snd (xs : List ℝ) {i : ℕ} (h : i < xs.length) :
    ((plLogLog xs).getD i (0, 0)).2 = specLY xs i := by
  unfold plLogLog specLY
  rw [getD_map_range _ _ h]

lemma plWeights_getD (xs : List ℝ) {i : ℕ} (h : i < xs.length) :
    (plWeights xs).getD i 0 = specW xs i := by
  have hn : 0 < xs.length := by omega
  have h2 : min (i + 1) (xs.length - 1) < xs.length := by omega
  have h0 : i - 1 < xs.length := by omega
  unfold plWeights specW
  rw [getD_map_range _ _ h]
  dsimp only
  rw [plLogLog_fst xs h2, plLogLog_fst xs h0]
  split <;> ring

lemma plWeights_length (xs : List ℝ) : (plWeights xs).length = xs.length := by
  simp [plWeights]

lemma sum_eq_sum_getD (l : List ℝ) :
    l.sum = ∑ i ∈ Finset.range l.length, l.getD i 0 := by
  induction l with
  | nil => simp
  | cons x t ih =>
      rw [List.sum_cons, List.length_cons, Finset.sum_range_succ']
      simp [ih, add_comm]

lemma plTotalWeight_spec (xs : List ℝ) : plTotalWeight 0 xs = specTotW xs := by
  unfold plTotalWeight specTotW
  rw [foldl_add_eq, zero_add, sum_eq_sum_getD, plWeights_length]
  exact Finset.sum_congr rfl fun i hi => plWeights_getD xs (Finset.mem_range.mp hi)

lemma plMean_spec (xs : List ℝ) : plMean 0 xs = (specMeanX xs, specMeanY xs) := by
  unfold plMean specMeanX specMeanY
  rw [plTotalWeight_spec, sum_map_range, sum_map_range]
  refine Prod.ext ?_ ?_ <;> dsimp only <;>
    refine congrArg (· / specTotW xs) (Finset.sum_congr rfl fun i hi => ?_)
  · rw [plWeights_getD xs (Finset.mem_range.mp hi),
        plLogLog_fst xs (Finset.mem_range.mp hi)]
  · rw [plWeights_getD xs (Finset.mem_range.mp hi),
        plLogLog_snd xs (Finset.mem_range.mp hi)]

lemma plXX_spec (xs : List ℝ) : plXX 0 xs = specSxx xs := by
  unfold plXX specSxx
  rw [zero_add, sum_map_range]
  refine Finset.sum_congr rfl fun i hi => ?_
  rw [plWeights_getD xs (Finset.mem_range.mp hi),
      plLogLog_fst xs (Finset.mem_range.mp hi), plMean_spec]
  ring

lemma plXY_spec (xs : List ℝ) : plXY 0 xs = specSxy xs := by
  unfold plXY specSxy
  rw [sum_map_range]
  refine Finset.sum_congr rfl fun i hi => ?_
  rw [plWeights_getD xs (Finset.mem_range.mp hi),
      plLogLog_fst xs (Finset.mem_range.mp hi),
      plLogLog_snd xs (Finset.mem_range.mp hi), plMean_spec]

lemma plYY_spec (xs : List ℝ) : plYY 0 xs = specSyy xs := by
  unfold plYY specSyy
  rw [sum_map_range]
  refine Finset.sum_congr rfl fun i hi => ?_
  rw [plWeights_getD xs (Finset.mem_range.mp hi),
      plLogLog_snd xs (Finset.mem_range.mp hi), plMean_spec]
  ring

lemma plB_spec (xs : List ℝ) : plB 0 xs = specB xs := by
  unfold plB specB
  rw [plXY_spec, plXX_spec]

lemma plA_spec (xs : List ℝ) : plA 0 xs = specA xs := by
  unfold plA specA
  rw [plB_spec, plMean_spec]

lemma plR2_spec (xs : List ℝ) : plR2 0 xs = specR2 xs := by
  unfold plR2 specR2
  rw [plXY_spec, plXX_spec, plYY_spec]
  ring_nf

/-! ### Claim theorems. -/

/-- **C4.**  For every non-empty list of positive sizes, `calculatePowerLaw`
(with the denormal floor `DBL_MIN ≈ 4.9·10⁻³²⁴` idealised to `0`) sorts the
sizes ascending, and its outputs equal the spec's weighted least-squares
formulas: `c = exp(a)` with `a = mean_y - b·mean_x`, `d = b = Σw·Δx·Δy/Σw·Δx²`,
`r² = (Σw·Δx·Δy)²/(Σw·Δx²·Σw·Δy²)`, over the log-log points
`(ln(size_i), ln(n-i))` weighted by neighbour spacing doubled at the ends. -/
theorem calculatePowerLaw_matches_spec (xs : List ℝ) (_hne : xs ≠ [])
    (_hpos : ∀ x ∈ xs, 0 < x) :
    (calculatePowerLaw 0 xs).xs.Perm xs ∧
    (calculatePowerLaw 0 xs).xs.Sorted (· ≤ ·) ∧
    calculatePowerLaw 0 xs =
      { xs := plSorted xs
        c := Real.exp (specA xs)
        d := specB xs
        r2 := specR2 xs } := by
  refine ⟨List.mergeSort_perm xs _, List.sorted_mergeSort' xs, ?_⟩
  unfold calculatePowerLaw
  rw [plA_spec, plB_spec, plR2_spec]

/-- **C4, witness.**  The hypotheses hold at the concrete list `[1, 2]` and
the theorem applies there. -/
theorem calculatePowerLaw_matches_spec_witness :
    (([1, 2] : List ℝ) ≠ [] ∧ ∀ x ∈ ([1, 2] : List ℝ), 0 < x) ∧
    ((calculatePowerLaw 0 [1, 2]).xs.Perm [1, 2] ∧
     (calculatePowerLaw 0 [1, 2]).xs.Sorted (· ≤ ·) ∧
     calculatePowerLaw 0 [1, 2] =
       { xs := plSorted [1, 2]
         c := Real.exp (specA [1, 2])
         d := specB [1, 2]
         r2 := specR2 [1, 2] }) :=
  ⟨⟨by simp, by norm_num⟩,
   calculatePowerLaw_matches_spec [1, 2] (by simp) (by norm_num)⟩

/-- **C9, counterexample.**  The claim says the slope *and* r² denominators
are floored away from zero.  In fact `yy` has no floor: on the empty list,
with a positive floor `dMin = 1`, the r² denominator `xx·yy` is exactly `0`. -/
theorem powerLaw_r2_denominator_zero :
    0 < plTotalWeight 1 ([] : List ℝ) ∧
    plXX 1 ([] : List ℝ) * plYY 1 ([] : List ℝ) = 0 := by
  constructor
  · norm_num [plTotalWeight, plWeights]
  · norm_num [plYY]

/-- **C9 (amended).**  On an empty or single-element list with a positive
floor `dMin`, the `total_weight` and `xx` accumulators stay at the floor
(positive, so the `mean` and `b` divisions are safe), but the `yy` accumulator
has no floor and stays `0`, so the r² division's denominator `xx·yy` is
exactly `0`. -/
theorem powerLaw_floor_guards (dMin : ℝ) (xs : List ℝ) (hd : 0 < dMin)
    (hxs : xs.length ≤ 1) :
    plTotalWeight dMin xs = dMin ∧ 0 < plTotalWeight dMin xs ∧
    plXX dMin xs = dMin ∧ plXX dMin xs * plYY dMin xs = 0 := by
  match xs, hxs with
  | [], _ =>
      refine ⟨by norm_num [plTotalWeight, plWeights], ?_, ?_, ?_⟩
      · norm_num [plTotalWeight, plWeights]; exact hd
      · norm_num [plXX]
      · norm_num [plYY]
  | [x], _ =>
      have hw : plWeights [x] = [0] := by
        unfold plWeights
        norm_num [List.range_succ]
      refine ⟨?_, ?_, ?_, ?_⟩
      · rw [plTotalWeight, hw]; norm_num
      · rw [plTotalWeight, hw]; norm_num; exact hd
      · rw [plXX]; rw [show (List.range ([x] : List ℝ).length) = [0] by simp [List.range_succ]]
        simp [hw]
      · rw [plYY]; rw [show (List.range ([x] : List ℝ).length) = [0] by simp [List.range_succ]]
        simp [hw]

/-- **C9, witness.**  The amended theorem applies at `dMin = 1`, `xs = [2]`. -/
theorem powerLaw_floor_guards_witness :
    ((0 : ℝ) < 1 ∧ ([2] : List ℝ).length ≤ 1) ∧
    (plTotalWeight 1 ([2] : List ℝ) = 1 ∧ 0 < plTotalWeight 1 ([2] : List ℝ) ∧
     plXX 1 ([2] : List ℝ) = 1 ∧ plXX 1 ([2] : List ℝ) * plYY 1 ([2] : List ℝ) = 0) :=
  ⟨⟨by norm_num, by norm_num⟩, powerLaw_floor_guards 1 [2] (by norm_num) (by norm_num)⟩

/-- **C10.**  `calculatePowerLaw` reorders the caller's size vector into
ascending sorted order: the returned vector is `xs` sorted ascending (a sorted
permutation of the input), for every floor and every input list. -/
theorem calculatePowerLaw_sorts_input (dMin : ℝ) (xs : List ℝ) :
    (calculatePowerLaw dMin xs).xs = xs.mergeSort (fun a b => decide (a ≤ b)) ∧
    (calculatePowerLaw dMin xs).xs.Sorted (· ≤ ·) ∧
    (calculatePowerLaw dMin xs).xs.Perm xs :=
  ⟨rfl, List.sorted_mergeSort' xs, List.mergeSort_perm xs _⟩

end TreeTools

namespace TreeTools

/-! ## Claim C8: getBifurcationProperties (treelib/treeinformation.cpp) -/

/-- `sqr(x)` (treeutils.h). -/
def sqr (x : ℝ) : ℝ := x * x

/-- `std::atan2(y, x)` (idealised, radians). -/
def atan2 (y x : ℝ) : ℝ :=
  if 0 < x then Real.arctan (y / x)
  else if x < 0 then
    (if 0 ≤ y then Real.arctan (y / x) + Real.pi else Real.arctan (y / x) - Real.pi)
  else
    (if 0 < y then Real.pi / 2 else if y < 0 then -(Real.pi / 2) else 0)

/-- The radius used for a child `c` at a bifurcation: the child’s own radius,
or the grandchild’s when the child has exactly one child (“we go up a segment
if we can, as the radius and angle will have settled better here”). -/
def subRad (segs : List Segment) (c : ℕ) : ℝ :=
  if (childrenOf segs c).length = 1 then
    (segAt segs ((childrenOf segs c).getD 0 0)).radius
  else (segAt segs c).radius

/-- The direction used for a child `c` of segment `i`: `tip_c - tip_i`, or
`tip_grandchild - tip_c` when the child has exactly one child. -/
def subDir (segs : List Segment) (i c : ℕ) : V3 :=
  if (childrenOf segs c).length = 1 then
    V3.sub (segAt segs ((childrenOf segs c).getD 0 0)).tip (segAt segs c).tip
  else V3.sub (segAt segs c).tip (segAt segs i).tip

/-- One step of the `max_rad / second_max / dir1 / dir2` selection loop:
state is `((max_rad, dir1), (second_max, dir2))`. -/
def bifStep (st : (ℝ × V3) × (ℝ × V3)) (p : ℝ × V3) : (ℝ × V3) × (ℝ × V3) :=
  if p.1 > st.1.1 then (p, st.1)
  else if p.1 > st.2.1 then (st.1, p)
  else st

/-- The top-two fold keeps, up to permutation, the two best-radius entries in
front, and everything displaced is at most the running second maximum. -/
lemma top2_invariant (l : List (ℝ × V3)) :
    ∀ st : (ℝ × V3) × (ℝ × V3), st.2.1 ≤ st.1.1 →
      (l.foldl bifStep st).2.1 ≤ (l.foldl bifStep st).1.1 ∧
      st.2.1 ≤ (l.foldl bifStep st).2.1 ∧
      ∃ rest : List (ℝ × V3),
        (st.1 :: st.2 :: l).Perm
          ((l.foldl bifStep st).1 :: (l.foldl bifStep st).2 :: rest) ∧
        ∀ p ∈ rest, p.1 ≤ (l.foldl bifStep st).2.1 := by
  induction l with
  | nil =>
      intro st hst
      exact ⟨hst, le_rfl, [], List.Perm.refl _, by simp⟩
  | cons p t ih =>
      intro st hst
      rw [List.foldl_cons]
      by_cases h1 : p.1 > st.1.1
      · have hs : bifStep st p = (p, st.1) := by
          unfold bifStep; rw [if_pos h1]
        rw [hs]
        obtain ⟨hord, hmono, rest', hperm, hrest⟩ := ih (p, st.1) (le_of_lt h1)
        have hsecond : st.2.1 ≤ (t.foldl bifStep (p, st.1)).2.1 := le_trans hst hmono
        refine ⟨hord, hsecond, st.2 :: rest', ?_, ?_⟩
        · refine List.perm_iff_count.mpr fun a => ?_
          have hc := hperm.count_eq a
          simp only [List.count_cons] at hc ⊢
          omega
        · intro q hq
          rcases List.mem_cons.mp hq with rfl | hq
          · exact hsecond
          · exact hrest q hq
      · by_cases h2 : p.1 > st.2.1
        · have hs : bifStep st p = (st.1, p) := by
            unfold bifStep; rw [if_neg h1, if_pos h2]
          rw [hs]
          obtain ⟨hord, hmono, rest', hperm, hrest⟩ := ih (st.1, p) (not_lt.mp h1)
          have hsecond : st.2.1 ≤ (t.foldl bifStep (st.1, p)).2.1 :=
            le_trans (le_of_lt h2) hmono
          refine ⟨hord, hsecond, st.2 :: rest', ?_, ?_⟩
          · refine List.perm_iff_count.mpr fun a => ?_
            have hc := hperm.count_eq a
            simp only [List.count_cons] at hc ⊢
            omega
          · intro q hq
            rcases List.mem_cons.mp hq with rfl | hq
            · exact hsecond
            · exact hrest q hq
        · have hs : bifStep st p = st := by
            unfold bifStep; rw [if_neg h1, if_neg h2]
          rw [hs]
          obtain ⟨hord, hmono, rest', hperm, hrest⟩ := ih st hst
          refine ⟨hord, hmono, p :: rest', ?_, ?_⟩
          · refine List.perm_iff_count.mpr fun a => ?_
            have hc := hperm.count_eq a
            simp only [List.count_cons] at hc ⊢
            omega
          · intro q hq
            rcases List.mem_cons.mp hq with rfl | hq
            · exact le_trans (not_lt.mp h2) hmono
            · exact hrest q hq

/-- Stripping the two `(-1, 0)` sentinels: on a list of at least two entries
of nonnegative radius, the fold from the sentinel state selects the two
largest entries. -/
lemma top2_strip (L : List (ℝ × V3)) (hL : ∀ p ∈ L, (0 : ℝ) ≤ p.1)
    (hlen : 2 ≤ L.length) :
    (L.foldl bifStep ((-1, V3.zero), (-1, V3.zero))).2.1
        ≤ (L.foldl bifStep ((-1, V3.zero), (-1, V3.zero))).1.1 ∧
    (0 : ℝ) ≤ (L.foldl bifStep ((-1, V3.zero), (-1, V3.zero))).2.1 ∧
    ∃ rest : List (ℝ × V3),
      L.Perm ((L.foldl bifStep ((-1, V3.zero), (-1, V3.zero))).1
        :: (L.foldl bifStep ((-1, V3.zero), (-1, V3.zero))).2 :: rest) ∧
      ∀ p ∈ rest, p.1 ≤ (L.foldl bifStep ((-1, V3.zero), (-1, V3.zero))).2.1 := by
  obtain ⟨hord, -, rest, hperm, hrest⟩ :=
    top2_invariant L ((-1, V3.zero), (-1, V3.zero)) le_rfl
  set F := L.foldl bifStep ((-1, V3.zero), (-1, V3.zero)) with hF
  have hM : (((-1 : ℝ), V3.zero) ::ₘ ((-1 : ℝ), V3.zero) ::ₘ (↑L : Multiset (ℝ × V3)))
      = F.1 ::ₘ F.2 ::ₘ (↑rest : Multiset (ℝ × V3)) := by
    have h := Multiset.coe_eq_coe.mpr hperm
    simpa using h
  have hs0 : ¬ (0 : ℝ) ≤ (((-1 : ℝ), V3.zero) : ℝ × V3).1 := by norm_num
  have hF2 : (0 : ℝ) ≤ F.2.1 := by
    by_contra hneg
    push_neg at hneg
    have hc := congrArg (Multiset.countP (fun p : ℝ × V3 => 0 ≤ p.1)) hM
    have hrest0 : Multiset.countP (fun p : ℝ × V3 => 0 ≤ p.1) (↑rest) = 0 :=
      Multiset.countP_eq_zero.mpr fun p hp =>
        not_le.mpr (lt_of_le_of_lt (hrest p (by simpa using hp)) hneg)
    have hLfull : Multiset.countP (fun p : ℝ × V3 => 0 ≤ p.1) (↑L) = L.length := by
      rw [show (L.length : ℕ) = Multiset.card (↑L : Multiset (ℝ × V3)) by simp]
      exact Multiset.countP_eq_card.mpr fun p hp => hL p (by simpa using hp)
    simp only [Multiset.countP_cons, if_neg hs0, if_neg (not_le.mpr hneg),
      hrest0, hLfull] at hc
    have h1c : (if (0 : ℝ) ≤ F.1.1 then 1 else 0) ≤ 1 := by split <;> omega
    omega
  have hF1 : (0 : ℝ) ≤ F.1.1 := le_trans hF2 hord
  have hs1 : ((-1 : ℝ), V3.zero) ≠ F.1 := fun h => absurd hF1 (by rw [← h]; exact hs0)
  have hs2 : ((-1 : ℝ), V3.zero) ≠ F.2 := fun h => absurd hF2 (by rw [← h]; exact hs0)
  have hsL : (((-1 : ℝ), V3.zero) : ℝ × V3) ∉ L := fun h => absurd (hL _ h) hs0
  have hcrest : Multiset.count (((-1 : ℝ), V3.zero) : ℝ × V3) (↑rest : Multiset (ℝ × V3)) = 2 := by
    have hsc := congrArg (Multiset.count (((-1 : ℝ), V3.zero) : ℝ × V3)) hM
    have hcL : Multiset.count (((-1 : ℝ), V3.zero) : ℝ × V3) (↑L : Multiset (ℝ × V3)) = 0 :=
      Multiset.count_eq_zero.mpr (by simpa using hsL)
    simp only [Multiset.count_cons, hcL, if_neg hs1, if_neg hs2,
      eq_self_iff_true, if_true] at hsc
    omega
  have hm1 : (((-1 : ℝ), V3.zero) : ℝ × V3) ∈ (↑rest : Multiset (ℝ × V3)) := by
    rw [← Multiset.count_pos, hcrest]; omega
  have hm2 : (((-1 : ℝ), V3.zero) : ℝ × V3)
      ∈ (↑rest : Multiset (ℝ × V3)).erase ((-1 : ℝ), V3.zero) := by
    rw [← Multiset.count_pos, Multiset.count_erase_self, hcrest]
    omega
  have hsplit : (↑rest : Multiset (ℝ × V3))
      = ((-1 : ℝ), V3.zero) ::ₘ ((-1 : ℝ), V3.zero) ::ₘ
          (((↑rest : Multiset (ℝ × V3)).erase ((-1 : ℝ), V3.zero)).erase ((-1 : ℝ), V3.zero)) := by
    rw [Multiset.cons_erase hm2, Multiset.cons_erase hm1]
  have hLM : (↑L : Multiset (ℝ × V3)) = F.1 ::ₘ F.2 ::ₘ
      (((↑rest : Multiset (ℝ × V3)).erase ((-1 : ℝ), V3.zero)).erase ((-1 : ℝ), V3.zero)) := by
    have hM' : (((-1 : ℝ), V3.zero) ::ₘ ((-1 : ℝ), V3.zero) ::ₘ (↑L : Multiset (ℝ × V3)))
        = F.1 ::ₘ F.2 ::ₘ (((-1 : ℝ), V3.zero) ::ₘ ((-1 : ℝ), V3.zero) ::ₘ
            (((↑rest : Multiset (ℝ × V3)).erase ((-1 : ℝ), V3.zero)).erase ((-1 : ℝ), V3.zero))) := by
      rw [← hsplit]; exact hM
    refine Multiset.ext.mpr fun a => ?_
    have hca := congrArg (Multiset.count a) hM'
    simp only [Multiset.count_cons] at hca ⊢
    omega
  refine ⟨hord, hF2,
    ((((↑rest : Multiset (ℝ × V3)).erase ((-1 : ℝ), V3.zero)).erase
      ((-1 : ℝ), V3.zero)).toList), ?_, ?_⟩
  · rw [← Multiset.coe_eq_coe]
    simp only [← Multiset.cons_coe, Multiset.coe_toList]
    exact hLM
  · intro p hp
    have hp' : p ∈ (((↑rest : Multiset (ℝ × V3)).erase ((-1 : ℝ), V3.zero)).erase
        ((-1 : ℝ), V3.zero)) := by
      simpa [Multiset.mem_toList] using hp
    exact hrest p (by
      have hr := Multiset.mem_of_mem_erase (Multiset.mem_of_mem_erase hp')
      simpa using hr)

/-- The whole selection loop over the children of `i`, on the substituted
(radius, direction) pairs, from the sentinel state `max_rad = second_max = -1`,
`dir1 = dir2 = 0`. -/
def bifFold (segs : List Segment) (i : ℕ) : (ℝ × V3) × (ℝ × V3) :=
  ((childrenOf segs i).map fun c => (subRad segs c, subDir segs i c)).foldl
    bifStep ((-1, V3.zero), (-1, V3.zero))

/-- `dominance = -1.0 + 2.0 * sqr(max_rad) / (sqr(max_rad) + sqr(second_max))`. -/
def bifDominance (segs : List Segment) (i : ℕ) : ℝ :=
  -1 + 2 * sqr (bifFold segs i).1.1 / (sqr (bifFold segs i).1.1 + sqr (bifFold segs i).2.1)

/-- The accumulation weight `sqrt(sqr(max_rad) + sqr(second_max))`. -/
def bifWeight (segs : List Segment) (i : ℕ) : ℝ :=
  Real.sqrt (sqr (bifFold segs i).1.1 + sqr (bifFold segs i).2.1)

/-- `branch_angle = (180/π) · atan2(‖dir1 × dir2‖, dir1 · dir2)`. -/
def bifAngle (segs : List Segment) (i : ℕ) : ℝ :=
  (180 / Real.pi) *
    atan2 ((V3.cross (bifFold segs i).1.2 (bifFold segs i).2.2).norm)
      (V3.dot (bifFold segs i).1.2 (bifFold segs i).2.2)

/-- The output state of `getBifurcationProperties`. -/
structure BifState where
  angles : List ℝ
  dominances : List ℝ
  num_children : List ℝ
  tree_dominance : ℝ
  tree_angle : ℝ
  total_weight : ℝ

/-- The initial state: arrays resized to `n` zeros, accumulators reset,
`total_weight = 1e-10`, `num_children[0]` filled in. -/
def bifInit (segs : List Segment) : BifState :=
  { angles := List.replicate segs.length 0
    dominances := List.replicate segs.length 0
    num_children := (List.replicate segs.length 0).set 0 ((childrenOf segs 0).length : ℝ)
    tree_dominance := 0
    tree_angle := 0
    total_weight := 1e-10 }

/-- The body of the main loop at index `i`: record the child count, and at a
bifurcation record dominance and angle and accumulate the weighted sums. -/
def bifBody (segs : List Segment) (st : BifState) (i : ℕ) : BifState :=
  if 1 < (childrenOf segs i).length then
    { angles := st.angles.set i (bifAngle segs i)
      dominances := st.dominances.set i (bifDominance segs i)
      num_children := st.num_children.set i ((childrenOf segs i).length : ℝ)
      tree_dominance := st.tree_dominance + bifWeight segs i * bifDominance segs i
      tree_angle := st.tree_angle + bifWeight segs i * bifAngle segs i
      total_weight := st.total_weight + bifWeight segs i }
  else
    { st with num_children := st.num_children.set i ((childrenOf segs i).length : ℝ) }

/-- `getBifurcationProperties` (the loop over `i = 1 .. n-1`). -/
def getBifurcationProperties (segs : List Segment) : BifState :=
  (List.range' 1 (segs.length - 1)).foldl (bifBody segs) (bifInit segs)

lemma segAt_radius_nonneg (segs : List Segment)
    (hrad : ∀ s ∈ segs, 0 ≤ s.radius) (c : ℕ) : 0 ≤ (segAt segs c).radius := by
  unfold segAt
  rcases Nat.lt_or_ge c segs.length with h | h
  · rw [List.getD_eq_getElem?_getD, List.getElem?_eq_getElem h]
    exact hrad _ (List.getElem_mem _)
  · rw [List.getD_eq_getElem?_getD, List.getElem?_eq_none (by simpa using h)]
    simp [dfltSeg]

lemma subRad_nonneg (segs : List Segment)
    (hrad : ∀ s ∈ segs, 0 ≤ s.radius) (c : ℕ) : 0 ≤ subRad segs c := by
  unfold subRad
  split <;> exact segAt_radius_nonneg segs hrad _

/-- What the main loop computes: array lengths, the accumulators as weighted
sums over the bifurcation indices, and the recorded per-index values. -/
lemma bif_loop (segs : List Segment) (l : List ℕ) :
    (∀ j ∈ l, j < segs.length) →
      (l.foldl (bifBody segs) (bifInit segs)).dominances.length = segs.length ∧
      (l.foldl (bifBody segs) (bifInit segs)).angles.length = segs.length ∧
      (l.foldl (bifBody segs) (bifInit segs)).tree_dominance
        = ((l.filter fun j => 1 < (childrenOf segs j).length).map
            fun j => bifWeight segs j * bifDominance segs j).sum ∧
      (l.foldl (bifBody segs) (bifInit segs)).tree_angle
        = ((l.filter fun j => 1 < (childrenOf segs j).length).map
            fun j => bifWeight segs j * bifAngle segs j).sum ∧
      (l.foldl (bifBody segs) (bifInit segs)).total_weight
        = 1e-10 + ((l.filter fun j => 1 < (childrenOf segs j).length).map
            fun j => bifWeight segs j).sum ∧
      ∀ i ∈ l, 1 < (childrenOf segs i).length →
        (l.foldl (bifBody segs) (bifInit segs)).dominances.getD i 0 = bifDominance segs i ∧
        (l.foldl (bifBody segs) (bifInit segs)).angles.getD i 0 = bifAngle segs i := by
  induction l using List.reverseRecOn with
  | nil =>
      intro _
      refine ⟨by simp [bifInit], by simp [bifInit], by simp [bifInit], by simp [bifInit],
        by simp [bifInit], by simp⟩
  | append_singleton l j ih =>
      intro hmem
      obtain ⟨hdl, hal, htd, hta, htw, hget⟩ :=
        ih fun x hx => hmem x (List.mem_append_left _ hx)
      have hjlt : j < segs.length := hmem j (List.mem_append_right _ (List.mem_singleton_self j))
      rw [List.foldl_append, List.foldl_cons, List.foldl_nil]
      simp only [List.filter_append]
      by_cases hc : 1 < (childrenOf segs j).length
      · have hfj : List.filter (fun j => decide (1 < (childrenOf segs j).length)) [j] = [j] := by
          simp [hc]
        simp only [bifBody, if_pos hc]
        refine ⟨by simpa using hdl, by simpa using hal, ?_, ?_, ?_, ?_⟩
        · simp only [hfj, List.map_append, List.sum_append, List.map_cons, List.map_nil,
            List.sum_cons, List.sum_nil, add_zero]
          rw [htd]
        · simp only [hfj, List.map_append, List.sum_append, List.map_cons, List.map_nil,
            List.sum_cons, List.sum_nil, add_zero]
          rw [hta]
        · simp only [hfj, List.map_append, List.sum_append, List.map_cons, List.map_nil,
            List.sum_cons, List.sum_nil, add_zero]
          rw [htw]
          ring
        · intro i hi hci
          rcases List.mem_append.mp hi with hil | hij
          · rcases eq_or_ne j i with rfl | hne
            · constructor
              · exact getD_set_self (by rw [hdl]; exact hjlt)
              · exact getD_set_self (by rw [hal]; exact hjlt)
            · constructor
              · rw [getD_set_ne _ hne]; exact (hget i hil hci).1
              · rw [getD_set_ne _ hne]; exact (hget i hil hci).2
          · have hij' : i = j := by simpa using hij
            subst hij'
            constructor
            · exact getD_set_self (by rw [hdl]; exact hjlt)
            · exact getD_set_self (by rw [hal]; exact hjlt)
      · have hfj : List.filter (fun j => decide (1 < (childrenOf segs j).length)) [j] = [] := by
          simp [hc]
        simp only [bifBody, if_neg hc]
        refine ⟨by simpa using hdl, by simpa using hal, ?_, ?_, ?_, ?_⟩
        · simpa [hfj] using htd
        · simpa [hfj] using hta
        · simpa [hfj] using htw
        · intro i hi hci
          rcases List.mem_append.mp hi with hil | hij
          · exact hget i hil hci
          · have hij' : i = j := by simpa using hij
            subst hij'
            exact absurd hci hc

end TreeTools

namespace TreeTools

/-- **C8.**  At every segment `i` with more than one child (radii nonnegative
as in the data model), the selection loop picks the two children of largest
substituted radius — substituting a child's single child's radius and
direction when that child has exactly one child — the recorded dominance is
`-1 + 2·r₁²/(r₁²+r₂²)` (`0` whenever the two selected radii are equal and
nonzero), the recorded branch angle is `atan2(‖dir₁×dir₂‖, dir₁·dir₂)` in
degrees, and the tree-wide dominance and angle accumulators are the
per-bifurcation sums weighted by `√(r₁²+r₂²)`, over
`total_weight = 1e-10 + Σ√(r₁²+r₂²)`. -/
theorem getBifurcationProperties_spec (segs : List Segment)
    (hrad : ∀ s ∈ segs, 0 ≤ s.radius) (i : ℕ) (hi1 : 1 ≤ i) (hi2 : i < segs.length)
    (hbr : 1 < (childrenOf segs i).length) :
    (∃ rest : List (ℝ × V3),
       ((childrenOf segs i).map fun c => (subRad segs c, subDir segs i c)).Perm
         ((bifFold segs i).1 :: (bifFold segs i).2 :: rest) ∧
       (bifFold segs i).2.1 ≤ (bifFold segs i).1.1 ∧
       0 ≤ (bifFold segs i).2.1 ∧
       ∀ p ∈ rest, p.1 ≤ (bifFold segs i).2.1) ∧
    (getBifurcationProperties segs).dominances.getD i 0
      = -1 + 2 * sqr (bifFold segs i).1.1
          / (sqr (bifFold segs i).1.1 + sqr (bifFold segs i).2.1) ∧
    ((bifFold segs i).1.1 = (bifFold segs i).2.1 → (bifFold segs i).1.1 ≠ 0 →
      (getBifurcationProperties segs).dominances.getD i 0 = 0) ∧
    (getBifurcationProperties segs).angles.getD i 0
      = (180 / Real.pi) *
          atan2 ((V3.cross (bifFold segs i).1.2 (bifFold segs i).2.2).norm)
            (V3.dot (bifFold segs i).1.2 (bifFold segs i).2.2) ∧
    (getBifurcationProperties segs).tree_dominance
      = (((List.range' 1 (segs.length - 1)).filter
            fun j => 1 < (childrenOf segs j).length).map
          fun j => bifWeight segs j * bifDominance segs j).sum ∧
    (getBifurcationProperties segs).tree_angle
      = (((List.range' 1 (segs.length - 1)).filter
            fun j => 1 < (childrenOf segs j).length).map
          fun j => bifWeight segs j * bifAngle segs j).sum ∧
    (getBifurcationProperties segs).total_weight
      = 1e-10 + (((List.range' 1 (segs.length - 1)).filter
            fun j => 1 < (childrenOf segs j).length).map
          fun j => bifWeight segs j).sum := by
  unfold getBifurcationProperties
  have hmem : ∀ j ∈ List.range' 1 (segs.length - 1), j < segs.length := by
    intro j hj
    have := List.mem_range'_1.mp hj
    omega
  obtain ⟨hdl, hal, htd, hta, htw, hget⟩ := bif_loop segs _ hmem
  have hiin : i ∈ List.range' 1 (segs.length - 1) :=
    List.mem_range'_1.mpr ⟨hi1, by omega⟩
  obtain ⟨hdom, hang⟩ := hget i hiin hbr
  have hL : ∀ p ∈ ((childrenOf segs i).map fun c => (subRad segs c, subDir segs i c)),
      (0 : ℝ) ≤ p.1 := by
    intro p hp
    obtain ⟨c, _, rfl⟩ := List.mem_map.mp hp
    exact subRad_nonneg segs hrad c
  have hlen : 2 ≤ ((childrenOf segs i).map
      fun c => (subRad segs c, subDir segs i c)).length := by
    rw [List.length_map]; omega
  obtain ⟨hord, hnn, rest, hperm, hrest⟩ := top2_strip _ hL hlen
  refine ⟨⟨rest, hperm, hord, hnn, hrest⟩, ?_, ?_, ?_, htd, hta, htw⟩
  · rw [hdom]; rfl
  · intro heq hne
    rw [hdom]
    unfold bifDominance
    rw [heq]
    have hx : sqr (bifFold segs i).2.1 ≠ 0 := by
      unfold sqr
      exact mul_ne_zero (heq ▸ hne) (heq ▸ hne)
    rw [show sqr (bifFold segs i).2.1 + sqr (bifFold segs i).2.1
        = 2 * sqr (bifFold segs i).2.1 from by ring]
    rw [div_self (mul_ne_zero two_ne_zero hx)]
    norm_num
  · rw [hang]; rfl

end TreeTools

namespace TreeTools

/-- A four-segment tree with one bifurcation: root, a trunk segment, and two
leaf children of distinct radii. -/
def bifTree : TreeStructure :=
  ⟨[⟨V3.zero, 1, -1, []⟩, ⟨⟨0, 0, 1⟩, 1, 0, []⟩,
    ⟨⟨1, 0, 2⟩, 0.5, 1, []⟩, ⟨⟨-1, 0, 2⟩, 0.25, 1, []⟩], []⟩

lemma childrenOf_bif_one : childrenOf bifTree.segments 1 = [2, 3] := by
  simp [childrenOf, buildChildren, bifTree, parentOf, segAt, List.range']

lemma bifTree_radii : ∀ s ∈ bifTree.segments, 0 ≤ s.radius := by
  intro s hs
  simp only [bifTree, List.mem_cons, List.not_mem_nil, or_false] at hs
  rcases hs with rfl | rfl | rfl | rfl <;> norm_num

/-- **C8, witness.**  The hypotheses hold at the concrete bifurcating tree
`bifTree` at segment index 1, and the theorem applies there. -/
theorem getBifurcationProperties_spec_witness :
    ((∀ s ∈ bifTree.segments, 0 ≤ s.radius) ∧ 1 ≤ 1 ∧ 1 < bifTree.segments.length ∧
      1 < (childrenOf bifTree.segments 1).length) ∧
    ((∃ rest : List (ℝ × V3),
       ((childrenOf bifTree.segments 1).map
           fun c => (subRad bifTree.segments c, subDir bifTree.segments 1 c)).Perm
         ((bifFold bifTree.segments 1).1 :: (bifFold bifTree.segments 1).2 :: rest) ∧
       (bifFold bifTree.segments 1).2.1 ≤ (bifFold bifTree.segments 1).1.1 ∧
       0 ≤ (bifFold bifTree.segments 1).2.1 ∧
       ∀ p ∈ rest, p.1 ≤ (bifFold bifTree.segments 1).2.1) ∧
    (getBifurcationProperties bifTree.segments).dominances.getD 1 0
      = -1 + 2 * sqr (bifFold bifTree.segments 1).1.1
          / (sqr (bifFold bifTree.segments 1).1.1 + sqr (bifFold bifTree.segments 1).2.1) ∧
    ((bifFold bifTree.segments 1).1.1 = (bifFold bifTree.segments 1).2.1 →
      (bifFold bifTree.segments 1).1.1 ≠ 0 →
      (getBifurcationProperties bifTree.segments).dominances.getD 1 0 = 0) ∧
    (getBifurcationProperties bifTree.segments).angles.getD 1 0
      = (180 / Real.pi) *
          atan2 ((V3.cross (bifFold bifTree.segments 1).1.2 (bifFold bifTree.segments 1).2.2).norm)
            (V3.dot (bifFold bifTree.segments 1).1.2 (bifFold bifTree.segments 1).2.2) ∧
    (getBifurcationProperties bifTree.segments).tree_dominance
      = (((List.range' 1 (bifTree.segments.length - 1)).filter
            fun j => 1 < (childrenOf bifTree.segments j).length).map
          fun j => bifWeight bifTree.segments j * bifDominance bifTree.segments j).sum ∧
    (getBifurcationProperties bifTree.segments).tree_angle
      = (((List.range' 1 (bifTree.segments.length - 1)).filter
            fun j => 1 < (childrenOf bifTree.segments j).length).map
          fun j => bifWeight bifTree.segments j * bifAngle bifTree.segments j).sum ∧
    (getBifurcationProperties bifTree.segments).total_weight
      = 1e-10 + (((List.range' 1 (bifTree.segments.length - 1)).filter
            fun j => 1 < (childrenOf bifTree.segments j).length).map
          fun j => bifWeight bifTree.segments j).sum) :=
  ⟨⟨bifTree_radii, le_rfl, by norm_num [bifTree], by rw [childrenOf_bif_one]; norm_num⟩,
   getBifurcationProperties_spec bifTree.segments bifTree_radii 1 le_rfl
     (by norm_num [bifTree]) (by rw [childrenOf_bif_one]; norm_num)⟩

end TreeTools

namespace TreeTools

/-! ## Claim C6: approximateIntersectionVolume (treelib/treeutils.cpp) -/

/-- A cylinder between two endpoints (`tree::Cylinder`). -/
structure Cylinder where
  v1 : V3
  v2 : V3
  radius : ℝ

/-- `std::max(0.0, std::min(f, 1.0))`. -/
def clamp01 (f : ℝ) : ℝ := max 0 (min f 1)

/-- The axis vector `v2 - v1`. -/
def dirOf (c : Cylinder) : V3 := V3.sub c.v2 c.v1

/-- `std::swap(cyl.v1, cyl.v2)`. -/
def swapC (c : Cylinder) : Cylinder := ⟨c.v2, c.v1, c.radius⟩

/-- `cr = dir1.cross(dir2)`. -/
def aivCr (c1 c2 : Cylinder) : V3 := V3.cross (dirOf c1) (dirOf c2)

/-- `side1 = cr.cross(dir1)`. -/
def aivSide1 (c1 c2 : Cylinder) : V3 := V3.cross (aivCr c1 c2) (dirOf c1)

/-- `side2 = cr.cross(dir2)`. -/
def aivSide2 (c1 c2 : Cylinder) : V3 := V3.cross (aivCr c1 c2) (dirOf c2)

/-- `den1 = dir1.dot(side2)`. -/
def aivDen1 (c1 c2 : Cylinder) : ℝ := V3.dot (dirOf c1) (aivSide2 c1 c2)

/-- `den2 = dir2.dot(side1)`. -/
def aivDen2 (c1 c2 : Cylinder) : ℝ := V3.dot (dirOf c2) (aivSide1 c1 c2)

/-- `f1 = -(cyl1.v1 - cyl2.v1).dot(side2) / den1`. -/
def aivF1 (c1 c2 : Cylinder) : ℝ :=
  -(V3.dot (V3.sub c1.v1 c2.v1) (aivSide2 c1 c2)) / aivDen1 c1 c2

/-- `f2 = -(cyl2.v1 - cyl1.v1).dot(side1) / den2`. -/
def aivF2 (c1 c2 : Cylinder) : ℝ :=
  -(V3.dot (V3.sub c2.v1 c1.v1) (aivSide1 c1 c2)) / aivDen2 c1 c2

/-- `p1 = cyl1.v1 + dir1 * clamp(f1)`. -/
def aivP1 (c1 c2 : Cylinder) : V3 :=
  V3.add c1.v1 (V3.smul (clamp01 (aivF1 c1 c2)) (dirOf c1))

/-- `p2 = cyl2.v1 + dir2 * clamp(f2)`. -/
def aivP2 (c1 c2 : Cylinder) : V3 :=
  V3.add c2.v1 (V3.smul (clamp01 (aivF2 c1 c2)) (dirOf c2))

/-- The capsule-capsule exclusion early exit: both denominators exceed the
parallelism epsilon and the clamped closest-approach points are at least
`R + r` apart. -/
def capsuleExcl (c1 c2 : Cylinder) : Prop :=
  1e-6 < |aivDen1 c1 c2| ∧ 1e-6 < |aivDen2 c1 c2| ∧
    (c2.radius + c1.radius) * (c2.radius + c1.radius)
      ≤ V3.normSq (V3.sub (aivP1 c1 c2) (aivP2 c1 c2))

/-- `if (dir2.dot(dir1) < 0.0)`. -/
def flipQ (c1 c2 : Cylinder) : Prop := V3.dot (dirOf c2) (dirOf c1) < 0

instance (c1 c2 : Cylinder) : Decidable (flipQ c1 c2) :=
  inferInstanceAs (Decidable (V3.dot (dirOf c2) (dirOf c1) < 0))

/-- The second cylinder after the direction flip (`dir2 *= -1` together with
`std::swap(cyl2.v1, cyl2.v2)` is exactly an endpoint swap). -/
def flipped (c1 c2 : Cylinder) : Cylinder := if flipQ c1 c2 then swapC c2 else c2

instance (c1 c2 : Cylinder) : Decidable (capsuleExcl c1 c2) :=
  inferInstanceAs (Decidable (1e-6 < |aivDen1 c1 c2| ∧ 1e-6 < |aivDen2 c1 c2| ∧
    (c2.radius + c1.radius) * (c2.radius + c1.radius)
      ≤ V3.normSq (V3.sub (aivP1 c1 c2) (aivP2 c1 c2))))

/-- `min(d1, d2)` of the endpoint projections onto `dir`. -/
def projMin (a1 a2 dir : V3) : ℝ := min (V3.dot a1 dir) (V3.dot a2 dir)

/-- `max(d1, d2)` of the endpoint projections onto `dir`. -/
def projMax (a1 a2 dir : V3) : ℝ := max (V3.dot a1 dir) (V3.dot a2 dir)

/-- `minx = min(maxd, maxe)`. -/
def aivMinx (a1 a2 b1 b2 dir : V3) : ℝ := min (projMax a1 a2 dir) (projMax b1 b2 dir)

/-- `maxx = max(mind, mine)`. -/
def aivMaxx (a1 a2 b1 b2 dir : V3) : ℝ := max (projMin a1 a2 dir) (projMin b1 b2 dir)

/-- `midD = (minx + maxx) / 2`. -/
def aivMid (a1 a2 b1 b2 dir : V3) : ℝ :=
  (aivMinx a1 a2 b1 b2 dir + aivMaxx a1 a2 b1 b2 dir) / 2

/-- `pos = v1 + (v2 - v1) * (midD - d1) / (d2 - d1)`. -/
def interp (a1 a2 dir : V3) (mid : ℝ) : V3 :=
  V3.add a1 (V3.smul ((mid - V3.dot a1 dir) / (V3.dot a2 dir - V3.dot a1 dir))
    (V3.sub a2 a1))

/-- `d = (pos1 - pos2).norm()`. -/
def aivD (a1 a2 b1 b2 dir : V3) : ℝ :=
  V3.norm (V3.sub (interp a1 a2 dir (aivMid a1 a2 b1 b2 dir))
    (interp b1 b2 dir (aivMid a1 a2 b1 b2 dir)))

/-- The similar-axes stage of the volume approximation, after the flip, on the
common averaged direction `dir`. -/
def coreAux (r R : ℝ) (a1 a2 b1 b2 dir : V3) : ℝ :=
  if projMax b1 b2 dir ≤ projMin a1 a2 dir ∨ projMax a1 a2 dir ≤ projMin b1 b2 dir then 0
  else if aivMinx a1 a2 b1 b2 dir - aivMaxx a1 a2 b1 b2 dir ≤ 0 then 0
  else if r + R ≤ aivD a1 a2 b1 b2 dir then 0
  else if aivD a1 a2 b1 b2 dir < 1e-6 + max r R - min r R then
    Real.pi * min r R * min r R * (aivMinx a1 a2 b1 b2 dir - aivMaxx a1 a2 b1 b2 dir)
  else
    (r * r * Real.arccos ((aivD a1 a2 b1 b2 dir * aivD a1 a2 b1 b2 dir + r * r - R * R)
        / (2 * aivD a1 a2 b1 b2 dir * r))
      + R * R * Real.arccos ((aivD a1 a2 b1 b2 dir * aivD a1 a2 b1 b2 dir + R * R - r * r)
        / (2 * aivD a1 a2 b1 b2 dir * R))
      - 0.5 * Real.sqrt ((-aivD a1 a2 b1 b2 dir + r + R) * (aivD a1 a2 b1 b2 dir + r - R)
        * (aivD a1 a2 b1 b2 dir - r + R) * (aivD a1 a2 b1 b2 dir + r + R)))
    * (aivMinx a1 a2 b1 b2 dir - aivMaxx a1 a2 b1 b2 dir)

/-- The averaged common direction `(dir1 + dir2).normalized()` (after flip). -/
def aivUdir (c1 c2 : Cylinder) : V3 :=
  V3.normalized (V3.add (dirOf c1) (dirOf (flipped c1 c2)))

/-- The whole function `tree::approximateIntersectionVolume`. -/
def approximateIntersectionVolume (c1 c2 : Cylinder) : ℝ :=
  if capsuleExcl c1 c2 then 0
  else coreAux c1.radius c2.radius c1.v1 c1.v2 (flipped c1 c2).v1 (flipped c1 c2).v2
    (aivUdir c1 c2)

/-! ### Vector algebra helpers -/

lemma V3eq {a b : V3} (hx : a.x = b.x) (hy : a.y = b.y) (hz : a.z = b.z) : a = b := by
  cases a; cases b; simp_all

lemma normSq_sub_comm (a b : V3) : V3.normSq (V3.sub a b) = V3.normSq (V3.sub b a) := by
  unfold V3.normSq V3.dot V3.sub
  ring_nf

/-! ### Symmetry of the capsule exclusion test -/

lemma aivDen1_swap (c1 c2 : Cylinder) : aivDen1 c2 c1 = -aivDen2 c1 c2 := by
  unfold aivDen1 aivDen2 aivSide1 aivSide2 aivCr dirOf V3.cross V3.dot V3.sub
  ring

lemma aivDen2_swap (c1 c2 : Cylinder) : aivDen2 c2 c1 = -aivDen1 c1 c2 := by
  unfold aivDen1 aivDen2 aivSide1 aivSide2 aivCr dirOf V3.cross V3.dot V3.sub
  ring

lemma aivF1_swap (c1 c2 : Cylinder) : aivF1 c2 c1 = aivF2 c1 c2 := by
  unfold aivF1 aivF2
  rw [aivDen1_swap]
  rw [show -(V3.dot (V3.sub c2.v1 c1.v1) (aivSide2 c2 c1))
      = V3.dot (V3.sub c2.v1 c1.v1) (aivSide1 c1 c2) from by
    unfold aivSide1 aivSide2 aivCr dirOf V3.cross V3.dot V3.sub; ring]
  rw [div_neg, ← neg_div]

lemma aivF2_swap (c1 c2 : Cylinder) : aivF2 c2 c1 = aivF1 c1 c2 := by
  unfold aivF1 aivF2
  rw [aivDen2_swap]
  rw [show -(V3.dot (V3.sub c1.v1 c2.v1) (aivSide1 c2 c1))
      = V3.dot (V3.sub c1.v1 c2.v1) (aivSide2 c1 c2) from by
    unfold aivSide1 aivSide2 aivCr dirOf V3.cross V3.dot V3.sub; ring]
  rw [div_neg, ← neg_div]

lemma aivP1_swap (c1 c2 : Cylinder) : aivP1 c2 c1 = aivP2 c1 c2 := by
  unfold aivP1 aivP2
  rw [aivF1_swap]

lemma aivP2_swap (c1 c2 : Cylinder) : aivP2 c2 c1 = aivP1 c1 c2 := by
  unfold aivP1 aivP2
  rw [aivF2_swap]

lemma capsuleExcl_symm (c1 c2 : Cylinder) : capsuleExcl c2 c1 ↔ capsuleExcl c1 c2 := by
  unfold capsuleExcl
  rw [aivDen1_swap c1 c2, aivDen2_swap c1 c2, aivP1_swap c1 c2, aivP2_swap c1 c2,
    abs_neg, abs_neg, normSq_sub_comm (aivP2 c1 c2) (aivP1 c1 c2),
    add_comm c1.radius c2.radius]
  exact and_left_comm

/-! ### Swap symmetry of the similar-axes stage -/

lemma aivMinx_comm (a1 a2 b1 b2 dir : V3) :
    aivMinx b1 b2 a1 a2 dir = aivMinx a1 a2 b1 b2 dir := by
  unfold aivMinx; exact min_comm _ _

lemma aivMaxx_comm (a1 a2 b1 b2 dir : V3) :
    aivMaxx b1 b2 a1 a2 dir = aivMaxx a1 a2 b1 b2 dir := by
  unfold aivMaxx; exact max_comm _ _

lemma aivMid_comm (a1 a2 b1 b2 dir : V3) :
    aivMid b1 b2 a1 a2 dir = aivMid a1 a2 b1 b2 dir := by
  unfold aivMid
  rw [aivMinx_comm, aivMaxx_comm]

lemma aivD_comm (a1 a2 b1 b2 dir : V3) :
    aivD b1 b2 a1 a2 dir = aivD a1 a2 b1 b2 dir := by
  unfold aivD
  rw [aivMid_comm]
  exact V3.norm_sub_comm _ _

lemma coreAux_swap (r R : ℝ) (a1 a2 b1 b2 dir : V3) :
    coreAux R r b1 b2 a1 a2 dir = coreAux r R a1 a2 b1 b2 dir := by
  unfold coreAux
  simp only [aivMinx_comm a1 a2 b1 b2 dir, aivMaxx_comm a1 a2 b1 b2 dir,
    aivD_comm a1 a2 b1 b2 dir, min_comm R r, max_comm R r, add_comm R r,
    @or_comm (projMax a1 a2 dir ≤ projMin b1 b2 dir) (projMax b1 b2 dir ≤ projMin a1 a2 dir)]
  split_ifs with h1 h2 h3 h4
  · rfl
  · rfl
  · rfl
  · rfl
  · rw [show (-aivD a1 a2 b1 b2 dir + R + r) * (aivD a1 a2 b1 b2 dir + R - r)
        * (aivD a1 a2 b1 b2 dir - R + r) * (aivD a1 a2 b1 b2 dir + R + r)
        = (-aivD a1 a2 b1 b2 dir + r + R) * (aivD a1 a2 b1 b2 dir + r - R)
        * (aivD a1 a2 b1 b2 dir - r + R) * (aivD a1 a2 b1 b2 dir + r + R) from by ring]
    ring

/-! ### Invariance under negating the axis and swapping all endpoints -/

lemma dot_negdir (a dir : V3) : V3.dot a (V3.smul (-1) dir) = -V3.dot a dir := by
  unfold V3.dot V3.smul
  ring

lemma projMin_negswap (a1 a2 dir : V3) :
    projMin a2 a1 (V3.smul (-1) dir) = -projMax a1 a2 dir := by
  unfold projMin projMax
  rw [dot_negdir, dot_negdir, min_neg_neg, max_comm]

lemma projMax_negswap (a1 a2 dir : V3) :
    projMax a2 a1 (V3.smul (-1) dir) = -projMin a1 a2 dir := by
  unfold projMin projMax
  rw [dot_negdir, dot_negdir, max_neg_neg, min_comm]

lemma aivMinx_negswap (a1 a2 b1 b2 dir : V3) :
    aivMinx a2 a1 b2 b1 (V3.smul (-1) dir) = -aivMaxx a1 a2 b1 b2 dir := by
  unfold aivMinx aivMaxx
  rw [projMax_negswap, projMax_negswap, min_neg_neg]

lemma aivMaxx_negswap (a1 a2 b1 b2 dir : V3) :
    aivMaxx a2 a1 b2 b1 (V3.smul (-1) dir) = -aivMinx a1 a2 b1 b2 dir := by
  unfold aivMinx aivMaxx
  rw [projMin_negswap, projMin_negswap, max_neg_neg]

lemma aivMid_negswap (a1 a2 b1 b2 dir : V3) :
    aivMid a2 a1 b2 b1 (V3.smul (-1) dir) = -aivMid a1 a2 b1 b2 dir := by
  unfold aivMid
  rw [aivMinx_negswap, aivMaxx_negswap]
  ring

lemma interp_negswap (a1 a2 dir : V3) (mid : ℝ)
    (hd : V3.dot a1 dir ≠ V3.dot a2 dir) :
    interp a2 a1 (V3.smul (-1) dir) (-mid) = interp a1 a2 dir mid := by
  unfold interp
  rw [dot_negdir, dot_negdir]
  have hden : V3.dot a2 dir - V3.dot a1 dir ≠ 0 := sub_ne_zero.mpr (Ne.symm hd)
  set τ := (mid - V3.dot a1 dir) / (V3.dot a2 dir - V3.dot a1 dir) with hτ
  have hc : (-mid - -V3.dot a2 dir) / (-V3.dot a1 dir - -V3.dot a2 dir) = 1 - τ := by
    rw [hτ]
    rw [show -V3.dot a1 dir - -V3.dot a2 dir = V3.dot a2 dir - V3.dot a1 dir from by ring]
    rw [show -mid - -V3.dot a2 dir
        = (V3.dot a2 dir - V3.dot a1 dir) - (mid - V3.dot a1 dir) from by ring]
    rw [sub_div, div_self hden]
  rw [hc]
  refine V3eq ?_ ?_ ?_ <;>
    (unfold V3.add V3.smul V3.sub; dsimp only; ring)

lemma aivD_negswap (a1 a2 b1 b2 dir : V3)
    (hd : V3.dot a1 dir ≠ V3.dot a2 dir) (he : V3.dot b1 dir ≠ V3.dot b2 dir) :
    aivD a2 a1 b2 b1 (V3.smul (-1) dir) = aivD a1 a2 b1 b2 dir := by
  unfold aivD
  rw [aivMid_negswap, interp_negswap a1 a2 dir _ hd, interp_negswap b1 b2 dir _ he]

lemma coreAux_negswap (r R : ℝ) (a1 a2 b1 b2 dir : V3)
    (hd : V3.dot a1 dir ≠ V3.dot a2 dir) (he : V3.dot b1 dir ≠ V3.dot b2 dir) :
    coreAux r R a2 a1 b2 b1 (V3.smul (-1) dir) = coreAux r R a1 a2 b1 b2 dir := by
  unfold coreAux
  simp only [aivMinx_negswap a1 a2 b1 b2 dir, aivMaxx_negswap a1 a2 b1 b2 dir,
    aivD_negswap a1 a2 b1 b2 dir hd he, projMin_negswap a1 a2 dir, projMin_negswap b1 b2 dir,
    projMax_negswap a1 a2 dir, projMax_negswap b1 b2 dir]
  simp only [show ((-projMin b1 b2 dir ≤ -projMax a1 a2 dir ∨
        -projMin a1 a2 dir ≤ -projMax b1 b2 dir)
      ↔ (projMax b1 b2 dir ≤ projMin a1 a2 dir ∨ projMax a1 a2 dir ≤ projMin b1 b2 dir)) from by
    rw [neg_le_neg_iff, neg_le_neg_iff]
    exact or_comm,
    show -aivMaxx a1 a2 b1 b2 dir - -aivMinx a1 a2 b1 b2 dir
      = aivMinx a1 a2 b1 b2 dir - aivMaxx a1 a2 b1 b2 dir from by ring]

/-! ### The three claimed properties -/

lemma dot_comm' (a b : V3) : V3.dot a b = V3.dot b a := by
  unfold V3.dot; ring

lemma dot_sub_left (a b d : V3) : V3.dot (V3.sub a b) d = V3.dot a d - V3.dot b d := by
  unfold V3.dot V3.sub; dsimp only; ring

lemma dirOf_swapC (c : Cylinder) : dirOf (swapC c) = V3.smul (-1) (dirOf c) := by
  unfold dirOf swapC V3.sub V3.smul
  exact V3eq (by dsimp only; ring) (by dsimp only; ring) (by dsimp only; ring)

lemma normalized_neg (v : V3) :
    V3.normalized (V3.smul (-1) v) = V3.smul (-1) (V3.normalized v) := by
  have hn : V3.norm (V3.smul (-1) v) = V3.norm v := by
    unfold V3.norm
    congr 1
    unfold V3.normSq V3.dot V3.smul
    dsimp only
    ring
  unfold V3.normalized
  rw [hn]
  exact V3eq (by unfold V3.smul; dsimp only; ring) (by unfold V3.smul; dsimp only; ring)
    (by unfold V3.smul; dsimp only; ring)

lemma aiv_symm_aux (c1 c2 : Cylinder)
    (hd : V3.dot (dirOf c1) (aivUdir c1 c2) ≠ 0)
    (he : V3.dot (dirOf c2) (aivUdir c1 c2) ≠ 0) :
    approximateIntersectionVolume c1 c2 = approximateIntersectionVolume c2 c1 := by
  unfold approximateIntersectionVolume
  by_cases hcap : capsuleExcl c1 c2
  · rw [if_pos hcap, if_pos ((capsuleExcl_symm c1 c2).mpr hcap)]
  · rw [if_neg hcap, if_neg (fun h => hcap ((capsuleExcl_symm c1 c2).mp h))]
    by_cases hflip : flipQ c1 c2
    · have hflip' : flipQ c2 c1 := by
        unfold flipQ at hflip ⊢
        rw [dot_comm']
        exact hflip
      have hf1 : flipped c1 c2 = swapC c2 := by unfold flipped; rw [if_pos hflip]
      have hf2 : flipped c2 c1 = swapC c1 := by unfold flipped; rw [if_pos hflip']
      have hu : aivUdir c2 c1 = V3.smul (-1) (aivUdir c1 c2) := by
        unfold aivUdir
        rw [hf1, hf2, dirOf_swapC, dirOf_swapC]
        rw [show V3.add (dirOf c2) (V3.smul (-1) (dirOf c1))
            = V3.smul (-1) (V3.add (dirOf c1) (V3.smul (-1) (dirOf c2))) from
          V3eq (by unfold V3.add V3.smul; dsimp only; ring)
            (by unfold V3.add V3.smul; dsimp only; ring)
            (by unfold V3.add V3.smul; dsimp only; ring)]
        exact normalized_neg _
      rw [hf1, hf2, hu]
      show coreAux c1.radius c2.radius c1.v1 c1.v2 c2.v2 c2.v1 (aivUdir c1 c2)
          = coreAux c2.radius c1.radius c2.v1 c2.v2 c1.v2 c1.v1
              (V3.smul (-1) (aivUdir c1 c2))
      have hdns : V3.dot c2.v2 (aivUdir c1 c2) ≠ V3.dot c2.v1 (aivUdir c1 c2) := by
        intro h
        apply he
        unfold dirOf
        rw [dot_sub_left]
        rw [show V3.dot c2.v2 (aivUdir c1 c2) = V3.dot c2.v1 (aivUdir c1 c2) from h]
        ring
      have hens : V3.dot c1.v1 (aivUdir c1 c2) ≠ V3.dot c1.v2 (aivUdir c1 c2) := by
        intro h
        apply hd
        unfold dirOf
        rw [dot_sub_left]
        rw [show V3.dot c1.v1 (aivUdir c1 c2) = V3.dot c1.v2 (aivUdir c1 c2) from h]
        ring
      calc coreAux c1.radius c2.radius c1.v1 c1.v2 c2.v2 c2.v1 (aivUdir c1 c2)
          = coreAux c2.radius c1.radius c2.v2 c2.v1 c1.v1 c1.v2 (aivUdir c1 c2) :=
            coreAux_swap c2.radius c1.radius c2.v2 c2.v1 c1.v1 c1.v2 (aivUdir c1 c2)
        _ = coreAux c2.radius c1.radius c2.v1 c2.v2 c1.v2 c1.v1
              (V3.smul (-1) (aivUdir c1 c2)) :=
            (coreAux_negswap c2.radius c1.radius c2.v2 c2.v1 c1.v1 c1.v2
              (aivUdir c1 c2) hdns hens).symm
    · have hflip' : ¬ flipQ c2 c1 := by
        unfold flipQ at hflip ⊢
        rw [dot_comm']
        exact hflip
      have hf1 : flipped c1 c2 = c2 := by unfold flipped; rw [if_neg hflip]
      have hf2 : flipped c2 c1 = c1 := by unfold flipped; rw [if_neg hflip']
      have hu : aivUdir c2 c1 = aivUdir c1 c2 := by
        unfold aivUdir
        rw [hf1, hf2]
        rw [show V3.add (dirOf c2) (dirOf c1) = V3.add (dirOf c1) (dirOf c2) from
          V3eq (by unfold V3.add; dsimp only; ring) (by unfold V3.add; dsimp only; ring)
            (by unfold V3.add; dsimp only; ring)]
      rw [hf1, hf2, hu]
      exact coreAux_swap c2.radius c1.radius c2.v1 c2.v2 c1.v1 c1.v2 (aivUdir c1 c2)

lemma normSq_pos_of_ne (v : V3) (h : v ≠ V3.zero) : 0 < V3.normSq v := by
  rcases lt_or_eq_of_le (V3.normSq_nonneg v) with hp | h0
  · exact hp
  · exfalso
    apply h
    have h0' : v.x * v.x + v.y * v.y + v.z * v.z = 0 := by
      have h1 := h0.symm
      unfold V3.normSq V3.dot at h1
      exact h1
    have hx : v.x = 0 := mul_self_eq_zero.mp (by
      nlinarith [mul_self_nonneg v.x, mul_self_nonneg v.y, mul_self_nonneg v.z])
    have hy : v.y = 0 := mul_self_eq_zero.mp (by
      nlinarith [mul_self_nonneg v.x, mul_self_nonneg v.y, mul_self_nonneg v.z])
    have hz : v.z = 0 := mul_self_eq_zero.mp (by
      nlinarith [mul_self_nonneg v.x, mul_self_nonneg v.y, mul_self_nonneg v.z])
    exact V3eq hx hy hz

lemma norm_sub_self (w : V3) : V3.norm (V3.sub w w) = 0 := by
  unfold V3.norm
  rw [show V3.normSq (V3.sub w w) = 0 from by
    unfold V3.normSq V3.dot V3.sub; dsimp only; ring]
  exact Real.sqrt_zero

lemma aiv_self_aux (c : Cylinder) (hD : V3.sub c.v2 c.v1 ≠ V3.zero)
    (hr : 0 ≤ c.radius) :
    approximateIntersectionVolume c c
      = Real.pi * c.radius * c.radius * V3.norm (V3.sub c.v2 c.v1) := by
  have hden0 : aivDen1 c c = 0 := by
    unfold aivDen1 aivSide2 aivCr dirOf V3.cross V3.dot V3.sub
    ring
  have hcap : ¬ capsuleExcl c c := by
    intro hc
    have h1 := hc.1
    rw [hden0] at h1
    norm_num at h1
  have hflip : ¬ flipQ c c := not_lt.mpr (V3.normSq_nonneg (dirOf c))
  have hf : flipped c c = c := by unfold flipped; rw [if_neg hflip]
  have hDne : dirOf c ≠ V3.zero := by unfold dirOf; exact hD
  have hnpos : 0 < V3.norm (dirOf c) := Real.sqrt_pos.mpr (normSq_pos_of_ne _ hDne)
  have hnormSq : V3.normSq (dirOf c) = V3.norm (dirOf c) * V3.norm (dirOf c) :=
    (Real.mul_self_sqrt (V3.normSq_nonneg _)).symm
  have haddD : V3.add (dirOf c) (dirOf c) = V3.smul 2 (dirOf c) :=
    V3eq (by unfold V3.add V3.smul; dsimp only; ring)
      (by unfold V3.add V3.smul; dsimp only; ring)
      (by unfold V3.add V3.smul; dsimp only; ring)
  have hnorm2 : V3.norm (V3.smul 2 (dirOf c)) = 2 * V3.norm (dirOf c) := by
    unfold V3.norm
    rw [show V3.normSq (V3.smul 2 (dirOf c)) = (2 : ℝ) ^ 2 * V3.normSq (dirOf c) from by
      unfold V3.normSq V3.dot V3.smul; dsimp only; ring]
    rw [Real.sqrt_mul (by norm_num) (V3.normSq (dirOf c)),
      Real.sqrt_sq (by norm_num : (0 : ℝ) ≤ 2)]
  have hu : aivUdir c c = V3.smul (1 / (2 * V3.norm (dirOf c))) (V3.smul 2 (dirOf c)) := by
    unfold aivUdir
    rw [hf, haddD]
    unfold V3.normalized
    rw [hnorm2]
  have hDu : V3.dot (dirOf c) (aivUdir c c) = V3.norm (dirOf c) := by
    rw [hu]
    rw [show V3.dot (dirOf c) (V3.smul (1 / (2 * V3.norm (dirOf c))) (V3.smul 2 (dirOf c)))
        = (1 / (2 * V3.norm (dirOf c))) * (2 * V3.normSq (dirOf c)) from by
      unfold V3.normSq V3.dot V3.smul; dsimp only; ring]
    rw [hnormSq]
    field_simp
    ring
  have hd21 : V3.dot c.v2 (aivUdir c c) - V3.dot c.v1 (aivUdir c c)
      = V3.norm (dirOf c) := by
    rw [← dot_sub_left]
    exact hDu
  have hd12 : V3.dot c.v1 (aivUdir c c) < V3.dot c.v2 (aivUdir c c) := by linarith
  unfold approximateIntersectionVolume
  rw [if_neg hcap, hf]
  unfold coreAux
  have hmin : projMin c.v1 c.v2 (aivUdir c c) = V3.dot c.v1 (aivUdir c c) :=
    min_eq_left (le_of_lt hd12)
  have hmax : projMax c.v1 c.v2 (aivUdir c c) = V3.dot c.v2 (aivUdir c c) :=
    max_eq_right (le_of_lt hd12)
  have hc1 : ¬ (projMax c.v1 c.v2 (aivUdir c c) ≤ projMin c.v1 c.v2 (aivUdir c c) ∨
      projMax c.v1 c.v2 (aivUdir c c) ≤ projMin c.v1 c.v2 (aivUdir c c)) := by
    rw [hmin, hmax]
    push_neg
    exact ⟨hd12, hd12⟩
  rw [if_neg hc1]
  have hminx : aivMinx c.v1 c.v2 c.v1 c.v2 (aivUdir c c) = V3.dot c.v2 (aivUdir c c) := by
    unfold aivMinx
    rw [hmax, min_self]
  have hmaxx : aivMaxx c.v1 c.v2 c.v1 c.v2 (aivUdir c c) = V3.dot c.v1 (aivUdir c c) := by
    unfold aivMaxx
    rw [hmin, max_self]
  have hlenpos : ¬ (aivMinx c.v1 c.v2 c.v1 c.v2 (aivUdir c c)
      - aivMaxx c.v1 c.v2 c.v1 c.v2 (aivUdir c c) ≤ 0) := by
    rw [hminx, hmaxx]
    push_neg
    linarith
  rw [if_neg hlenpos]
  have hd0 : aivD c.v1 c.v2 c.v1 c.v2 (aivUdir c c) = 0 := by
    unfold aivD
    exact norm_sub_self _
  simp only [hd0]
  rcases eq_or_lt_of_le hr with hr0 | hrpos
  · rw [if_pos (show c.radius + c.radius ≤ (0 : ℝ) from by rw [← hr0]; norm_num)]
    rw [← hr0]
    ring
  · rw [if_neg (show ¬ c.radius + c.radius ≤ (0 : ℝ) from by push_neg; linarith)]
    rw [if_pos (show (0 : ℝ) < 1e-6 + max c.radius c.radius - min c.radius c.radius from by
      rw [max_self, min_self]; norm_num)]
    rw [min_self, hminx, hmaxx, hd21]
    rfl

lemma div_nonneg_np {a b : ℝ} (ha : a ≤ 0) (hb : b ≤ 0) : 0 ≤ a / b := by
  have h : (0 : ℝ) ≤ (-a) / (-b) := div_nonneg (by linarith) (by linarith)
  rwa [neg_div_neg_eq] at h

lemma interp_mem (a1 a2 dir : V3) (mid : ℝ)
    (hlo : min (V3.dot a1 dir) (V3.dot a2 dir) ≤ mid)
    (hhi : mid ≤ max (V3.dot a1 dir) (V3.dot a2 dir)) :
    ∃ s : ℝ, 0 ≤ s ∧ s ≤ 1 ∧
      interp a1 a2 dir mid = V3.add a1 (V3.smul s (V3.sub a2 a1)) := by
  by_cases hP : V3.dot a2 dir - V3.dot a1 dir = 0
  · refine ⟨0, le_rfl, by norm_num, ?_⟩
    unfold interp
    rw [hP, div_zero]
  · have hne : V3.dot a2 dir ≠ V3.dot a1 dir := sub_ne_zero.mp hP
    rcases hne.lt_or_lt with h21 | h12
    · have hhi' : mid ≤ V3.dot a1 dir := by
        rw [max_eq_left (le_of_lt h21)] at hhi
        exact hhi
      have hlo' : V3.dot a2 dir ≤ mid := by
        rw [min_eq_right (le_of_lt h21)] at hlo
        exact hlo
      refine ⟨(mid - V3.dot a1 dir) / (V3.dot a2 dir - V3.dot a1 dir), ?_, ?_, rfl⟩
      · exact div_nonneg_np (by linarith) (by linarith)
      · have h1τ : (0 : ℝ) ≤ (V3.dot a2 dir - mid) / (V3.dot a2 dir - V3.dot a1 dir) :=
          div_nonneg_np (by linarith) (by linarith)
        have heq : (V3.dot a2 dir - mid) / (V3.dot a2 dir - V3.dot a1 dir)
            = 1 - (mid - V3.dot a1 dir) / (V3.dot a2 dir - V3.dot a1 dir) := by
          rw [eq_sub_iff_add_eq, div_add_div_same,
            show V3.dot a2 dir - mid + (mid - V3.dot a1 dir)
              = V3.dot a2 dir - V3.dot a1 dir from by ring,
            div_self hP]
        rw [heq] at h1τ
        linarith
    · have hlo' : V3.dot a1 dir ≤ mid := by
        rw [min_eq_left (le_of_lt h12)] at hlo
        exact hlo
      have hhi' : mid ≤ V3.dot a2 dir := by
        rw [max_eq_right (le_of_lt h12)] at hhi
        exact hhi
      refine ⟨(mid - V3.dot a1 dir) / (V3.dot a2 dir - V3.dot a1 dir), ?_, ?_, rfl⟩
      · exact div_nonneg (by linarith) (by linarith)
      · exact (div_le_one (by linarith)).mpr (by linarith)

lemma sep_core_contra (c1 c2 : Cylinder)
    (hsep : ∀ s t : ℝ, 0 ≤ s → s ≤ 1 → 0 ≤ t → t ≤ 1 →
      c1.radius + c2.radius < V3.norm (V3.sub
        (V3.add c1.v1 (V3.smul s (V3.sub c1.v2 c1.v1)))
        (V3.add c2.v1 (V3.smul t (V3.sub c2.v2 c2.v1)))))
    (hc2 : 0 < aivMinx c1.v1 c1.v2 (flipped c1 c2).v1 (flipped c1 c2).v2 (aivUdir c1 c2)
      - aivMaxx c1.v1 c1.v2 (flipped c1 c2).v1 (flipped c1 c2).v2 (aivUdir c1 c2))
    (hc3 : aivD c1.v1 c1.v2 (flipped c1 c2).v1 (flipped c1 c2).v2 (aivUdir c1 c2)
      < c1.radius + c2.radius) : False := by
  have hmaxle : aivMaxx c1.v1 c1.v2 (flipped c1 c2).v1 (flipped c1 c2).v2 (aivUdir c1 c2)
      ≤ aivMid c1.v1 c1.v2 (flipped c1 c2).v1 (flipped c1 c2).v2 (aivUdir c1 c2) := by
    unfold aivMid
    linarith
  have hmidle : aivMid c1.v1 c1.v2 (flipped c1 c2).v1 (flipped c1 c2).v2 (aivUdir c1 c2)
      ≤ aivMinx c1.v1 c1.v2 (flipped c1 c2).v1 (flipped c1 c2).v2 (aivUdir c1 c2) := by
    unfold aivMid
    linarith
  have hloA : min (V3.dot c1.v1 (aivUdir c1 c2)) (V3.dot c1.v2 (aivUdir c1 c2))
      ≤ aivMid c1.v1 c1.v2 (flipped c1 c2).v1 (flipped c1 c2).v2 (aivUdir c1 c2) := by
    refine le_trans ?_ hmaxle
    unfold aivMaxx projMin
    exact le_max_left _ _
  have hhiA : aivMid c1.v1 c1.v2 (flipped c1 c2).v1 (flipped c1 c2).v2 (aivUdir c1 c2)
      ≤ max (V3.dot c1.v1 (aivUdir c1 c2)) (V3.dot c1.v2 (aivUdir c1 c2)) := by
    refine le_trans hmidle ?_
    unfold aivMinx projMax
    exact min_le_left _ _
  have hloB : min (V3.dot (flipped c1 c2).v1 (aivUdir c1 c2))
        (V3.dot (flipped c1 c2).v2 (aivUdir c1 c2))
      ≤ aivMid c1.v1 c1.v2 (flipped c1 c2).v1 (flipped c1 c2).v2 (aivUdir c1 c2) := by
    refine le_trans ?_ hmaxle
    unfold aivMaxx projMin
    exact le_max_right _ _
  have hhiB : aivMid c1.v1 c1.v2 (flipped c1 c2).v1 (flipped c1 c2).v2 (aivUdir c1 c2)
      ≤ max (V3.dot (flipped c1 c2).v1 (aivUdir c1 c2))
          (V3.dot (flipped c1 c2).v2 (aivUdir c1 c2)) := by
    refine le_trans hmidle ?_
    unfold aivMinx projMax
    exact min_le_right _ _
  obtain ⟨s, hs0, hs1, hPa⟩ := interp_mem c1.v1 c1.v2 (aivUdir c1 c2) _ hloA hhiA
  obtain ⟨t, ht0, ht1, hPb⟩ := interp_mem (flipped c1 c2).v1 (flipped c1 c2).v2
    (aivUdir c1 c2) _ hloB hhiB
  by_cases hflip : flipQ c1 c2
  · have hBs : flipped c1 c2 = swapC c2 := by unfold flipped; rw [if_pos hflip]
    have hPb' : interp (flipped c1 c2).v1 (flipped c1 c2).v2 (aivUdir c1 c2)
          (aivMid c1.v1 c1.v2 (flipped c1 c2).v1 (flipped c1 c2).v2 (aivUdir c1 c2))
        = V3.add c2.v1 (V3.smul (1 - t) (V3.sub c2.v2 c2.v1)) := by
      rw [hPb, hBs]
      exact V3eq (by unfold swapC V3.add V3.smul V3.sub; dsimp only; ring)
        (by unfold swapC V3.add V3.smul V3.sub; dsimp only; ring)
        (by unfold swapC V3.add V3.smul V3.sub; dsimp only; ring)
    have hd := hsep s (1 - t) hs0 hs1 (by linarith) (by linarith)
    have haivd : aivD c1.v1 c1.v2 (flipped c1 c2).v1 (flipped c1 c2).v2 (aivUdir c1 c2)
        = V3.norm (V3.sub
          (V3.add c1.v1 (V3.smul s (V3.sub c1.v2 c1.v1)))
          (V3.add c2.v1 (V3.smul (1 - t) (V3.sub c2.v2 c2.v1)))) := by
      unfold aivD
      rw [hPa, hPb']
    rw [haivd] at hc3
    linarith
  · have hBs : flipped c1 c2 = c2 := by unfold flipped; rw [if_neg hflip]
    have hPb' : interp (flipped c1 c2).v1 (flipped c1 c2).v2 (aivUdir c1 c2)
          (aivMid c1.v1 c1.v2 (flipped c1 c2).v1 (flipped c1 c2).v2 (aivUdir c1 c2))
        = V3.add c2.v1 (V3.smul t (V3.sub c2.v2 c2.v1)) := by
      rw [hPb, hBs]
    have hd := hsep s t hs0 hs1 ht0 ht1
    have haivd : aivD c1.v1 c1.v2 (flipped c1 c2).v1 (flipped c1 c2).v2 (aivUdir c1 c2)
        = V3.norm (V3.sub
          (V3.add c1.v1 (V3.smul s (V3.sub c1.v2 c1.v1)))
          (V3.add c2.v1 (V3.smul t (V3.sub c2.v2 c2.v1)))) := by
      unfold aivD
      rw [hPa, hPb']
    rw [haivd] at hc3
    linarith

lemma aiv_sep_aux (c1 c2 : Cylinder)
    (hsep : ∀ s t : ℝ, 0 ≤ s → s ≤ 1 → 0 ≤ t → t ≤ 1 →
      c1.radius + c2.radius < V3.norm (V3.sub
        (V3.add c1.v1 (V3.smul s (V3.sub c1.v2 c1.v1)))
        (V3.add c2.v1 (V3.smul t (V3.sub c2.v2 c2.v1))))) :
    approximateIntersectionVolume c1 c2 = 0 := by
  unfold approximateIntersectionVolume
  by_cases hcap : capsuleExcl c1 c2
  · rw [if_pos hcap]
  · rw [if_neg hcap]
    unfold coreAux
    split_ifs with hc1 hc2 hc3 hc4
    · rfl
    · rfl
    · rfl
    · exact absurd (sep_core_contra c1 c2 hsep (by push_neg at hc2; linarith)
        (by push_neg at hc3; linarith)) id
    · exact absurd (sep_core_contra c1 c2 hsep (by push_neg at hc2; linarith)
        (by push_neg at hc3; linarith)) id

/-- **C6.**  `approximateIntersectionVolume` is (i) symmetric in its two
cylinder arguments whenever neither axis is perpendicular to the averaged
common direction (the degenerate midpoint interpolations divide by zero
otherwise; the claim's "within floating tolerance" is exact equality in the
real-number model), (ii) on a nondegenerate cylinder against itself returns
exactly `π·r²·length`, and (iii) returns exactly 0 whenever the two bounding
capsules (segments inflated by the radii) are strictly separated. -/
theorem approximateIntersectionVolume_props :
    (∀ c1 c2 : Cylinder,
        V3.dot (dirOf c1) (aivUdir c1 c2) ≠ 0 →
        V3.dot (dirOf c2) (aivUdir c1 c2) ≠ 0 →
        approximateIntersectionVolume c1 c2 = approximateIntersectionVolume c2 c1) ∧
    (∀ c : Cylinder, V3.sub c.v2 c.v1 ≠ V3.zero → 0 ≤ c.radius →
        approximateIntersectionVolume c c
          = Real.pi * c.radius * c.radius * V3.norm (V3.sub c.v2 c.v1)) ∧
    (∀ c1 c2 : Cylinder,
        (∀ s t : ℝ, 0 ≤ s → s ≤ 1 → 0 ≤ t → t ≤ 1 →
          c1.radius + c2.radius < V3.norm (V3.sub
            (V3.add c1.v1 (V3.smul s (V3.sub c1.v2 c1.v1)))
            (V3.add c2.v1 (V3.smul t (V3.sub c2.v2 c2.v1))))) →
        approximateIntersectionVolume c1 c2 = 0) :=
  ⟨aiv_symm_aux, aiv_self_aux, aiv_sep_aux⟩

/-- A vertical unit-radius cylinder at the origin. -/
def cylA : Cylinder := ⟨V3.zero, ⟨0, 0, 1⟩, 1⟩

/-- The same cylinder shifted to `x = 3`. -/
def cylB : Cylinder := ⟨⟨3, 0, 0⟩, ⟨3, 0, 1⟩, 1⟩

/-- The same cylinder shifted to `x = 10` (far away). -/
def cylFar : Cylinder := ⟨⟨10, 0, 0⟩, ⟨10, 0, 1⟩, 1⟩

lemma sqrt_four : Real.sqrt 4 = 2 := by
  rw [show (4 : ℝ) = 2 ^ 2 from by norm_num, Real.sqrt_sq (by norm_num : (0 : ℝ) ≤ 2)]

lemma cylAB_udir : aivUdir cylA cylB = ⟨0, 0, 1⟩ := by
  unfold aivUdir flipped
  rw [if_neg (show ¬ flipQ cylA cylB from by
    unfold flipQ dirOf V3.dot V3.sub cylA cylB V3.zero
    norm_num)]
  rw [show V3.add (dirOf cylA) (dirOf cylB) = ⟨0, 0, 2⟩ from by
    refine V3eq ?_ ?_ ?_ <;> (unfold dirOf V3.add V3.sub cylA cylB V3.zero; dsimp only; norm_num)]
  unfold V3.normalized
  rw [show V3.norm ⟨0, 0, 2⟩ = 2 from by
    unfold V3.norm V3.normSq V3.dot
    rw [show ((⟨0, 0, 2⟩ : V3).x * (⟨0, 0, 2⟩ : V3).x + (⟨0, 0, 2⟩ : V3).y * (⟨0, 0, 2⟩ : V3).y
        + (⟨0, 0, 2⟩ : V3).z * (⟨0, 0, 2⟩ : V3).z) = (4 : ℝ) from by dsimp only; norm_num]
    exact sqrt_four]
  refine V3eq ?_ ?_ ?_ <;> (unfold V3.smul; dsimp only; norm_num)

lemma cylA_dir_ne : V3.dot (dirOf cylA) (aivUdir cylA cylB) ≠ 0 := by
  rw [cylAB_udir]
  unfold dirOf V3.dot V3.sub cylA V3.zero
  norm_num

lemma cylB_dir_ne : V3.dot (dirOf cylB) (aivUdir cylA cylB) ≠ 0 := by
  rw [cylAB_udir]
  unfold dirOf V3.dot V3.sub cylB
  norm_num

lemma cylA_nondeg : V3.sub cylA.v2 cylA.v1 ≠ V3.zero := by
  intro h
  have hz := congrArg V3.z h
  unfold cylA V3.sub V3.zero at hz
  norm_num at hz

lemma cylA_far_sep : ∀ s t : ℝ, 0 ≤ s → s ≤ 1 → 0 ≤ t → t ≤ 1 →
    cylA.radius + cylFar.radius < V3.norm (V3.sub
      (V3.add cylA.v1 (V3.smul s (V3.sub cylA.v2 cylA.v1)))
      (V3.add cylFar.v1 (V3.smul t (V3.sub cylFar.v2 cylFar.v1)))) := by
  intro s t hs0 hs1 ht0 ht1
  rw [show V3.sub (V3.add cylA.v1 (V3.smul s (V3.sub cylA.v2 cylA.v1)))
        (V3.add cylFar.v1 (V3.smul t (V3.sub cylFar.v2 cylFar.v1)))
      = ⟨-10, 0, s - t⟩ from by
    refine V3eq ?_ ?_ ?_ <;>
      (unfold cylA cylFar V3.add V3.smul V3.sub V3.zero; dsimp only; ring)]
  unfold V3.norm V3.normSq V3.dot cylA cylFar
  dsimp only
  have h100 : (100 : ℝ) ≤ -10 * -10 + 0 * 0 + (s - t) * (s - t) := by nlinarith
  have hmono := Real.sqrt_le_sqrt h100
  have h10 : Real.sqrt 100 = 10 := by
    rw [show (100 : ℝ) = 10 ^ 2 from by norm_num,
      Real.sqrt_sq (by norm_num : (0 : ℝ) ≤ 10)]
  rw [h10] at hmono
  linarith

/-- **C6, witness.**  The three parts of the theorem apply at concrete
cylinders: two parallel unit cylinders 3 apart (symmetry), a cylinder against
itself (self-overlap), and two parallel unit cylinders 10 apart
(capsule separation). -/
theorem approximateIntersectionVolume_props_witness :
    (V3.dot (dirOf cylA) (aivUdir cylA cylB) ≠ 0 ∧
     V3.dot (dirOf cylB) (aivUdir cylA cylB) ≠ 0 ∧
     V3.sub cylA.v2 cylA.v1 ≠ V3.zero ∧ 0 ≤ cylA.radius ∧
     (∀ s t : ℝ, 0 ≤ s → s ≤ 1 → 0 ≤ t → t ≤ 1 →
       cylA.radius + cylFar.radius < V3.norm (V3.sub
         (V3.add cylA.v1 (V3.smul s (V3.sub cylA.v2 cylA.v1)))
         (V3.add cylFar.v1 (V3.smul t (V3.sub cylFar.v2 cylFar.v1)))))) ∧
    (approximateIntersectionVolume cylA cylB = approximateIntersectionVolume cylB cylA ∧
     approximateIntersectionVolume cylA cylA
       = Real.pi * cylA.radius * cylA.radius * V3.norm (V3.sub cylA.v2 cylA.v1) ∧
     approximateIntersectionVolume cylA cylFar = 0) :=
  ⟨⟨cylA_dir_ne, cylB_dir_ne, cylA_nondeg, by norm_num [cylA], cylA_far_sep⟩,
   ⟨approximateIntersectionVolume_props.1 cylA cylB cylA_dir_ne cylB_dir_ne,
    approximateIntersectionVolume_props.2.1 cylA cylA_nondeg (by norm_num [cylA]),
    approximateIntersectionVolume_props.2.2 cylA cylFar cylA_far_sep⟩⟩

end TreeTools
